import Mathlib

/-!
# Verification of `dct.go` (package `dct`)

The package has two functions, `FDCT` and `IDCT`, over gonum's `*mat.Dense`.
The development below embeds them as state-passing functions over a heap of
matrices and proves the properties of the specification about them.

* Go pointers `*mat.Dense` are addresses into a heap (a list of matrices); the
  `nil` destination is `none`.  Each matrix of the heap owns its cells: two
  pointers alias when they are the same address.
* A panic stops execution and keeps the heap as it was at that moment.
* `float64` is idealised: the transforms are written over an arbitrary field
  with the three `math` operations they use (`math.Cos`, `math.Sqrt`,
  `math.Pi`) passed in; the theorems take the field to be `ℝ` with
  `Real.cos`, `Real.sqrt` and `Real.pi`.
-/

namespace Dct

/-! ## The matrix library used by the package -/

/-- The ways a call can panic: the package's own error
"dct: matrix dimensions must be even", the matrix library's out-of-range
index errors, and the dereference of a pointer that holds no matrix. -/
inductive Panic where
  | dimsOdd
  | rowAccess
  | colAccess
  | nilPointer
  deriving DecidableEq, Repr

/-- Modelled from the spec: gonum's `mat.Dense` is imported by the package and
is not part of it.  The spec describes it as a dense real container with a row
count, a column count and zero-based element read and write. -/
structure Dense (α : Type) where
  rows : Nat
  cols : Nat
  data : Nat → Nat → α

/-- The heap: the matrix stored at each address. -/
abbrev Heap (α : Type) := List (Dense α)

/-- The state after running some statements: the heap, and the panic that
stopped them if one did. -/
structure Exec (α : Type) where
  heap : Heap α
  fault : Option Panic

/-- The state after a call and what it returned: an address, or a panic. -/
structure Outcome (α : Type) where
  heap : Heap α
  ret : Except Panic Nat

variable {α : Type}

/-- Modelled from the spec: `m.Dims()`, the dimensions query. -/
def Dense.Dims (m : Dense α) : Nat × Nat := (m.rows, m.cols)

/-- Modelled from the spec: `m.At(i, j)`, element read by zero-based index;
an index outside the matrix panics. -/
def Dense.At (m : Dense α) (i j : Nat) : Except Panic α :=
  if i < m.rows then
    if j < m.cols then .ok (m.data i j) else .error .colAccess
  else .error .rowAccess

/-- Modelled from the spec: `m.Set(i, j, v)`, element write by zero-based
index; an index outside the matrix panics, and the dimensions never change. -/
def Dense.Set (m : Dense α) (i j : Nat) (v : α) : Except Panic (Dense α) :=
  if i < m.rows then
    if j < m.cols then
      .ok { m with data := fun a b => if a = i ∧ b = j then v else m.data a b }
    else .error .colAccess
  else .error .rowAccess

/-- Modelled from the spec: `mat.NewDense(r, c, nil)`, "a new matrix is
allocated": an `r × c` matrix of zeros. -/
def NewDense [Zero α] (r c : Nat) : Dense α := ⟨r, c, fun _ _ => 0⟩

/-- The read `p.At(i, j)` through the pointer `p`. -/
def heapAt (h : Heap α) (p i j : Nat) : Except Panic α :=
  match h[p]? with
  | none => .error .nilPointer
  | some m => m.At i j

/-- The write `p.Set(i, j, v)` through the pointer `p`. -/
def heapSet (h : Heap α) (p i j : Nat) (v : α) : Exec α :=
  match h[p]? with
  | none => ⟨h, some .nilPointer⟩
  | some m =>
    match m.Set i j v with
    | .error e => ⟨h, some e⟩
    | .ok m' => ⟨h.set p m', none⟩

/-! ## Loops -/

/-- One iteration of a loop: nothing runs once a panic has been raised. -/
def forStep (body : Nat → Heap α → Exec α) (st : Exec α) (i : Nat) : Exec α :=
  match st.fault with
  | some _ => st
  | none => body i st.heap

/-- The loop `for i := 0; i < n; i++ { body }` over the heap: the iterations
run in order and a panic ends the loop. -/
def forLoop (n : Nat) (body : Nat → Heap α → Exec α) (h : Heap α) : Exec α :=
  (List.range n).foldl (forStep body) ⟨h, none⟩

/-- The loop `for i := 0; i < n; i++ { body }` that only updates the
accumulator `sum`; a panic ends the loop. -/
def sumLoop (n : Nat) (body : Nat → α → Except Panic α) (sum : α) : Except Panic α :=
  (List.range n).foldlM (fun s i => body i s) sum

/-! ## The transforms -/

section Transforms

variable [Field α] (cos sqrt : α → α) (pi : α)

/-- Lines 31-37 of `dct.go`: the two inner loops of `FDCT`, accumulating
`sum` over `in1` and `n2`. -/
def fdctSum (h : Heap α) (src r c : Nat) (k1 k2 : α) : Except Panic α :=
  let N1 : α := (r : α)
  let N2 : α := (c : α)
  sumLoop r (fun in1 sum =>
    let n1 : α := (in1 : α)
    sumLoop c (fun n2 sum => do
      let x ← heapAt h src in1 n2
      pure (sum + x * cos (pi / N1 * (n1 + 0.5) * k1) * cos (pi / N2 * ((n2 : α) + 0.5) * k2)))
      sum) 0

/-- Lines 28-49 of `dct.go`: the body of the two outer loops of `FDCT` for
the output cell `(ik1, ik2)`. -/
def fdctCell (src dst r c ik1 ik2 : Nat) (h : Heap α) : Exec α :=
  let N1 : α := (r : α)
  let N2 : α := (c : α)
  let k1 : α := (ik1 : α)
  let k2 : α := (ik2 : α)
  match fdctSum cos pi h src r c k1 k2 with
  | .error e => ⟨h, some e⟩
  | .ok sum =>
    let ck1 := if ik1 = 0 then 1 / sqrt N1 else sqrt (2 / N1)
    let ck2 := if ik2 = 0 then 1 / sqrt N2 else sqrt (2 / N2)
    heapSet h dst ik1 ik2 (sum * ck1 * ck2)

/-- The function `FDCT(src, dst)` of `dct.go`. -/
def FDCT (h : Heap α) (src : Nat) (dst : Option Nat) : Outcome α :=
  match h[src]? with
  | none => ⟨h, .error .nilPointer⟩
  | some m =>
    let (r, c) := m.Dims
    if r % 2 != 0 || c % 2 != 0 then ⟨h, .error .dimsOdd⟩
    else
      let (h1, d) := match dst with
        | none => (h ++ [NewDense r c], h.length)
        | some d => (h, d)
      let e := forLoop r (fun ik1 => forLoop c (fun ik2 => fdctCell cos sqrt pi src d r c ik1 ik2)) h1
      match e.fault with
      | some p => ⟨e.heap, .error p⟩
      | none => ⟨e.heap, .ok d⟩

/-- Lines 72-88 of `dct.go`: the two inner loops of `IDCT`, accumulating
`sum` over `in1` and `n2`, with `cn1` and `cn2` set in the loops. -/
def idctSum (h : Heap α) (src r c : Nat) (k1 k2 : α) : Except Panic α :=
  let N1 : α := (r : α)
  let N2 : α := (c : α)
  sumLoop r (fun in1 sum =>
    let cn1 := if in1 = 0 then 1 / sqrt N1 else sqrt (2 / N1)
    let n1 : α := (in1 : α)
    sumLoop c (fun n2 sum => do
      let cn2 := if n2 = 0 then 1 / sqrt N2 else sqrt (2 / N2)
      let x ← heapAt h src in1 n2
      pure (sum + x * cn1 * cn2 * cos (pi / N1 * (k1 + 0.5) * n1) * cos (pi / N2 * (k2 + 0.5) * (n2 : α))))
      sum) 0

/-- Lines 69-89 of `dct.go`: the body of the two outer loops of `IDCT` for
the output cell `(ik1, ik2)`. -/
def idctCell (src dst r c ik1 ik2 : Nat) (h : Heap α) : Exec α :=
  let k1 : α := (ik1 : α)
  let k2 : α := (ik2 : α)
  match idctSum cos sqrt pi h src r c k1 k2 with
  | .error e => ⟨h, some e⟩
  | .ok sum => heapSet h dst ik1 ik2 sum

/-- The function `IDCT(src, dst)` of `dct.go`. -/
def IDCT (h : Heap α) (src : Nat) (dst : Option Nat) : Outcome α :=
  match h[src]? with
  | none => ⟨h, .error .nilPointer⟩
  | some m =>
    let (r, c) := m.Dims
    if r % 2 != 0 || c % 2 != 0 then ⟨h, .error .dimsOdd⟩
    else
      let (h1, d) := match dst with
        | none => (h ++ [NewDense r c], h.length)
        | some d => (h, d)
      let e := forLoop r (fun ik1 => forLoop c (fun ik2 => idctCell cos sqrt pi src d r c ik1 ik2)) h1
      match e.fault with
      | some p => ⟨e.heap, .error p⟩
      | none => ⟨e.heap, .ok d⟩

end Transforms

/-! ## The test file -/

/-- Modelled from the spec: `mat.NewDense(r, c, data)` with the cells given
row by row, as in the concrete scenarios of the spec. -/
def NewDenseOf [Zero α] (r c : Nat) (data : List α) : Dense α :=
  ⟨r, c, fun i j => data.getD (i * c + j) 0⟩

/-- The function `different` of `dct_test.go`.  The quotient is a `float64`
quotient: when the divisor `|a+b|` is zero it is `+Inf`, above every
tolerance, if the dividend `|a-b|` is positive, and `NaN`, above nothing, if
the dividend is zero. -/
def different [LinearOrderedField α] (a b tolerance : α) : Bool :=
  let quotientAbove : Bool :=
    if |a + b| = 0 then decide (0 < |a - b|)
    else decide (|a - b| / |a + b| * 2 > tolerance)
  if quotientAbove && decide (|a - b| > tolerance) then true else false

/-- The first matrix of `TestDCT`, `4 × 4`. -/
def testA [Field α] : Dense α :=
  NewDenseOf 4 4 [0, 1, 2, 3, 4, 5, 6, 7, 8, 9, 10, 11, 12, 13, 14, 15]

/-- The second matrix of `TestDCT`, `2 × 2`. -/
def testB [Field α] : Dense α := NewDenseOf 2 2 [0, 1, 0, 1]

/-- The third matrix of `TestDCT`, `2 × 2`. -/
def testC [Field α] : Dense α := NewDenseOf 2 2 [6, 1, 6, 1]

/-- The fourth matrix of `TestDCT`, `4 × 2`. -/
def testD [Field α] : Dense α := NewDenseOf 4 2 [0, 1, 2, 3, 4, 5, 6, 7]

/-- The `3 × 4` matrix of the last scenario of the spec (section 8), with
cells `0, 1, ..., 11`. -/
def oddRows [Field α] : Dense α := NewDenseOf 3 4 [0, 1, 2, 3, 4, 5, 6, 7, 8, 9, 10, 11]

/-! ## The formulas of the specification -/

/-- The matrix a call returned, if it returned one. -/
def Outcome.matrix (o : Outcome α) : Option (Dense α) :=
  match o.ret with
  | .ok d => o.heap[d]?
  | .error _ => none

/-- The normalization coefficient `c(k, N)` of the spec: `1/sqrt(N)` when
`k = 0`, else `sqrt(2/N)`. -/
def coef [Field α] (sqrt : α → α) (k N : Nat) : α :=
  if k = 0 then 1 / sqrt (N : α) else sqrt (2 / (N : α))

/-- The forward formula of the spec (section 4.1) for the output cell
`(k1, k2)` of an `R × C` source. -/
def forwardFormula [Field α] (cos sqrt : α → α) (pi : α) (src : Nat → Nat → α)
    (R C k1 k2 : Nat) : α :=
  coef sqrt k1 R * coef sqrt k2 C *
    ∑ n1 in Finset.range R, ∑ n2 in Finset.range C,
      src n1 n2 * cos (pi / (R : α) * ((n1 : α) + 0.5) * (k1 : α))
        * cos (pi / (C : α) * ((n2 : α) + 0.5) * (k2 : α))

/-- The inverse formula of the spec (section 4.2) for the output cell
`(k1, k2)` of an `R × C` source. -/
def inverseFormula [Field α] (cos sqrt : α → α) (pi : α) (src : Nat → Nat → α)
    (R C k1 k2 : Nat) : α :=
  ∑ n1 in Finset.range R, ∑ n2 in Finset.range C,
    src n1 n2 * coef sqrt n1 R * coef sqrt n2 C
      * cos (pi / (R : α) * ((k1 : α) + 0.5) * (n1 : α))
      * cos (pi / (C : α) * ((k2 : α) + 0.5) * (n2 : α))

/-- The sum over all cells of the squared entries of a matrix. -/
def energy [Field α] (m : Dense α) : α :=
  ∑ i in Finset.range m.rows, ∑ j in Finset.range m.cols, m.data i j ^ 2

/-! ## Definitions used in the proofs -/

/-- The matrix `m` after the cell `(i, j)` is overwritten with `v`. -/
def Dense.put (m : Dense α) (i j : Nat) (v : α) : Dense α :=
  { m with data := fun a b => if a = i ∧ b = j then v else m.data a b }

/-- The matrix `m` after the cells of rows `< a` and columns `< c`, and the
cells of row `a` and columns `< b`, are overwritten with the values `F`. -/
def Dense.fill (m : Dense α) (F : Nat → Nat → α) (c a b : Nat) : Dense α :=
  { m with data := fun i j => if (i < a ∧ j < c) ∨ (i = a ∧ j < b) then F i j else m.data i j }

/-- The value of `sum` after the inner loops of `FDCT` for the matrix `m`. -/
def fdctAcc [Field α] (cos : α → α) (pi : α) (m : Dense α) (k1 k2 : α) : α :=
  ∑ n1 in Finset.range m.rows, ∑ n2 in Finset.range m.cols,
    m.data n1 n2 * cos (pi / (m.rows : α) * ((n1 : α) + 0.5) * k1)
      * cos (pi / (m.cols : α) * ((n2 : α) + 0.5) * k2)

/-- The value `sum*ck1*ck2` that `FDCT` stores in the cell `(ik1, ik2)`. -/
def fdctOut [Field α] (cos sqrt : α → α) (pi : α) (m : Dense α) (ik1 ik2 : Nat) : α :=
  fdctAcc cos pi m (ik1 : α) (ik2 : α)
    * (if ik1 = 0 then 1 / sqrt (m.rows : α) else sqrt (2 / (m.rows : α)))
    * (if ik2 = 0 then 1 / sqrt (m.cols : α) else sqrt (2 / (m.cols : α)))

/-- The value of `sum` that `IDCT` stores in the cell `(ik1, ik2)`. -/
def idctOut [Field α] (cos sqrt : α → α) (pi : α) (m : Dense α) (ik1 ik2 : Nat) : α :=
  ∑ n1 in Finset.range m.rows, ∑ n2 in Finset.range m.cols,
    m.data n1 n2
      * (if n1 = 0 then 1 / sqrt (m.rows : α) else sqrt (2 / (m.rows : α)))
      * (if n2 = 0 then 1 / sqrt (m.cols : α) else sqrt (2 / (m.cols : α)))
      * cos (pi / (m.rows : α) * ((ik1 : α) + 0.5) * (n1 : α))
      * cos (pi / (m.cols : α) * ((ik2 : α) + 0.5) * (n2 : α))

/-- The `k`-th normalized cosine basis vector of length `N` at the sample `n`. -/
def basis [Field α] (cos sqrt : α → α) (pi : α) (N k n : Nat) : α :=
  coef sqrt k N * cos (pi / (N : α) * ((n : α) + 0.5) * (k : α))

/-- The one-dimensional transform of length `N` with kernel `A`. -/
def tr1 [Field α] (A : Nat → Nat → α) (N : Nat) (f : Nat → α) (i : Nat) : α :=
  ∑ a in Finset.range N, A i a * f a

/-- The two-dimensional transform with kernel `A` along the row index and
`B` along the column index, written as one double sum. -/
def tr2 [Field α] (A B : Nat → Nat → α) (R C : Nat) (X : Nat → Nat → α) (i j : Nat) : α :=
  ∑ a in Finset.range R, ∑ b in Finset.range C, X a b * A i a * B j b

/-- The matrix `a*X + b*Y`, of the dimensions of `X`. -/
def Dense.axpby [Field α] (a b : α) (X Y : Dense α) : Dense α :=
  ⟨X.rows, X.cols, fun i j => a * X.data i j + b * Y.data i j⟩

/-- The sum over all cells `(i, j)` of an `R × C` block of `X[i,j] * Y[i,j]`. -/
def cellSum [Field α] (R C : Nat) (X Y : Nat → Nat → α) : α :=
  ∑ i in Finset.range R, ∑ j in Finset.range C, X i j * Y i j

/-! ## The two-pass form of the specification -/

/-- The orthonormal one-dimensional DCT-II of length `N` of the sequence `x`,
at the frequency `k`. -/
def dct2 [Field α] (cos sqrt : α → α) (pi : α) (N : Nat) (x : Nat → α) (k : Nat) : α :=
  coef sqrt k N * ∑ n in Finset.range N, x n * cos (pi / (N : α) * ((n : α) + 0.5) * (k : α))

/-- The orthonormal one-dimensional DCT-III of length `N` of the sequence `y`,
at the sample `n`. -/
def dct3 [Field α] (cos sqrt : α → α) (pi : α) (N : Nat) (y : Nat → α) (n : Nat) : α :=
  ∑ k in Finset.range N, coef sqrt k N * y k * cos (pi / (N : α) * ((n : α) + 0.5) * (k : α))

/-- The one-dimensional transform `T` applied to every row of `X`. -/
def onRows (T : (Nat → α) → Nat → α) (X : Nat → Nat → α) : Nat → Nat → α :=
  fun i j => T (fun n => X i n) j

/-- The one-dimensional transform `T` applied to every column of `X`. -/
def onCols (T : (Nat → α) → Nat → α) (X : Nat → Nat → α) : Nat → Nat → α :=
  fun i j => T (fun n => X n j) i

/-! ## The transforms with the calls of `Set` recorded -/

/-- The state after running some statements with every call `dst.Set(i, j, v)`
recorded, in order, as `(i, j, v)`: the heap, the calls made so far, and the
panic that stopped the statements if one did. -/
structure ExecLog (α : Type) where
  heap : Heap α
  log : List (Nat × Nat × α)
  fault : Option Panic

/-- The write `p.Set(i, j, v)` through the pointer `p`, recorded in the log. -/
def heapSetLog (h : Heap α) (log : List (Nat × Nat × α)) (p i j : Nat) (v : α) : ExecLog α :=
  ⟨(heapSet h p i j v).heap, log ++ [(i, j, v)], (heapSet h p i j v).fault⟩

/-- One iteration of a loop, with the log: nothing runs once a panic has been
raised. -/
def forStepLog (body : Nat → Heap α → List (Nat × Nat × α) → ExecLog α) (st : ExecLog α)
    (i : Nat) : ExecLog α :=
  match st.fault with
  | some _ => st
  | none => body i st.heap st.log

/-- The loop `for i := 0; i < n; i++ { body }` over the heap and the log. -/
def forLoopLog (n : Nat) (body : Nat → Heap α → List (Nat × Nat × α) → ExecLog α)
    (h : Heap α) (log : List (Nat × Nat × α)) : ExecLog α :=
  (List.range n).foldl (forStepLog body) ⟨h, log, none⟩

section TransformsLog

variable [Field α] (cos sqrt : α → α) (pi : α)

/-- Lines 28-49 of `dct.go` with the call of `dst.Set` recorded. -/
def fdctCellLog (src dst r c ik1 ik2 : Nat) (h : Heap α) (log : List (Nat × Nat × α)) :
    ExecLog α :=
  let N1 : α := (r : α)
  let N2 : α := (c : α)
  let k1 : α := (ik1 : α)
  let k2 : α := (ik2 : α)
  match fdctSum cos pi h src r c k1 k2 with
  | .error e => ⟨h, log, some e⟩
  | .ok sum =>
    let ck1 := if ik1 = 0 then 1 / sqrt N1 else sqrt (2 / N1)
    let ck2 := if ik2 = 0 then 1 / sqrt N2 else sqrt (2 / N2)
    heapSetLog h log dst ik1 ik2 (sum * ck1 * ck2)

/-- The function `FDCT(src, dst)` of `dct.go` with the calls of `dst.Set`
recorded: the outcome and the log. -/
def FDCTLog (h : Heap α) (src : Nat) (dst : Option Nat) : Outcome α × List (Nat × Nat × α) :=
  match h[src]? with
  | none => (⟨h, .error .nilPointer⟩, [])
  | some m =>
    let (r, c) := m.Dims
    if r % 2 != 0 || c % 2 != 0 then (⟨h, .error .dimsOdd⟩, [])
    else
      let (h1, d) := match dst with
        | none => (h ++ [NewDense r c], h.length)
        | some d => (h, d)
      let e := forLoopLog r
        (fun ik1 => forLoopLog c (fun ik2 => fdctCellLog cos sqrt pi src d r c ik1 ik2)) h1 []
      match e.fault with
      | some p => (⟨e.heap, .error p⟩, e.log)
      | none => (⟨e.heap, .ok d⟩, e.log)

/-- Lines 69-89 of `dct.go` with the call of `dst.Set` recorded. -/
def idctCellLog (src dst r c ik1 ik2 : Nat) (h : Heap α) (log : List (Nat × Nat × α)) :
    ExecLog α :=
  let k1 : α := (ik1 : α)
  let k2 : α := (ik2 : α)
  match idctSum cos sqrt pi h src r c k1 k2 with
  | .error e => ⟨h, log, some e⟩
  | .ok sum => heapSetLog h log dst ik1 ik2 sum

/-- The function `IDCT(src, dst)` of `dct.go` with the calls of `dst.Set`
recorded: the outcome and the log. -/
def IDCTLog (h : Heap α) (src : Nat) (dst : Option Nat) : Outcome α × List (Nat × Nat × α) :=
  match h[src]? with
  | none => (⟨h, .error .nilPointer⟩, [])
  | some m =>
    let (r, c) := m.Dims
    if r % 2 != 0 || c % 2 != 0 then (⟨h, .error .dimsOdd⟩, [])
    else
      let (h1, d) := match dst with
        | none => (h ++ [NewDense r c], h.length)
        | some d => (h, d)
      let e := forLoopLog r
        (fun ik1 => forLoopLog c (fun ik2 => idctCellLog cos sqrt pi src d r c ik1 ik2)) h1 []
      match e.fault with
      | some p => (⟨e.heap, .error p⟩, e.log)
      | none => (⟨e.heap, .ok d⟩, e.log)

end TransformsLog

/-- The calls of `Set` that write the values `F` to the cells of rows `< a`
and columns `< c`, row by row, and then to the cells of row `a` and columns
`< b`. -/
def cellLog (F : Nat → Nat → α) (c a b : Nat) : List (Nat × Nat × α) :=
  (List.range a).flatMap (fun i => (List.range c).map (fun j => (i, j, F i j)))
    ++ (List.range b).map (fun j => (a, j, F a j))

/-- The cell that a recorded call of `Set` writes. -/
def target (e : Nat × Nat × α) : Nat × Nat := (e.1, e.2.1)

/-- The cells of rows `< a` and columns `< c`, row by row, and then the cells
of row `a` and columns `< b`. -/
def cellTargets (c a b : Nat) : List (Nat × Nat) :=
  (List.range a).flatMap (fun i => (List.range c).map (fun j => (i, j)))
    ++ (List.range b).map (fun j => (a, j))

/-! ## Loops, reads and writes -/

section LoopLemmas

open Finset

theorem forLoop_zero (body : Nat → Heap α → Exec α) (h : Heap α) :
    forLoop 0 body h = ⟨h, none⟩ := by
  simp [forLoop]

theorem forLoop_succ (n : Nat) (body : Nat → Heap α → Exec α) (h : Heap α) :
    forLoop (n + 1) body h = forStep body (forLoop n body h) n := by
  simp [forLoop, List.range_succ, List.foldl_append]

/-- Invariant rule for a loop none of whose iterations panics. -/
theorem forLoop_inv (P : Nat → Heap α → Prop) (n : Nat) (body : Nat → Heap α → Exec α)
    (h : Heap α) (h0 : P 0 h)
    (step : ∀ i, i < n → ∀ g, P i g → (body i g).fault = none ∧ P (i + 1) (body i g).heap) :
    (forLoop n body h).fault = none ∧ P n (forLoop n body h).heap := by
  induction n with
  | zero => simpa [forLoop_zero] using h0
  | succ k ih =>
    have hk := ih (fun i hi g hg => step i (Nat.lt_succ_of_lt hi) g hg)
    rw [forLoop_succ, forStep, hk.1]
    exact step k (Nat.lt_succ_self k) _ hk.2

theorem sumLoop_zero (body : Nat → α → Except Panic α) (s : α) :
    sumLoop 0 body s = .ok s := by
  simp [sumLoop]; rfl

theorem sumLoop_succ (n : Nat) (body : Nat → α → Except Panic α) (s : α) :
    sumLoop (n + 1) body s = (sumLoop n body s >>= fun t => body n t) := by
  simp [sumLoop, List.range_succ, List.foldlM_append]

theorem sumLoop_ok [AddCommMonoid α] (n : Nat) (body : Nat → α → Except Panic α) (t : Nat → α)
    (hb : ∀ i, i < n → ∀ s, body i s = .ok (s + t i)) (s : α) :
    sumLoop n body s = .ok (s + ∑ i in Finset.range n, t i) := by
  induction n with
  | zero => simp [sumLoop_zero]
  | succ k ih =>
    rw [sumLoop_succ, ih (fun i hi s => hb i (Nat.lt_succ_of_lt hi) s)]
    show body k _ = _
    rw [hb k (Nat.lt_succ_self k), Finset.sum_range_succ, add_assoc]

theorem heapAt_eq (h : Heap α) (p : Nat) (m : Dense α) (hp : h[p]? = some m) (i j : Nat)
    (hi : i < m.rows) (hj : j < m.cols) : heapAt h p i j = .ok (m.data i j) := by
  simp [heapAt, hp, Dense.At, hi, hj]

theorem heapSet_eq (h : Heap α) (p : Nat) (m : Dense α) (hp : h[p]? = some m) (i j : Nat)
    (hi : i < m.rows) (hj : j < m.cols) (v : α) :
    heapSet h p i j v = ⟨h.set p (m.put i j v), none⟩ := by
  simp [heapSet, hp, Dense.Set, hi, hj, Dense.put]

theorem set_of_getElem? (h : Heap α) (p : Nat) (m : Dense α) (hp : h[p]? = some m) :
    h.set p m = h := by
  apply List.ext_getElem?
  intro n
  by_cases hn : p = n
  · subst hn
    rw [List.getElem?_set, hp]
    simp
    by_contra hlen
    rw [List.getElem?_eq_none (Nat.le_of_not_lt hlen)] at hp
    cases hp
  · rw [List.getElem?_set_ne hn]

theorem Dense.fill_zero (m : Dense α) (F : Nat → Nat → α) (c : Nat) : m.fill F c 0 0 = m := by
  simp [Dense.fill]

theorem Dense.fill_put (m : Dense α) (F : Nat → Nat → α) (c a b : Nat) (hb : b < c) :
    (m.fill F c a b).put a b (F a b) = m.fill F c a (b + 1) := by
  simp only [Dense.fill, Dense.put]
  congr 1
  funext i j
  by_cases h1 : i = a ∧ j = b
  · obtain ⟨rfl, rfl⟩ := h1
    simp
  · have : (i = a ∧ j < b + 1) ↔ (i = a ∧ j < b) := by
      constructor
      · rintro ⟨hi, hj⟩
        refine ⟨hi, ?_⟩
        rcases Nat.lt_succ_iff_lt_or_eq.mp hj with h | h
        · exact h
        · exact absurd ⟨hi, h⟩ h1
      · rintro ⟨hi, hj⟩
        exact ⟨hi, Nat.lt_succ_of_lt hj⟩
    simp [h1, this]

theorem Dense.fill_row (m : Dense α) (F : Nat → Nat → α) (c a : Nat) :
    m.fill F c a c = m.fill F c (a + 1) 0 := by
  simp only [Dense.fill]
  congr 1
  funext i j
  have : ((i < a ∧ j < c) ∨ (i = a ∧ j < c)) ↔ ((i < a + 1 ∧ j < c) ∨ (i = a + 1 ∧ j < 0)) := by
    constructor
    · rintro (⟨hi, hj⟩ | ⟨hi, hj⟩)
      · exact Or.inl ⟨Nat.lt_succ_of_lt hi, hj⟩
      · exact Or.inl ⟨by omega, hj⟩
    · rintro (⟨hi, hj⟩ | ⟨_, hj⟩)
      · rcases Nat.lt_succ_iff_lt_or_eq.mp hi with h | h
        · exact Or.inl ⟨h, hj⟩
        · exact Or.inr ⟨h, hj⟩
      · exact absurd hj (Nat.not_lt_zero j)
  simp only [this]

/-- The two outer loops, when every cell body writes `F i j` to the cell
`(i, j)` of the matrix at `d` and the matrix at `s` is another one: the loops
end without a panic and the matrix at `d` holds `F` on the `r × c` block. -/
theorem forLoop_fill (cell : Nat → Nat → Heap α → Exec α) (F : Nat → Nat → α)
    (h : Heap α) (s d r c : Nat) (m md : Dense α)
    (hs : h[s]? = some m) (hd : h[d]? = some md) (hsd : s ≠ d)
    (hr : r ≤ md.rows) (hc : c ≤ md.cols)
    (hcell : ∀ i j g, g[s]? = some m → i < r → j < c → cell i j g = heapSet g d i j (F i j)) :
    forLoop r (fun i => forLoop c (fun j => cell i j)) h = ⟨h.set d (md.fill F c r 0), none⟩ := by
  have hdl : d < h.length := by
    rcases Nat.lt_or_ge d h.length with hlt | hge
    · exact hlt
    · rw [List.getElem?_eq_none hge] at hd
      cases hd
  -- the state after `a` whole rows and `b` cells of row `a`
  let P : Nat → Nat → Heap α → Prop := fun a b g => g = h.set d (md.fill F c a b)
  have key := forLoop_inv (fun a g => P a 0 g) r (fun i => forLoop c (fun j => cell i j)) h
    (by simp only [P, Dense.fill_zero, set_of_getElem? h d md hd]) ?_
  · obtain ⟨k1, k2⟩ := key
    cases hx : forLoop r (fun i => forLoop c (fun j => cell i j)) h with
    | mk hp ft =>
      rw [hx] at k1 k2
      simp only [P] at k2
      simp only at k1
      rw [k1, k2]
  · intro a ha g hg
    have inner := forLoop_inv (fun b g => P a b g) c (fun j => cell a j) g hg ?_
    · refine ⟨inner.1, ?_⟩
      have := inner.2
      simp only [P] at this ⊢
      rw [this, Dense.fill_row]
    · intro b hb g' hg'
      simp only [P] at hg' ⊢
      have hs' : g'[s]? = some m := by
        rw [hg', List.getElem?_set_ne (Ne.symm hsd)]
        exact hs
      have hd' : g'[d]? = some (md.fill F c a b) := by
        rw [hg', List.getElem?_set_self hdl]
      rw [hcell a b g' hs' ha hb, heapSet_eq g' d _ hd' a b (lt_of_lt_of_le ha hr) (lt_of_lt_of_le hb hc)]
      refine ⟨rfl, ?_⟩
      simp only
      rw [hg', List.set_set, Dense.fill_put _ _ _ _ _ hb]

theorem Dense.fill_data (m : Dense α) (F : Nat → Nat → α) (c r i j : Nat) :
    (m.fill F c r 0).data i j = if i < r ∧ j < c then F i j else m.data i j := by
  simp [Dense.fill]

theorem Dense.fill_rows (m : Dense α) (F : Nat → Nat → α) (c a b : Nat) :
    (m.fill F c a b).rows = m.rows := rfl

theorem Dense.fill_cols (m : Dense α) (F : Nat → Nat → α) (c a b : Nat) :
    (m.fill F c a b).cols = m.cols := rfl

end LoopLemmas

/-! ## What the transforms compute -/

section Values

open Finset

variable [Field α] (cos sqrt : α → α) (pi : α)

theorem fdctSum_eq (h : Heap α) (s : Nat) (m : Dense α) (hs : h[s]? = some m) (k1 k2 : α) :
    fdctSum cos pi h s m.rows m.cols k1 k2 = .ok (fdctAcc cos pi m k1 k2) := by
  unfold fdctSum fdctAcc
  simp only
  rw [sumLoop_ok m.rows _ (fun n1 => ∑ n2 in Finset.range m.cols,
    m.data n1 n2 * cos (pi / (m.rows : α) * ((n1 : α) + 0.5) * k1)
      * cos (pi / (m.cols : α) * ((n2 : α) + 0.5) * k2)), zero_add]
  intro i hi sum
  apply sumLoop_ok
  intro j hj t
  rw [heapAt_eq h s m hs i j hi hj]
  rfl

theorem idctSum_eq (h : Heap α) (s : Nat) (m : Dense α) (hs : h[s]? = some m) (ik1 ik2 : Nat) :
    idctSum cos sqrt pi h s m.rows m.cols (ik1 : α) (ik2 : α) = .ok (idctOut cos sqrt pi m ik1 ik2) := by
  unfold idctSum idctOut
  simp only
  rw [sumLoop_ok m.rows _ (fun n1 => ∑ n2 in Finset.range m.cols,
    m.data n1 n2
      * (if n1 = 0 then 1 / sqrt (m.rows : α) else sqrt (2 / (m.rows : α)))
      * (if n2 = 0 then 1 / sqrt (m.cols : α) else sqrt (2 / (m.cols : α)))
      * cos (pi / (m.rows : α) * ((ik1 : α) + 0.5) * (n1 : α))
      * cos (pi / (m.cols : α) * ((ik2 : α) + 0.5) * (n2 : α))), zero_add]
  intro i hi sum
  apply sumLoop_ok
  intro j hj t
  rw [heapAt_eq h s m hs i j hi hj]
  rfl

theorem fdctCell_eq (h : Heap α) (s d : Nat) (m : Dense α) (hs : h[s]? = some m) (ik1 ik2 : Nat) :
    fdctCell cos sqrt pi s d m.rows m.cols ik1 ik2 h
      = heapSet h d ik1 ik2 (fdctOut cos sqrt pi m ik1 ik2) := by
  unfold fdctCell
  simp only [fdctSum_eq cos pi h s m hs]
  rfl

theorem idctCell_eq (h : Heap α) (s d : Nat) (m : Dense α) (hs : h[s]? = some m) (ik1 ik2 : Nat) :
    idctCell cos sqrt pi s d m.rows m.cols ik1 ik2 h
      = heapSet h d ik1 ik2 (idctOut cos sqrt pi m ik1 ik2) := by
  unfold idctCell
  simp only [idctSum_eq cos sqrt pi h s m hs]

/-- The run of `FDCT` into a supplied matrix that is not the source and has room for the
result. -/
theorem FDCT_some (h : Heap α) (s d : Nat) (m md : Dense α)
    (hs : h[s]? = some m) (hd : h[d]? = some md) (hsd : s ≠ d)
    (h1 : m.rows % 2 = 0) (h2 : m.cols % 2 = 0)
    (hr : m.rows ≤ md.rows) (hc : m.cols ≤ md.cols) :
    FDCT cos sqrt pi h s (some d)
      = ⟨h.set d (md.fill (fdctOut cos sqrt pi m) m.cols m.rows 0), .ok d⟩ := by
  unfold FDCT
  simp only [hs, Dense.Dims, h1, h2]
  rw [forLoop_fill _ (fdctOut cos sqrt pi m) h s d m.rows m.cols m md hs hd hsd hr hc
    (fun i j g hg _ _ => fdctCell_eq cos sqrt pi g s d m hg i j)]
  simp

/-- The run of `IDCT` into a supplied matrix that is not the source and has room for the
result. -/
theorem IDCT_some (h : Heap α) (s d : Nat) (m md : Dense α)
    (hs : h[s]? = some m) (hd : h[d]? = some md) (hsd : s ≠ d)
    (h1 : m.rows % 2 = 0) (h2 : m.cols % 2 = 0)
    (hr : m.rows ≤ md.rows) (hc : m.cols ≤ md.cols) :
    IDCT cos sqrt pi h s (some d)
      = ⟨h.set d (md.fill (idctOut cos sqrt pi m) m.cols m.rows 0), .ok d⟩ := by
  unfold IDCT
  simp only [hs, Dense.Dims, h1, h2]
  rw [forLoop_fill _ (idctOut cos sqrt pi m) h s d m.rows m.cols m md hs hd hsd hr hc
    (fun i j g hg _ _ => idctCell_eq cos sqrt pi g s d m hg i j)]
  simp


omit [Field α] in
theorem lt_length_of_getElem? (h : Heap α) (p : Nat) (m : Dense α) (hp : h[p]? = some m) :
    p < h.length := by
  by_contra hlen
  rw [List.getElem?_eq_none (Nat.le_of_not_lt hlen)] at hp
  cases hp

/-- The run of `FDCT` with no destination: a matrix is allocated at the next free
address and filled. -/
theorem FDCT_none (h : Heap α) (s : Nat) (m : Dense α) (hs : h[s]? = some m)
    (h1 : m.rows % 2 = 0) (h2 : m.cols % 2 = 0) :
    FDCT cos sqrt pi h s none
      = ⟨h ++ [(NewDense m.rows m.cols).fill (fdctOut cos sqrt pi m) m.cols m.rows 0],
          .ok h.length⟩ := by
  have hlt := lt_length_of_getElem? h s m hs
  have hs' : (h ++ [NewDense m.rows m.cols])[s]? = some m := by
    rw [List.getElem?_append_left hlt, hs]
  have hd' : (h ++ [NewDense m.rows m.cols])[h.length]? = some (NewDense m.rows m.cols) := by
    simp
  unfold FDCT
  simp only [hs, Dense.Dims, h1, h2]
  rw [forLoop_fill _ (fdctOut cos sqrt pi m) _ s h.length m.rows m.cols m _ hs' hd'
    (Nat.ne_of_lt hlt) (le_refl _) (le_refl _)
    (fun i j g hg _ _ => fdctCell_eq cos sqrt pi g s h.length m hg i j)]
  simp

/-- The run of `IDCT` with no destination: a matrix is allocated at the next free
address and filled. -/
theorem IDCT_none (h : Heap α) (s : Nat) (m : Dense α) (hs : h[s]? = some m)
    (h1 : m.rows % 2 = 0) (h2 : m.cols % 2 = 0) :
    IDCT cos sqrt pi h s none
      = ⟨h ++ [(NewDense m.rows m.cols).fill (idctOut cos sqrt pi m) m.cols m.rows 0],
          .ok h.length⟩ := by
  have hlt := lt_length_of_getElem? h s m hs
  have hs' : (h ++ [NewDense m.rows m.cols])[s]? = some m := by
    rw [List.getElem?_append_left hlt, hs]
  have hd' : (h ++ [NewDense m.rows m.cols])[h.length]? = some (NewDense m.rows m.cols) := by
    simp
  unfold IDCT
  simp only [hs, Dense.Dims, h1, h2]
  rw [forLoop_fill _ (idctOut cos sqrt pi m) _ s h.length m.rows m.cols m _ hs' hd'
    (Nat.ne_of_lt hlt) (le_refl _) (le_refl _)
    (fun i j g hg _ _ => idctCell_eq cos sqrt pi g s h.length m hg i j)]
  simp

/-- A panic at the dimension check: the heap is returned as it was. -/
theorem FDCT_odd (h : Heap α) (s : Nat) (dst : Option Nat) (m : Dense α) (hs : h[s]? = some m)
    (hodd : m.rows % 2 = 1 ∨ m.cols % 2 = 1) :
    FDCT cos sqrt pi h s dst = ⟨h, .error .dimsOdd⟩ := by
  unfold FDCT
  simp only [hs, Dense.Dims]
  rcases hodd with ho | ho <;> simp [ho]

theorem IDCT_odd (h : Heap α) (s : Nat) (dst : Option Nat) (m : Dense α) (hs : h[s]? = some m)
    (hodd : m.rows % 2 = 1 ∨ m.cols % 2 = 1) :
    IDCT cos sqrt pi h s dst = ⟨h, .error .dimsOdd⟩ := by
  unfold IDCT
  simp only [hs, Dense.Dims]
  rcases hodd with ho | ho <;> simp [ho]

end Values

/-! ## The cosine basis is orthonormal -/

section Basis

open Finset

/-- Telescoping sum of the cosines at the half-integer points. -/
theorem two_sin_mul_sum_cos (θ : ℝ) (N : ℕ) :
    2 * Real.sin (θ / 2) * ∑ n in range N, Real.cos (((n : ℝ) + 1 / 2) * θ) = Real.sin (N * θ) := by
  induction N with
  | zero => simp
  | succ k ih =>
    rw [sum_range_succ, mul_add, ih]
    have h := Real.sin_sub_sin (((k : ℝ) + 1) * θ) ((k : ℝ) * θ)
    have e1 : (((k : ℝ) + 1) * θ - (k : ℝ) * θ) / 2 = θ / 2 := by ring
    have e2 : (((k : ℝ) + 1) * θ + (k : ℝ) * θ) / 2 = ((k : ℝ) + 1 / 2) * θ := by ring
    rw [e1, e2] at h
    push_cast
    linarith

/-- The cosines of a nonzero frequency below `2 N` sum to zero. -/
theorem sum_cos_eq_zero (N m : ℕ) (hm : 0 < m) (hmN : m < 2 * N) :
    ∑ n in range N, Real.cos (Real.pi / (N : ℝ) * ((n : ℝ) + 1 / 2) * (m : ℝ)) = 0 := by
  have hN : 0 < N := by omega
  have hNr : (0 : ℝ) < N := by exact_mod_cast hN
  have hmr : (0 : ℝ) < m := by exact_mod_cast hm
  have hmNr : (m : ℝ) < 2 * N := by exact_mod_cast hmN
  set θ : ℝ := Real.pi * m / N with hθ
  have key := two_sin_mul_sum_cos θ N
  have hsin : Real.sin (N * θ) = 0 := by
    have : (N : ℝ) * θ = m * Real.pi := by
      rw [hθ]; field_simp; ring
    rw [this]
    exact Real.sin_nat_mul_pi m
  have hpos : 0 < Real.sin (θ / 2) := by
    apply Real.sin_pos_of_pos_of_lt_pi
    · rw [hθ]; positivity
    · rw [hθ, div_div, div_lt_iff₀ (by positivity)]
      nlinarith [Real.pi_pos]
  have hsum : ∑ n in range N, Real.cos (((n : ℝ) + 1 / 2) * θ) = 0 := by
    rw [hsin] at key
    rcases mul_eq_zero.mp key with h | h
    · exfalso
      have : Real.sin (θ / 2) = 0 := by linarith
      linarith
    · exact h
  rw [← hsum]
  apply sum_congr rfl
  intro n _
  congr 1
  rw [hθ]
  field_simp
  ring

/-- The sum of products of two cosine basis vectors of length `N`. -/
theorem sum_cos_mul_cos (N k l : ℕ) (hk : k < N) (hl : l < N) :
    ∑ n in range N, Real.cos (Real.pi / (N : ℝ) * ((n : ℝ) + 1 / 2) * (k : ℝ))
        * Real.cos (Real.pi / (N : ℝ) * ((n : ℝ) + 1 / 2) * (l : ℝ))
      = if k = l then (if k = 0 then (N : ℝ) else (N : ℝ) / 2) else 0 := by
  -- it is enough to treat `l ≤ k`
  wlog hlk : l ≤ k generalizing k l
  · have := this l k hl hk (by omega)
    have hne : (k = l) = (l = k) := by
      apply propext; constructor <;> exact fun h => h.symm
    by_cases hkl : k = l
    · subst hkl; simpa using this
    · rw [if_neg hkl]
      rw [if_neg (Ne.symm hkl)] at this
      rw [← this]
      apply sum_congr rfl
      intro n _
      ring
  have hprod : ∀ n : ℕ, Real.cos (Real.pi / (N : ℝ) * ((n : ℝ) + 1 / 2) * (k : ℝ))
        * Real.cos (Real.pi / (N : ℝ) * ((n : ℝ) + 1 / 2) * (l : ℝ))
      = (Real.cos (Real.pi / (N : ℝ) * ((n : ℝ) + 1 / 2) * ((k - l : ℕ) : ℝ))
          + Real.cos (Real.pi / (N : ℝ) * ((n : ℝ) + 1 / 2) * ((k + l : ℕ) : ℝ))) / 2 := by
    intro n
    rw [Nat.cast_sub hlk, Nat.cast_add]
    have e1 : Real.pi / (N : ℝ) * ((n : ℝ) + 1 / 2) * ((k : ℝ) - (l : ℝ))
        = Real.pi / (N : ℝ) * ((n : ℝ) + 1 / 2) * (k : ℝ)
          - Real.pi / (N : ℝ) * ((n : ℝ) + 1 / 2) * (l : ℝ) := by ring
    have e2 : Real.pi / (N : ℝ) * ((n : ℝ) + 1 / 2) * ((k : ℝ) + (l : ℝ))
        = Real.pi / (N : ℝ) * ((n : ℝ) + 1 / 2) * (k : ℝ)
          + Real.pi / (N : ℝ) * ((n : ℝ) + 1 / 2) * (l : ℝ) := by ring
    rw [e1, e2, Real.cos_sub, Real.cos_add]
    ring
  simp only [hprod]
  rw [← sum_div, sum_add_distrib]
  by_cases hkl : k = l
  · subst hkl
    rw [if_pos rfl]
    by_cases hk0 : k = 0
    · subst hk0
      simp
    · rw [if_neg hk0, sum_cos_eq_zero N (k + k) (by omega) (by omega)]
      simp
  · rw [if_neg hkl, sum_cos_eq_zero N (k - l) (by omega) (by omega),
      sum_cos_eq_zero N (k + l) (by omega) (by omega)]
    simp

theorem half_eq : (0.5 : ℝ) = 1 / 2 := by norm_num

theorem coef_zero_sq (N : ℕ) (hN : 0 < N) :
    coef Real.sqrt 0 N * coef Real.sqrt 0 N * (N : ℝ) = 1 := by
  have hNr : (0 : ℝ) < N := by exact_mod_cast hN
  have hs : Real.sqrt N * Real.sqrt N = N := Real.mul_self_sqrt hNr.le
  have hs0 : Real.sqrt N ≠ 0 := (Real.sqrt_pos.mpr hNr).ne'
  simp only [coef, if_true]
  field_simp

theorem coef_pos_sq (N k : ℕ) (hN : 0 < N) (hk : k ≠ 0) :
    coef Real.sqrt k N * coef Real.sqrt k N * ((N : ℝ) / 2) = 1 := by
  have hNr : (0 : ℝ) < N := by exact_mod_cast hN
  have hs : Real.sqrt (2 / N) * Real.sqrt (2 / N) = 2 / N := Real.mul_self_sqrt (by positivity)
  simp only [coef, if_neg hk]
  rw [hs]
  field_simp

/-- The basis vectors are unit-length and mutually orthogonal. -/
theorem basis_row_orthonormal (N k l : ℕ) (hk : k < N) (hl : l < N) :
    ∑ n in range N, basis Real.cos Real.sqrt Real.pi N k n * basis Real.cos Real.sqrt Real.pi N l n
      = if k = l then 1 else 0 := by
  have hN : 0 < N := by omega
  have hterm : ∀ n : ℕ, basis Real.cos Real.sqrt Real.pi N k n * basis Real.cos Real.sqrt Real.pi N l n
      = coef Real.sqrt k N * coef Real.sqrt l N *
        (Real.cos (Real.pi / (N : ℝ) * ((n : ℝ) + 1 / 2) * (k : ℝ))
          * Real.cos (Real.pi / (N : ℝ) * ((n : ℝ) + 1 / 2) * (l : ℝ))) := by
    intro n
    simp only [basis, half_eq]
    ring
  simp only [hterm]
  rw [← mul_sum, sum_cos_mul_cos N k l hk hl]
  by_cases hkl : k = l
  · subst hkl
    simp only [if_true]
    by_cases hk0 : k = 0
    · subst hk0
      simpa using coef_zero_sq N hN
    · rw [if_neg hk0]
      exact coef_pos_sq N k hN hk0
  · simp [hkl]

/-- The samples are orthonormal too: the matrix of the basis is square, so its
left inverse is its right inverse. -/
theorem basis_col_orthonormal (N n m : ℕ) (hn : n < N) (hm : m < N) :
    ∑ k in range N, basis Real.cos Real.sqrt Real.pi N k n * basis Real.cos Real.sqrt Real.pi N k m
      = if n = m then 1 else 0 := by
  let M : Matrix (Fin N) (Fin N) ℝ := fun k i => basis Real.cos Real.sqrt Real.pi N k i
  have hrow : M * M.transpose = 1 := by
    ext k l
    rw [Matrix.mul_apply]
    simp only [Matrix.transpose_apply, M]
    rw [Fin.sum_univ_eq_sum_range
      (fun i => basis Real.cos Real.sqrt Real.pi N k i * basis Real.cos Real.sqrt Real.pi N l i) N,
      basis_row_orthonormal N k l k.isLt l.isLt, Matrix.one_apply]
    simp [Fin.ext_iff]
  have hcol : M.transpose * M = 1 := Matrix.mul_eq_one_comm.mp hrow
  have h := congrFun (congrFun hcol ⟨n, hn⟩) ⟨m, hm⟩
  rw [Matrix.mul_apply] at h
  simp only [Matrix.transpose_apply, M] at h
  rw [Fin.sum_univ_eq_sum_range
    (fun i => basis Real.cos Real.sqrt Real.pi N i n * basis Real.cos Real.sqrt Real.pi N i m) N] at h
  rw [h, Matrix.one_apply]
  simp [Fin.ext_iff]

end Basis

/-! ## Transforms given by a kernel -/

section Kernel

open Finset

variable [Field α]

theorem tr1_congr (A : Nat → Nat → α) (N : Nat) (f g : Nat → α) (i : Nat)
    (hfg : ∀ a, a < N → f a = g a) : tr1 A N f i = tr1 A N g i := by
  unfold tr1
  apply sum_congr rfl
  intro a ha
  rw [hfg a (mem_range.mp ha)]

/-- Columns first, then rows. -/
theorem tr2_eq_rows_of_cols (A B : Nat → Nat → α) (R C : Nat) (X : Nat → Nat → α) (i j : Nat) :
    tr2 A B R C X i j = tr1 A R (fun a => tr1 B C (fun b => X a b) j) i := by
  unfold tr2 tr1
  apply sum_congr rfl
  intro a _
  rw [mul_sum]
  apply sum_congr rfl
  intro b _
  ring

/-- Rows first, then columns. -/
theorem tr2_eq_cols_of_rows (A B : Nat → Nat → α) (R C : Nat) (X : Nat → Nat → α) (i j : Nat) :
    tr2 A B R C X i j = tr1 B C (fun b => tr1 A R (fun a => X a b) i) j := by
  unfold tr2 tr1
  rw [sum_comm]
  apply sum_congr rfl
  intro b _
  rw [mul_sum]
  apply sum_congr rfl
  intro a _
  ring

/-- A kernel with a left inverse: the one-dimensional transform is undone. -/
theorem tr1_inverse (A A' : Nat → Nat → α) (N : Nat)
    (hinv : ∀ i a, i < N → a < N → ∑ n in range N, A' i n * A n a = if i = a then 1 else 0)
    (f : Nat → α) (i : Nat) (hi : i < N) :
    tr1 A' N (tr1 A N f) i = f i := by
  unfold tr1
  have h1 : ∀ n ∈ range N, A' i n * ∑ a in range N, A n a * f a
      = ∑ a in range N, A' i n * A n a * f a := by
    intro n _
    rw [mul_sum]
    apply sum_congr rfl
    intro a _
    ring
  rw [sum_congr rfl h1, sum_comm]
  have h2 : ∀ a ∈ range N, ∑ n in range N, A' i n * A n a * f a
      = if i = a then f a else 0 := by
    intro a ha
    rw [← sum_mul, hinv i a hi (mem_range.mp ha)]
    split <;> simp
  rw [sum_congr rfl h2, sum_ite_eq]
  simp [hi]

/-- Kernels with left inverses: the two-dimensional transform is undone. -/
theorem tr2_inverse (A A' B B' : Nat → Nat → α) (R C : Nat)
    (hA : ∀ i a, i < R → a < R → ∑ n in range R, A' i n * A n a = if i = a then 1 else 0)
    (hB : ∀ j b, j < C → b < C → ∑ n in range C, B' j n * B n b = if j = b then 1 else 0)
    (X Y : Nat → Nat → α) (hY : ∀ a b, a < R → b < C → Y a b = tr2 A B R C X a b)
    (i j : Nat) (hi : i < R) (hj : j < C) :
    tr2 A' B' R C Y i j = X i j := by
  rw [tr2_eq_rows_of_cols]
  have h1 : ∀ a, a < R → tr1 B' C (fun b => Y a b) j = tr1 A R (fun a' => X a' j) a := by
    intro a ha
    rw [tr1_congr B' C (fun b => Y a b) (tr1 B C (fun b => tr1 A R (fun a' => X a' b) a)) j
      (fun b hb => by show Y a b = _; rw [hY a b ha hb, tr2_eq_cols_of_rows])]
    exact tr1_inverse B B' C hB _ j hj
  rw [tr1_congr A' R _ (tr1 A R (fun a' => X a' j)) i h1]
  exact tr1_inverse A A' R hA _ i hi

/-- A transform and the transform with the transposed kernel are adjoint. -/
theorem tr1_adjoint (A : Nat → Nat → α) (N : Nat) (f g : Nat → α) :
    ∑ k in range N, tr1 A N f k * g k = ∑ n in range N, f n * tr1 (fun n k => A k n) N g n := by
  unfold tr1
  have h1 : ∀ k ∈ range N, (∑ a in range N, A k a * f a) * g k
      = ∑ a in range N, f a * (A k a * g k) := by
    intro k _
    rw [sum_mul]
    apply sum_congr rfl
    intro a _
    ring
  rw [sum_congr rfl h1, sum_comm]
  apply sum_congr rfl
  intro a _
  rw [mul_sum]

/-- An orthonormal kernel preserves the sum of squares. -/
theorem tr1_energy (A : Nat → Nat → α) (N : Nat)
    (hA : ∀ n m, n < N → m < N → ∑ k in range N, A k n * A k m = if n = m then 1 else 0)
    (f : Nat → α) :
    ∑ k in range N, tr1 A N f k * tr1 A N f k = ∑ n in range N, f n * f n := by
  rw [tr1_adjoint]
  apply sum_congr rfl
  intro n hn
  rw [tr1_inverse A (fun n k => A k n) N hA f n (mem_range.mp hn)]

/-- Orthonormal kernels preserve the sum of squares in two dimensions. -/
theorem tr2_energy (A B : Nat → Nat → α) (R C : Nat)
    (hA : ∀ n m, n < R → m < R → ∑ k in range R, A k n * A k m = if n = m then 1 else 0)
    (hB : ∀ n m, n < C → m < C → ∑ k in range C, B k n * B k m = if n = m then 1 else 0)
    (X : Nat → Nat → α) :
    ∑ i in range R, ∑ j in range C, tr2 A B R C X i j * tr2 A B R C X i j
      = ∑ a in range R, ∑ b in range C, X a b * X a b := by
  simp only [tr2_eq_rows_of_cols]
  rw [sum_comm]
  have h1 : ∀ j ∈ range C,
      ∑ i in range R, tr1 A R (fun a => tr1 B C (fun b => X a b) j) i
          * tr1 A R (fun a => tr1 B C (fun b => X a b) j) i
        = ∑ a in range R, tr1 B C (fun b => X a b) j * tr1 B C (fun b => X a b) j := by
    intro j _
    exact tr1_energy A R hA _
  rw [sum_congr rfl h1, sum_comm]
  apply sum_congr rfl
  intro a _
  exact tr1_energy B C hB _

end Kernel

/-! ## The transforms as kernel transforms -/

section Bridge

open Finset

variable [Field α] (cos sqrt : α → α) (pi : α)

theorem fdctOut_eq_tr2 (m : Dense α) (k1 k2 : Nat) :
    fdctOut cos sqrt pi m k1 k2
      = tr2 (fun k n => basis cos sqrt pi m.rows k n) (fun k n => basis cos sqrt pi m.cols k n)
          m.rows m.cols m.data k1 k2 := by
  unfold fdctOut fdctAcc tr2 basis coef
  rw [sum_mul, sum_mul]
  apply sum_congr rfl
  intro a _
  rw [sum_mul, sum_mul]
  apply sum_congr rfl
  intro b _
  ring

theorem idctOut_eq_tr2 (m : Dense α) (k1 k2 : Nat) :
    idctOut cos sqrt pi m k1 k2
      = tr2 (fun k n => basis cos sqrt pi m.rows n k) (fun k n => basis cos sqrt pi m.cols n k)
          m.rows m.cols m.data k1 k2 := by
  unfold idctOut tr2 basis coef
  apply sum_congr rfl
  intro a _
  apply sum_congr rfl
  intro b _
  ring

theorem fdctOut_eq_forwardFormula (m : Dense α) (k1 k2 : Nat) :
    fdctOut cos sqrt pi m k1 k2 = forwardFormula cos sqrt pi m.data m.rows m.cols k1 k2 := by
  unfold fdctOut fdctAcc forwardFormula coef
  ring

theorem idctOut_eq_inverseFormula (m : Dense α) (k1 k2 : Nat) :
    idctOut cos sqrt pi m k1 k2 = inverseFormula cos sqrt pi m.data m.rows m.cols k1 k2 := by
  unfold idctOut inverseFormula coef
  rfl

/-- The matrix returned by `FDCT(src, nil)`. -/
theorem FDCT_none_matrix (h : Heap α) (s : Nat) (m : Dense α) (hs : h[s]? = some m)
    (h1 : m.rows % 2 = 0) (h2 : m.cols % 2 = 0) :
    (FDCT cos sqrt pi h s none).matrix
      = some ((NewDense m.rows m.cols).fill (fdctOut cos sqrt pi m) m.cols m.rows 0) := by
  rw [FDCT_none cos sqrt pi h s m hs h1 h2]
  simp [Outcome.matrix]

/-- The matrix returned by `IDCT(src, nil)`. -/
theorem IDCT_none_matrix (h : Heap α) (s : Nat) (m : Dense α) (hs : h[s]? = some m)
    (h1 : m.rows % 2 = 0) (h2 : m.cols % 2 = 0) :
    (IDCT cos sqrt pi h s none).matrix
      = some ((NewDense m.rows m.cols).fill (idctOut cos sqrt pi m) m.cols m.rows 0) := by
  rw [IDCT_none cos sqrt pi h s m hs h1 h2]
  simp [Outcome.matrix]

omit [Field α] in
theorem getElem?_append_length (h : Heap α) (m : Dense α) : (h ++ [m])[h.length]? = some m := by
  simp

end Bridge

/-! ## Frame: what the loops leave alone -/

section Frame

open Finset

theorem forLoop_preserve (I : Heap α → Prop) (body : Nat → Heap α → Exec α)
    (hb : ∀ i g, I g → I (body i g).heap) (n : Nat) (h : Heap α) (h0 : I h) :
    I (forLoop n body h).heap := by
  induction n with
  | zero => simpa [forLoop_zero] using h0
  | succ k ih =>
    rw [forLoop_succ, forStep]
    split
    · exact ih
    · exact hb k _ ih

theorem heapSet_frame (g : Heap α) (d i j : Nat) (v : α) (p : Nat) (hp : p ≠ d) :
    (heapSet g d i j v).heap[p]? = g[p]? := by
  unfold heapSet
  split
  · rfl
  · split
    · rfl
    · exact List.getElem?_set_ne (Ne.symm hp)

variable [Field α] (cos sqrt : α → α) (pi : α)

theorem fdctCell_frame (s d r c ik1 ik2 : Nat) (g : Heap α) (p : Nat) (hp : p ≠ d) :
    (fdctCell cos sqrt pi s d r c ik1 ik2 g).heap[p]? = g[p]? := by
  unfold fdctCell
  simp only
  split
  · rfl
  · exact heapSet_frame g d ik1 ik2 _ p hp

theorem idctCell_frame (s d r c ik1 ik2 : Nat) (g : Heap α) (p : Nat) (hp : p ≠ d) :
    (idctCell cos sqrt pi s d r c ik1 ik2 g).heap[p]? = g[p]? := by
  unfold idctCell
  simp only
  split
  · rfl
  · exact heapSet_frame g d ik1 ik2 _ p hp

theorem fdctLoops_frame (s d r c : Nat) (h : Heap α) (p : Nat) (hp : p ≠ d) :
    (forLoop r (fun ik1 => forLoop c (fun ik2 => fdctCell cos sqrt pi s d r c ik1 ik2)) h).heap[p]?
      = h[p]? := by
  apply forLoop_preserve (fun g => g[p]? = h[p]?) _ _ r h rfl
  intro i g hg
  apply forLoop_preserve (fun g => g[p]? = h[p]?) _ _ c g hg
  intro j g' hg'
  rw [fdctCell_frame cos sqrt pi s d r c i j g' p hp, hg']

theorem idctLoops_frame (s d r c : Nat) (h : Heap α) (p : Nat) (hp : p ≠ d) :
    (forLoop r (fun ik1 => forLoop c (fun ik2 => idctCell cos sqrt pi s d r c ik1 ik2)) h).heap[p]?
      = h[p]? := by
  apply forLoop_preserve (fun g => g[p]? = h[p]?) _ _ r h rfl
  intro i g hg
  apply forLoop_preserve (fun g => g[p]? = h[p]?) _ _ c g hg
  intro j g' hg'
  rw [idctCell_frame cos sqrt pi s d r c i j g' p hp, hg']

/-- A call of `FDCT`, whether it returns or panics, leaves every matrix of
the heap but the destination as it was. -/
theorem FDCT_frame (h : Heap α) (s : Nat) (dst : Option Nat) (p : Nat) (hp : p < h.length)
    (hd : dst ≠ some p) : (FDCT cos sqrt pi h s dst).heap[p]? = h[p]? := by
  unfold FDCT
  split
  · rfl
  · rename_i m _
    simp only [Dense.Dims]
    split
    · rfl
    · cases dst with
      | none =>
        simp only
        split <;>
        · simp only
          rw [fdctLoops_frame cos sqrt pi s h.length m.rows m.cols _ p (Nat.ne_of_lt hp),
            List.getElem?_append_left hp]
      | some d =>
        have hpd : p ≠ d := fun e => hd (by rw [e])
        simp only
        split <;>
        · simp only
          rw [fdctLoops_frame cos sqrt pi s d m.rows m.cols _ p hpd]

/-- A call of `IDCT`, whether it returns or panics, leaves every matrix of
the heap but the destination as it was. -/
theorem IDCT_frame (h : Heap α) (s : Nat) (dst : Option Nat) (p : Nat) (hp : p < h.length)
    (hd : dst ≠ some p) : (IDCT cos sqrt pi h s dst).heap[p]? = h[p]? := by
  unfold IDCT
  split
  · rfl
  · rename_i m _
    simp only [Dense.Dims]
    split
    · rfl
    · cases dst with
      | none =>
        simp only
        split <;>
        · simp only
          rw [idctLoops_frame cos sqrt pi s h.length m.rows m.cols _ p (Nat.ne_of_lt hp),
            List.getElem?_append_left hp]
      | some d =>
        have hpd : p ≠ d := fun e => hd (by rw [e])
        simp only
        split <;>
        · simp only
          rw [idctLoops_frame cos sqrt pi s d m.rows m.cols _ p hpd]

end Frame

/-! ## Cells of a `2 × 2` transform -/

section Small

open Finset

theorem cos_three_pi_div_four : Real.cos (3 * Real.pi / 4) = -(Real.sqrt 2 / 2) := by
  have h : 3 * Real.pi / 4 = Real.pi - Real.pi / 4 := by ring
  rw [h, Real.cos_pi_sub, Real.cos_pi_div_four]

/-- The cell `(0, 0)` that `FDCT` computes from a `2 × 2` matrix. -/
theorem fdctOut_two_00 (m : Dense ℝ) (hr : m.rows = 2) (hc : m.cols = 2) :
    fdctOut Real.cos Real.sqrt Real.pi m 0 0
      = (m.data 0 0 + m.data 0 1 + m.data 1 0 + m.data 1 1) / 2 := by
  have hs : Real.sqrt 2 * Real.sqrt 2 = 2 := Real.mul_self_sqrt (by norm_num)
  have hs0 : Real.sqrt 2 ≠ 0 := by
    intro h0
    rw [h0] at hs
    norm_num at hs
  simp only [fdctOut, fdctAcc, hr, hc, sum_range_succ, sum_range_zero, if_true]
  simp only [Nat.cast_zero, mul_zero, Real.cos_zero, Nat.cast_ofNat]
  field_simp
  ring

/-- The cell `(0, 1)` that `FDCT` computes from a `2 × 2` matrix. -/
theorem fdctOut_two_01 (m : Dense ℝ) (hr : m.rows = 2) (hc : m.cols = 2) :
    fdctOut Real.cos Real.sqrt Real.pi m 0 1
      = (m.data 0 0 - m.data 0 1 + m.data 1 0 - m.data 1 1) / 2 := by
  have hs : Real.sqrt 2 * Real.sqrt 2 = 2 := Real.mul_self_sqrt (by norm_num)
  have hs0 : Real.sqrt 2 ≠ 0 := by
    intro h0
    rw [h0] at hs
    norm_num at hs
  have e1 : Real.pi / 2 * ((0 : ℝ) + 0.5) * 1 = Real.pi / 4 := by norm_num; ring
  have e2 : Real.pi / 2 * ((1 : ℝ) + 0.5) * 1 = 3 * Real.pi / 4 := by norm_num; ring
  have e3 : Real.sqrt (2 / 2) = 1 := by norm_num
  simp only [fdctOut, fdctAcc, hr, hc, sum_range_succ, sum_range_zero, if_true]
  simp only [Nat.cast_zero, Nat.cast_one, mul_zero, Real.cos_zero, Nat.cast_ofNat, e1, e2, e3,
    Real.cos_pi_div_four, cos_three_pi_div_four, one_ne_zero, if_false]
  field_simp
  ring_nf


end Small

/-! ## Runs that panic, and runs in place -/

theorem forLoop_fault_succ (body : Nat → Heap α → Exec α) (h : Heap α) (n : Nat) (e : Panic)
    (hf : (forLoop n body h).fault = some e) : forLoop (n + 1) body h = forLoop n body h := by
  rw [forLoop_succ, forStep, hf]

theorem forLoop_fault_le (body : Nat → Heap α → Exec α) (h : Heap α) (k n : Nat) (e : Panic)
    (hkn : k ≤ n) (hf : (forLoop k body h).fault = some e) : forLoop n body h = forLoop k body h := by
  induction n with
  | zero =>
    have : k = 0 := by omega
    rw [this]
  | succ j ih =>
    rcases Nat.lt_or_ge j k with hlt | hge
    · have : k = j + 1 := by omega
      rw [this]
    · have hj := ih hge
      rw [forLoop_fault_succ body h j e (by rw [hj]; exact hf), hj]

/-- A loop whose iterations before `i0` keep an invariant and whose iteration
`i0` panics under it: the loop ends with that panic. -/
theorem forLoop_fault_at (P : Nat → Heap α → Prop) (n i0 : Nat) (body : Nat → Heap α → Exec α)
    (h : Heap α) (e : Panic) (hi0 : i0 < n) (h0 : P 0 h)
    (step : ∀ i, i < i0 → ∀ g, P i g → (body i g).fault = none ∧ P (i + 1) (body i g).heap)
    (bad : ∀ g, P i0 g → (body i0 g).fault = some e) :
    (forLoop n body h).fault = some e := by
  have hk := forLoop_inv P i0 body h h0 step
  have h1 : (forLoop (i0 + 1) body h).fault = some e := by
    rw [forLoop_succ, forStep, hk.1]
    exact bad _ hk.2
  rw [forLoop_fault_le body h (i0 + 1) n e hi0 h1, h1]

theorem heapSet_colAccess (h : Heap α) (p : Nat) (m : Dense α) (hp : h[p]? = some m) (i j : Nat)
    (hi : i < m.rows) (hj : m.cols ≤ j) (v : α) :
    heapSet h p i j v = ⟨h, some .colAccess⟩ := by
  simp [heapSet, hp, Dense.Set, hi, Nat.not_lt.mpr hj]

section Narrow

variable [Field α] (cos sqrt : α → α) (pi : α)

/-- A run of `FDCT` into a supplied matrix with fewer columns than the source panics
at the first cell beyond the last column. -/
theorem FDCT_narrow (h : Heap α) (s d : Nat) (m md : Dense α)
    (hs : h[s]? = some m) (hd : h[d]? = some md) (hsd : s ≠ d)
    (h1 : m.rows % 2 = 0) (h2 : m.cols % 2 = 0)
    (hr : 0 < m.rows) (hr' : 0 < md.rows) (hc : md.cols < m.cols) :
    (FDCT cos sqrt pi h s (some d)).ret = .error .colAccess := by
  have hdl := lt_length_of_getElem? h d md hd
  have inner : (forLoop m.cols (fun ik2 => fdctCell cos sqrt pi s d m.rows m.cols 0 ik2) h).fault
      = some .colAccess := by
    apply forLoop_fault_at
      (fun b g => g = h.set d (md.fill (fdctOut cos sqrt pi m) m.cols 0 b)) m.cols md.cols _ h
      .colAccess hc
    · simp only [Dense.fill_zero, set_of_getElem? h d md hd]
    · intro b hb g hg
      have hs' : g[s]? = some m := by
        rw [hg, List.getElem?_set_ne (Ne.symm hsd)]
        exact hs
      have hd' : g[d]? = some (md.fill (fdctOut cos sqrt pi m) m.cols 0 b) := by
        rw [hg, List.getElem?_set_self hdl]
      rw [fdctCell_eq cos sqrt pi g s d m hs' 0 b, heapSet_eq g d _ hd' 0 b hr' hb]
      refine ⟨rfl, ?_⟩
      simp only
      rw [hg, List.set_set, Dense.fill_put _ _ _ _ _ (lt_trans hb hc)]
    · intro g hg
      have hs' : g[s]? = some m := by
        rw [hg, List.getElem?_set_ne (Ne.symm hsd)]
        exact hs
      have hd' : g[d]? = some (md.fill (fdctOut cos sqrt pi m) m.cols 0 md.cols) := by
        rw [hg, List.getElem?_set_self hdl]
      rw [fdctCell_eq cos sqrt pi g s d m hs' 0 md.cols,
        heapSet_colAccess g d _ hd' 0 md.cols hr' (le_refl _)]
  have outer : (forLoop m.rows
      (fun ik1 => forLoop m.cols (fun ik2 => fdctCell cos sqrt pi s d m.rows m.cols ik1 ik2)) h).fault
      = some .colAccess := by
    exact forLoop_fault_at (fun _ g => g = h) m.rows 0 _ h .colAccess hr rfl
      (fun i hi => absurd hi (Nat.not_lt_zero i))
      (fun g hg => by rw [hg]; exact inner)
  unfold FDCT
  simp only [hs, Dense.Dims, h1, h2]
  simp [outer]

end Narrow

section InPlace

variable [Field α] (cos sqrt : α → α) (pi : α)

theorem fdctCell_put (m : Dense α) (r c i j : Nat) (hr : m.rows = r) (hc : m.cols = c)
    (hi : i < r) (hj : j < c) :
    fdctCell cos sqrt pi 0 0 r c i j [m] = ⟨[m.put i j (fdctOut cos sqrt pi m i j)], none⟩ := by
  subst hr hc
  rw [fdctCell_eq cos sqrt pi [m] 0 0 m rfl i j, heapSet_eq [m] 0 m rfl i j hi hj]
  rfl

/-- The run of `FDCT` of a `2 × 2` matrix into itself: the cell `(0, 1)` is computed
from the matrix whose cell `(0, 0)` has already been overwritten. -/
theorem FDCT_inplace_two (m : Dense α) (hr : m.rows = 2) (hc : m.cols = 2) :
    ∃ Y, (FDCT cos sqrt pi [m] 0 (some 0)).matrix = some Y ∧
      Y.data 0 1 = fdctOut cos sqrt pi (m.put 0 0 (fdctOut cos sqrt pi m 0 0)) 0 1 := by
  let m1 := m.put 0 0 (fdctOut cos sqrt pi m 0 0)
  let m2 := m1.put 0 1 (fdctOut cos sqrt pi m1 0 1)
  let m3 := m2.put 1 0 (fdctOut cos sqrt pi m2 1 0)
  let m4 := m3.put 1 1 (fdctOut cos sqrt pi m3 1 1)
  have e1 : fdctCell cos sqrt pi 0 0 2 2 0 0 [m] = ⟨[m1], none⟩ :=
    fdctCell_put cos sqrt pi m 2 2 0 0 hr hc (by decide) (by decide)
  have e2 : fdctCell cos sqrt pi 0 0 2 2 0 1 [m1] = ⟨[m2], none⟩ :=
    fdctCell_put cos sqrt pi m1 2 2 0 1 hr hc (by decide) (by decide)
  have e3 : fdctCell cos sqrt pi 0 0 2 2 1 0 [m2] = ⟨[m3], none⟩ :=
    fdctCell_put cos sqrt pi m2 2 2 1 0 hr hc (by decide) (by decide)
  have e4 : fdctCell cos sqrt pi 0 0 2 2 1 1 [m3] = ⟨[m4], none⟩ :=
    fdctCell_put cos sqrt pi m3 2 2 1 1 hr hc (by decide) (by decide)
  have hrun : FDCT cos sqrt pi [m] 0 (some 0) = ⟨[m4], .ok 0⟩ := by
    unfold FDCT
    simp only [List.getElem?_cons_zero, Dense.Dims, hr, hc]
    simp only [forLoop_succ, forLoop_zero, forStep, e1, e2, e3, e4]
    simp
  refine ⟨m4, by rw [hrun]; rfl, ?_⟩
  simp [m4, m3, m2, m1, Dense.put]

end InPlace

/-! ## Linearity and adjointness of a kernel transform -/

section More

open Finset

variable [Field α]

theorem tr2_congr (A B : Nat → Nat → α) (R C : Nat) (X Y : Nat → Nat → α) (i j : Nat)
    (hXY : ∀ a b, a < R → b < C → X a b = Y a b) : tr2 A B R C X i j = tr2 A B R C Y i j := by
  unfold tr2
  apply sum_congr rfl
  intro a ha
  apply sum_congr rfl
  intro b hb
  rw [hXY a b (mem_range.mp ha) (mem_range.mp hb)]

/-- A kernel transform is linear. -/
theorem tr2_linear (A B : Nat → Nat → α) (R C : Nat) (X Y : Nat → Nat → α) (a b : α) (i j : Nat) :
    tr2 A B R C (fun n1 n2 => a * X n1 n2 + b * Y n1 n2) i j
      = a * tr2 A B R C X i j + b * tr2 A B R C Y i j := by
  unfold tr2
  rw [mul_sum, mul_sum, ← sum_add_distrib]
  apply sum_congr rfl
  intro n1 _
  rw [mul_sum, mul_sum, ← sum_add_distrib]
  apply sum_congr rfl
  intro n2 _
  ring

/-- A kernel transform and the transform with the transposed kernels are
adjoint. -/
theorem tr2_adjoint (A B : Nat → Nat → α) (R C : Nat) (X Y : Nat → Nat → α) :
    cellSum R C (tr2 A B R C X) Y
      = cellSum R C X (tr2 (fun n k => A k n) (fun n k => B k n) R C Y) := by
  unfold cellSum tr2
  have h1 : ∀ i ∈ range R, ∀ j ∈ range C,
      (∑ a in range R, ∑ b in range C, X a b * A i a * B j b) * Y i j
        = ∑ a in range R, ∑ b in range C, X a b * (Y i j * A i a * B j b) := by
    intro i _ j _
    rw [sum_mul]
    apply sum_congr rfl
    intro a _
    rw [sum_mul]
    apply sum_congr rfl
    intro b _
    ring
  have h2 : ∀ a ∈ range R, ∀ b ∈ range C,
      X a b * ∑ i in range R, ∑ j in range C, Y i j * A i a * B j b
        = ∑ i in range R, ∑ j in range C, X a b * (Y i j * A i a * B j b) := by
    intro a _ b _
    rw [mul_sum]
    apply sum_congr rfl
    intro i _
    rw [mul_sum]
  rw [sum_congr rfl (fun i hi => sum_congr rfl (h1 i hi)),
    sum_congr rfl (fun a ha => sum_congr rfl (h2 a ha))]
  -- reorder i j a b into a b i j
  calc ∑ i in range R, ∑ j in range C, ∑ a in range R, ∑ b in range C,
          X a b * (Y i j * A i a * B j b)
      = ∑ i in range R, ∑ a in range R, ∑ j in range C, ∑ b in range C,
          X a b * (Y i j * A i a * B j b) := by
        apply sum_congr rfl
        intro i _
        rw [sum_comm]
    _ = ∑ a in range R, ∑ i in range R, ∑ j in range C, ∑ b in range C,
          X a b * (Y i j * A i a * B j b) := by
        rw [sum_comm]
    _ = ∑ a in range R, ∑ i in range R, ∑ b in range C, ∑ j in range C,
          X a b * (Y i j * A i a * B j b) := by
        apply sum_congr rfl
        intro a _
        apply sum_congr rfl
        intro i _
        rw [sum_comm]
    _ = ∑ a in range R, ∑ b in range C, ∑ i in range R, ∑ j in range C,
          X a b * (Y i j * A i a * B j b) := by
        apply sum_congr rfl
        intro a _
        rw [sum_comm]

end More

section MoreBridge

open Finset

variable [Field α]

theorem cellSum_congr (R C : Nat) (X X' Y Y' : Nat → Nat → α)
    (hX : ∀ i j, i < R → j < C → X i j = X' i j) (hY : ∀ i j, i < R → j < C → Y i j = Y' i j) :
    cellSum R C X Y = cellSum R C X' Y' := by
  unfold cellSum
  apply sum_congr rfl
  intro i hi
  apply sum_congr rfl
  intro j hj
  rw [hX i j (mem_range.mp hi) (mem_range.mp hj), hY i j (mem_range.mp hi) (mem_range.mp hj)]

end MoreBridge

/-! ## The two-pass form -/

section Sep

open Finset

variable [Field α] (cos sqrt : α → α) (pi : α)

theorem dct2_eq_tr1 (N : Nat) (x : Nat → α) (k : Nat) :
    dct2 cos sqrt pi N x k = tr1 (fun k n => basis cos sqrt pi N k n) N x k := by
  unfold dct2 tr1 basis
  rw [mul_sum]
  apply sum_congr rfl
  intro n _
  ring

theorem dct3_eq_tr1 (N : Nat) (y : Nat → α) (n : Nat) :
    dct3 cos sqrt pi N y n = tr1 (fun n k => basis cos sqrt pi N k n) N y n := by
  unfold dct3 tr1 basis
  apply sum_congr rfl
  intro k _
  ring

/-- The forward cell is the two-pass form, rows first or columns first. -/
theorem fdctOut_two_pass (m : Dense α) (k1 k2 : Nat) :
    fdctOut cos sqrt pi m k1 k2
        = onCols (dct2 cos sqrt pi m.rows) (onRows (dct2 cos sqrt pi m.cols) m.data) k1 k2 ∧
    fdctOut cos sqrt pi m k1 k2
        = onRows (dct2 cos sqrt pi m.cols) (onCols (dct2 cos sqrt pi m.rows) m.data) k1 k2 := by
  constructor
  · rw [fdctOut_eq_tr2, tr2_eq_rows_of_cols]
    simp only [onCols, onRows, dct2_eq_tr1]
  · rw [fdctOut_eq_tr2, tr2_eq_cols_of_rows]
    simp only [onCols, onRows, dct2_eq_tr1]

/-- The inverse cell is the two-pass form, rows first or columns first. -/
theorem idctOut_two_pass (m : Dense α) (k1 k2 : Nat) :
    idctOut cos sqrt pi m k1 k2
        = onCols (dct3 cos sqrt pi m.rows) (onRows (dct3 cos sqrt pi m.cols) m.data) k1 k2 ∧
    idctOut cos sqrt pi m k1 k2
        = onRows (dct3 cos sqrt pi m.cols) (onCols (dct3 cos sqrt pi m.rows) m.data) k1 k2 := by
  constructor
  · rw [idctOut_eq_tr2, tr2_eq_rows_of_cols]
    simp only [onCols, onRows, dct3_eq_tr1]
  · rw [idctOut_eq_tr2, tr2_eq_cols_of_rows]
    simp only [onCols, onRows, dct3_eq_tr1]

end Sep

/-! ## More cells of small transforms -/

section Small2

open Finset

/-- The cell `(1, 0)` that `FDCT` computes from a `2 × 2` matrix. -/
theorem fdctOut_two_10 (m : Dense ℝ) (hr : m.rows = 2) (hc : m.cols = 2) :
    fdctOut Real.cos Real.sqrt Real.pi m 1 0
      = (m.data 0 0 + m.data 0 1 - m.data 1 0 - m.data 1 1) / 2 := by
  have hs : Real.sqrt 2 * Real.sqrt 2 = 2 := Real.mul_self_sqrt (by norm_num)
  have hs0 : Real.sqrt 2 ≠ 0 := by
    intro h0
    rw [h0] at hs
    norm_num at hs
  have e1 : Real.pi / 2 * ((0 : ℝ) + 0.5) * 1 = Real.pi / 4 := by norm_num; ring
  have e2 : Real.pi / 2 * ((1 : ℝ) + 0.5) * 1 = 3 * Real.pi / 4 := by norm_num; ring
  have e3 : Real.sqrt (2 / 2) = 1 := by norm_num
  simp only [fdctOut, fdctAcc, hr, hc, sum_range_succ, sum_range_zero, if_true]
  simp only [Nat.cast_zero, Nat.cast_one, mul_zero, Real.cos_zero, Nat.cast_ofNat, e1, e2, e3,
    Real.cos_pi_div_four, cos_three_pi_div_four, one_ne_zero, if_false]
  field_simp
  ring_nf

/-- The cell `(1, 1)` that `FDCT` computes from a `2 × 2` matrix. -/
theorem fdctOut_two_11 (m : Dense ℝ) (hr : m.rows = 2) (hc : m.cols = 2) :
    fdctOut Real.cos Real.sqrt Real.pi m 1 1
      = (m.data 0 0 - m.data 0 1 - m.data 1 0 + m.data 1 1) / 2 := by
  have hs : Real.sqrt 2 * Real.sqrt 2 = 2 := Real.mul_self_sqrt (by norm_num)
  have e1 : Real.pi / 2 * ((0 : ℝ) + 0.5) * 1 = Real.pi / 4 := by norm_num; ring
  have e2 : Real.pi / 2 * ((1 : ℝ) + 0.5) * 1 = 3 * Real.pi / 4 := by norm_num; ring
  have e3 : Real.sqrt (2 / 2) = 1 := by norm_num
  simp only [fdctOut, fdctAcc, hr, hc, sum_range_succ, sum_range_zero, if_true]
  simp only [Nat.cast_zero, Nat.cast_one, mul_zero, Real.cos_zero, Nat.cast_ofNat, e1, e2, e3,
    Real.cos_pi_div_four, cos_three_pi_div_four, one_ne_zero, if_false]
  ring_nf
  rw [show Real.sqrt 2 ^ 2 = 2 by rw [pow_two]; exact hs]
  ring

/-- The cells that `IDCT` computes from a `2 × 2` matrix. -/
theorem idctOut_two (m : Dense ℝ) (hr : m.rows = 2) (hc : m.cols = 2) :
    idctOut Real.cos Real.sqrt Real.pi m 0 0
        = (m.data 0 0 + m.data 0 1 + m.data 1 0 + m.data 1 1) / 2 ∧
    idctOut Real.cos Real.sqrt Real.pi m 0 1
        = (m.data 0 0 - m.data 0 1 + m.data 1 0 - m.data 1 1) / 2 ∧
    idctOut Real.cos Real.sqrt Real.pi m 1 0
        = (m.data 0 0 + m.data 0 1 - m.data 1 0 - m.data 1 1) / 2 ∧
    idctOut Real.cos Real.sqrt Real.pi m 1 1
        = (m.data 0 0 - m.data 0 1 - m.data 1 0 + m.data 1 1) / 2 := by
  have hs : Real.sqrt 2 * Real.sqrt 2 = 2 := Real.mul_self_sqrt (by norm_num)
  have hs0 : Real.sqrt 2 ≠ 0 := by
    intro h0
    rw [h0] at hs
    norm_num at hs
  have hsq : Real.sqrt 2 ^ 2 = 2 := by rw [pow_two]; exact hs
  have hs3 : Real.sqrt 2 ^ 3 = 2 * Real.sqrt 2 := by
    rw [pow_succ, hsq]
  have hs4 : Real.sqrt 2 ^ 4 = 4 := by
    rw [show (4 : ℕ) = 2 * 2 from rfl, pow_mul, hsq]
    norm_num
  have e1 : Real.pi / 2 * ((0 : ℝ) + 0.5) * 1 = Real.pi / 4 := by norm_num; ring
  have e2 : Real.pi / 2 * ((1 : ℝ) + 0.5) * 1 = 3 * Real.pi / 4 := by norm_num; ring
  have e3 : Real.sqrt (2 / 2) = 1 := by norm_num
  refine ⟨?_, ?_, ?_, ?_⟩ <;>
  · simp only [idctOut, hr, hc, sum_range_succ, sum_range_zero, if_true]
    simp only [Nat.cast_zero, Nat.cast_one, mul_zero, Real.cos_zero, Nat.cast_ofNat, e1, e2, e3,
      Real.cos_pi_div_four, cos_three_pi_div_four, one_ne_zero, if_false]
    field_simp
    ring_nf
    try simp only [hsq, hs3, hs4]
    try ring

end Small2

section Constant

open Finset

/-- The cosines of one frequency below `N` sum to `N` for the frequency zero
and to zero otherwise. -/
theorem sum_cos_freq (N k : ℕ) (hk : k < N) :
    ∑ n in range N, Real.cos (Real.pi / (N : ℝ) * ((n : ℝ) + 0.5) * (k : ℝ))
      = if k = 0 then (N : ℝ) else 0 := by
  by_cases hk0 : k = 0
  · subst hk0
    simp
  · rw [if_neg hk0]
    simp only [half_eq]
    exact sum_cos_eq_zero N k (Nat.pos_of_ne_zero hk0) (by omega)

/-- The forward cell of a matrix whose cells all equal `v`. -/
theorem fdctOut_const (m : Dense ℝ) (v : ℝ)
    (hv : ∀ i j, i < m.rows → j < m.cols → m.data i j = v) (k1 k2 : ℕ)
    (hk1 : k1 < m.rows) (hk2 : k2 < m.cols) :
    fdctOut Real.cos Real.sqrt Real.pi m k1 k2
      = if k1 = 0 ∧ k2 = 0 then v * Real.sqrt ((m.rows : ℝ) * (m.cols : ℝ)) else 0 := by
  have hacc : fdctAcc Real.cos Real.pi m (k1 : ℝ) (k2 : ℝ)
      = v * ((if k1 = 0 then (m.rows : ℝ) else 0) * (if k2 = 0 then (m.cols : ℝ) else 0)) := by
    unfold fdctAcc
    rw [← sum_cos_freq m.rows k1 hk1, ← sum_cos_freq m.cols k2 hk2, sum_mul_sum, mul_sum]
    apply sum_congr rfl
    intro a ha
    rw [mul_sum]
    apply sum_congr rfl
    intro b hb
    rw [hv a b (mem_range.mp ha) (mem_range.mp hb)]
    ring
  have hRp : (0 : ℝ) < m.rows := by exact_mod_cast (Nat.zero_lt_of_lt hk1)
  have hCp : (0 : ℝ) < m.cols := by exact_mod_cast (Nat.zero_lt_of_lt hk2)
  have hsR : Real.sqrt m.rows * Real.sqrt m.rows = m.rows := Real.mul_self_sqrt hRp.le
  have hsC : Real.sqrt m.cols * Real.sqrt m.cols = m.cols := Real.mul_self_sqrt hCp.le
  have hsR0 : Real.sqrt m.rows ≠ 0 := (Real.sqrt_pos.mpr hRp).ne'
  have hsC0 : Real.sqrt m.cols ≠ 0 := (Real.sqrt_pos.mpr hCp).ne'
  unfold fdctOut
  rw [hacc]
  by_cases h1 : k1 = 0
  · by_cases h2 : k2 = 0
    · rw [if_pos h1, if_pos h2, if_pos h1, if_pos h2, if_pos ⟨h1, h2⟩, Real.sqrt_mul hRp.le]
      field_simp
      nth_rewrite 1 [← hsR]
      nth_rewrite 1 [← hsC]
      ring
    · simp [h2]
  · simp [h1]

/-- The inverse cell of a matrix that is `d` at `(0, 0)` and zero elsewhere. -/
theorem idctOut_delta (m : Dense ℝ) (d : ℝ)
    (hd : ∀ i j, i < m.rows → j < m.cols → m.data i j = if i = 0 ∧ j = 0 then d else 0)
    (k1 k2 : ℕ) (hR : 0 < m.rows) (hC : 0 < m.cols) :
    idctOut Real.cos Real.sqrt Real.pi m k1 k2
      = d / Real.sqrt ((m.rows : ℝ) * (m.cols : ℝ)) := by
  have hRp : (0 : ℝ) < m.rows := by exact_mod_cast hR
  have hCp : (0 : ℝ) < m.cols := by exact_mod_cast hC
  unfold idctOut
  rw [sum_eq_single 0, sum_eq_single 0]
  · rw [hd 0 0 hR hC, Real.sqrt_mul hRp.le]
    simp only [and_self, if_true, Nat.cast_zero, mul_zero, Real.cos_zero]
    field_simp
  · intro b hb hb0
    rw [hd 0 b hR (mem_range.mp hb), if_neg (fun h => hb0 h.2)]
    simp
  · intro h0
    exact absurd (mem_range.mpr hC) h0
  · intro a ha ha0
    apply sum_eq_zero
    intro b hb
    rw [hd a b (mem_range.mp ha) (mem_range.mp hb), if_neg (fun h => ha0 h.1)]
    simp
  · intro h0
    exact absurd (mem_range.mpr hR) h0

end Constant

section Differ

open Finset

theorem sqrt_four : Real.sqrt 4 = 2 := by
  rw [show (4 : ℝ) = 2 ^ 2 by norm_num]
  exact Real.sqrt_sq (by norm_num)

theorem sqrt_half : Real.sqrt (2 / 4) = Real.sqrt 2 / 2 := by
  have hs : Real.sqrt 2 * Real.sqrt 2 = 2 := Real.mul_self_sqrt (by norm_num)
  have hpos : (0 : ℝ) ≤ Real.sqrt 2 / 2 := by positivity
  rw [show (2 / 4 : ℝ) = (Real.sqrt 2 / 2) ^ 2 by rw [div_pow, pow_two, hs]; norm_num]
  exact Real.sqrt_sq hpos

/-- The cell `(0, 0)` of the forward transform of the fourth test matrix. -/
theorem fdctOut_testD_00 :
    fdctOut Real.cos Real.sqrt Real.pi (testD : Dense ℝ) 0 0 = 7 * Real.sqrt 2 := by
  have hs : Real.sqrt 2 * Real.sqrt 2 = 2 := Real.mul_self_sqrt (by norm_num)
  have hs0 : Real.sqrt 2 ≠ 0 := by
    intro h0
    rw [h0] at hs
    norm_num at hs
  simp only [fdctOut, fdctAcc, testD, NewDenseOf, sum_range_succ, sum_range_zero, if_true]
  simp only [Nat.cast_zero, mul_zero, Real.cos_zero, Nat.cast_ofNat, sqrt_four]
  simp
  field_simp
  nlinarith [hs]


theorem idctOut_testD_00 :
    idctOut Real.cos Real.sqrt Real.pi (testD : Dense ℝ) 0 0 < 7 * Real.sqrt 2 := by
  have hs : Real.sqrt 2 * Real.sqrt 2 = 2 := Real.mul_self_sqrt (by norm_num)
  have hs0 : Real.sqrt 2 ≠ 0 := by
    intro h0
    rw [h0] at hs
    norm_num at hs
  have e3 : Real.sqrt (2 / 2) = 1 := by norm_num
  simp only [idctOut, testD, NewDenseOf, sum_range_succ, sum_range_zero, if_true]
  simp only [Nat.cast_zero, mul_zero, Real.cos_zero, Nat.cast_ofNat, sqrt_four, sqrt_half, e3]
  simp
  have ha : Real.pi / 2 * 0.5 = Real.pi / 4 := by norm_num; ring
  have hb : Real.pi / 4 * 0.5 * 2 = Real.pi / 4 := by norm_num; ring
  rw [ha, hb, Real.cos_pi_div_four]
  have hc1 : Real.cos (Real.pi / 4 * 0.5) ≤ 1 := Real.cos_le_one _
  have hc3 : Real.cos (Real.pi / 4 * 0.5 * 3) ≤ 1 / 2 := by
    rw [← Real.cos_pi_div_three]
    apply Real.cos_le_cos_of_nonneg_of_le_pi
    · positivity
    · norm_num
      nlinarith [Real.pi_pos]
    · norm_num
      nlinarith [Real.pi_pos]
  generalize Real.cos (Real.pi / 4 * 0.5) = c1 at hc1 ⊢
  generalize Real.cos (Real.pi / 4 * 0.5 * 3) = c3 at hc3 ⊢
  have hnn : 0 ≤ Real.sqrt 2 := Real.sqrt_nonneg 2
  have hinv : (Real.sqrt 2)⁻¹ = Real.sqrt 2 / 2 := by
    field_simp
  rw [hinv]
  generalize Real.sqrt 2 = s at hs hnn ⊢
  have hs14 : 14 / 10 < s := by
    by_contra hle
    push_neg at hle
    nlinarith
  have key : 2⁻¹ * (s / 2) + (2 * (s / 2) * (s / 2) * c1 + 3 * (s / 2) * c1 * (s / 2))
        + (4 * (s / 2) * (s / 2) * (s / 2) + 5 * (s / 2) * (s / 2) * (s / 2))
        + (6 * (s / 2) * (s / 2) * c3 + 7 * (s / 2) * c3 * (s / 2))
      = 5 / 2 * s + 5 / 2 * c1 + 13 / 2 * c3 := by
    linear_combination (5 / 4 * c1 + 13 / 4 * c3 + 9 / 8 * s) * hs
  rw [key]
  linarith

end Differ

/-! ## The recorded calls of `Set` -/

section LogLemmas

theorem forLoopLog_zero (body : Nat → Heap α → List (Nat × Nat × α) → ExecLog α) (h : Heap α)
    (l : List (Nat × Nat × α)) : forLoopLog 0 body h l = ⟨h, l, none⟩ := by
  simp [forLoopLog]

theorem forLoopLog_succ (n : Nat) (body : Nat → Heap α → List (Nat × Nat × α) → ExecLog α)
    (h : Heap α) (l : List (Nat × Nat × α)) :
    forLoopLog (n + 1) body h l = forStepLog body (forLoopLog n body h l) n := by
  simp [forLoopLog, List.range_succ, List.foldl_append]

/-- Erasing the log of a loop gives the loop. -/
theorem forLoopLog_erase (n : Nat) (bodyL : Nat → Heap α → List (Nat × Nat × α) → ExecLog α)
    (body : Nat → Heap α → Exec α)
    (hb : ∀ i g l, (bodyL i g l).heap = (body i g).heap ∧ (bodyL i g l).fault = (body i g).fault)
    (h : Heap α) (l : List (Nat × Nat × α)) :
    (forLoopLog n bodyL h l).heap = (forLoop n body h).heap ∧
      (forLoopLog n bodyL h l).fault = (forLoop n body h).fault := by
  induction n with
  | zero => simp [forLoopLog_zero, forLoop_zero]
  | succ k ih =>
    rw [forLoopLog_succ, forLoop_succ, forStepLog, forStep, ih.2]
    cases hf : (forLoop k body h).fault with
    | some e => simp only; exact ⟨ih.1, by rw [ih.2, hf]⟩
    | none =>
      simp only
      rw [ih.1]
      exact hb k _ _

/-- Invariant rule for a logged loop none of whose iterations panics. -/
theorem forLoopLog_inv (P : Nat → Heap α → List (Nat × Nat × α) → Prop) (n : Nat)
    (body : Nat → Heap α → List (Nat × Nat × α) → ExecLog α)
    (h : Heap α) (l : List (Nat × Nat × α)) (h0 : P 0 h l)
    (step : ∀ i, i < n → ∀ g k, P i g k →
      (body i g k).fault = none ∧ P (i + 1) (body i g k).heap (body i g k).log) :
    (forLoopLog n body h l).fault = none ∧
      P n (forLoopLog n body h l).heap (forLoopLog n body h l).log := by
  induction n with
  | zero => simpa [forLoopLog_zero] using h0
  | succ k ih =>
    have hk := ih (fun i hi g k hg => step i (Nat.lt_succ_of_lt hi) g k hg)
    rw [forLoopLog_succ, forStepLog, hk.1]
    exact step k (Nat.lt_succ_self k) _ _ hk.2

theorem cellLog_zero (F : Nat → Nat → α) (c : Nat) : cellLog F c 0 0 = [] := by
  simp [cellLog]

theorem cellLog_put (F : Nat → Nat → α) (c a b : Nat) :
    cellLog F c a b ++ [(a, b, F a b)] = cellLog F c a (b + 1) := by
  simp [cellLog, List.range_succ]

theorem cellLog_row (F : Nat → Nat → α) (c a : Nat) :
    cellLog F c a c = cellLog F c (a + 1) 0 := by
  simp [cellLog, List.range_succ]


theorem heapSetLog_eq (h : Heap α) (l : List (Nat × Nat × α)) (p : Nat) (m : Dense α)
    (hp : h[p]? = some m) (i j : Nat) (hi : i < m.rows) (hj : j < m.cols) (v : α) :
    heapSetLog h l p i j v = ⟨h.set p (m.put i j v), l ++ [(i, j, v)], none⟩ := by
  simp [heapSetLog, heapSet_eq h p m hp i j hi hj]

/-- The two outer loops with the log, when every cell body writes `F i j` to
the cell `(i, j)` of the matrix at `d` and the matrix at `s` is another one:
the calls of `Set` are those of `cellLog`. -/
theorem forLoopLog_fill (cell : Nat → Nat → Heap α → List (Nat × Nat × α) → ExecLog α)
    (F : Nat → Nat → α) (h : Heap α) (l0 : List (Nat × Nat × α)) (s d r c : Nat)
    (m md : Dense α) (hs : h[s]? = some m) (hd : h[d]? = some md) (hsd : s ≠ d)
    (hr : r ≤ md.rows) (hc : c ≤ md.cols)
    (hcell : ∀ i j g l, g[s]? = some m → i < r → j < c →
      cell i j g l = heapSetLog g l d i j (F i j)) :
    forLoopLog r (fun i => forLoopLog c (fun j => cell i j)) h l0
      = ⟨h.set d (md.fill F c r 0), l0 ++ cellLog F c r 0, none⟩ := by
  have hdl := lt_length_of_getElem? h d md hd
  let P : Nat → Nat → Heap α → List (Nat × Nat × α) → Prop :=
    fun a b g l => g = h.set d (md.fill F c a b) ∧ l = l0 ++ cellLog F c a b
  have key := forLoopLog_inv (fun a g l => P a 0 g l) r
    (fun i => forLoopLog c (fun j => cell i j)) h l0
    (by simp only [P, Dense.fill_zero, set_of_getElem? h d md hd, cellLog_zero,
      List.append_nil, and_self]) ?_
  · obtain ⟨k1, k2, k3⟩ := key
    cases hx : forLoopLog r (fun i => forLoopLog c (fun j => cell i j)) h l0 with
    | mk hp lg ft =>
      rw [hx] at k1 k2 k3
      simp only at k1 k2 k3
      rw [k1, k2, k3]
  · intro a ha g l hg
    have inner := forLoopLog_inv (fun b g l => P a b g l) c (fun j => cell a j) g l hg ?_
    · refine ⟨inner.1, ?_⟩
      obtain ⟨_, i2, i3⟩ := inner
      simp only [P] at i2 i3 ⊢
      rw [i2, i3, Dense.fill_row, cellLog_row]
      exact ⟨rfl, rfl⟩
    · intro b hb g' l' hg'
      obtain ⟨hg1, hg2⟩ := hg'
      have hs' : g'[s]? = some m := by
        rw [hg1, List.getElem?_set_ne (Ne.symm hsd)]
        exact hs
      have hd' : g'[d]? = some (md.fill F c a b) := by
        rw [hg1, List.getElem?_set_self hdl]
      show (cell a b g' l').fault = none ∧
        P a (b + 1) (cell a b g' l').heap (cell a b g' l').log
      rw [hcell a b g' l' hs' ha hb,
        heapSetLog_eq g' l' d _ hd' a b (lt_of_lt_of_le ha hr) (lt_of_lt_of_le hb hc)]
      refine ⟨rfl, ?_, ?_⟩
      · simp only
        rw [hg1, List.set_set, Dense.fill_put _ _ _ _ _ hb]
      · simp only
        rw [hg2, List.append_assoc, cellLog_put]

/-- The cells written by the calls of `cellLog`, in order: the cells of the
`r × c` block, row by row. -/
theorem cellLog_targets (F : Nat → Nat → α) (c r : Nat) :
    (cellLog F c r 0).map target = List.product (List.range r) (List.range c) := by
  simp [cellLog, List.product, List.map_flatMap, target, Function.comp_def]

/-- The value written by each call of `cellLog`. -/
theorem cellLog_values (F : Nat → Nat → α) (c r : Nat) (e : Nat × Nat × α)
    (he : e ∈ cellLog F c r 0) : e.2.2 = F e.1 e.2.1 := by
  simp only [cellLog, List.range_zero, List.map_nil, List.append_nil, List.mem_flatMap,
    List.mem_map] at he
  obtain ⟨i, _, j, _, rfl⟩ := he
  rfl


end LogLemmas

section LogRuns

variable [Field α] (cos sqrt : α → α) (pi : α)

theorem fdctCellLog_erase (s d r c i j : Nat) (g : Heap α) (l : List (Nat × Nat × α)) :
    (fdctCellLog cos sqrt pi s d r c i j g l).heap = (fdctCell cos sqrt pi s d r c i j g).heap ∧
    (fdctCellLog cos sqrt pi s d r c i j g l).fault
      = (fdctCell cos sqrt pi s d r c i j g).fault := by
  unfold fdctCellLog fdctCell
  simp only
  cases fdctSum cos pi g s r c (i : α) (j : α) with
  | error e => exact ⟨rfl, rfl⟩
  | ok sum => exact ⟨rfl, rfl⟩

theorem idctCellLog_erase (s d r c i j : Nat) (g : Heap α) (l : List (Nat × Nat × α)) :
    (idctCellLog cos sqrt pi s d r c i j g l).heap = (idctCell cos sqrt pi s d r c i j g).heap ∧
    (idctCellLog cos sqrt pi s d r c i j g l).fault
      = (idctCell cos sqrt pi s d r c i j g).fault := by
  unfold idctCellLog idctCell
  simp only
  cases idctSum cos sqrt pi g s r c (i : α) (j : α) with
  | error e => exact ⟨rfl, rfl⟩
  | ok sum => exact ⟨rfl, rfl⟩

theorem fdctLoopsLog_erase (s d r c : Nat) (g : Heap α) (l : List (Nat × Nat × α)) :
    (forLoopLog r (fun ik1 => forLoopLog c (fun ik2 => fdctCellLog cos sqrt pi s d r c ik1 ik2))
        g l).heap
      = (forLoop r (fun ik1 => forLoop c (fun ik2 => fdctCell cos sqrt pi s d r c ik1 ik2)) g).heap ∧
    (forLoopLog r (fun ik1 => forLoopLog c (fun ik2 => fdctCellLog cos sqrt pi s d r c ik1 ik2))
        g l).fault
      = (forLoop r (fun ik1 => forLoop c (fun ik2 => fdctCell cos sqrt pi s d r c ik1 ik2))
          g).fault :=
  forLoopLog_erase r _ _
    (fun i g' l' => forLoopLog_erase c _ _
      (fun j g'' l'' => fdctCellLog_erase cos sqrt pi s d r c i j g'' l'') g' l') g l

theorem idctLoopsLog_erase (s d r c : Nat) (g : Heap α) (l : List (Nat × Nat × α)) :
    (forLoopLog r (fun ik1 => forLoopLog c (fun ik2 => idctCellLog cos sqrt pi s d r c ik1 ik2))
        g l).heap
      = (forLoop r (fun ik1 => forLoop c (fun ik2 => idctCell cos sqrt pi s d r c ik1 ik2)) g).heap ∧
    (forLoopLog r (fun ik1 => forLoopLog c (fun ik2 => idctCellLog cos sqrt pi s d r c ik1 ik2))
        g l).fault
      = (forLoop r (fun ik1 => forLoop c (fun ik2 => idctCell cos sqrt pi s d r c ik1 ik2))
          g).fault :=
  forLoopLog_erase r _ _
    (fun i g' l' => forLoopLog_erase c _ _
      (fun j g'' l'' => idctCellLog_erase cos sqrt pi s d r c i j g'' l'') g' l') g l

/-- The run of `FDCT` with the log is the run of `FDCT`. -/
theorem FDCTLog_erase (h : Heap α) (s : Nat) (dst : Option Nat) :
    (FDCTLog cos sqrt pi h s dst).1 = FDCT cos sqrt pi h s dst := by
  unfold FDCTLog FDCT
  cases hsrc : h[s]? with
  | none => rfl
  | some m =>
    simp only [Dense.Dims]
    by_cases hpar : (m.rows % 2 != 0 || m.cols % 2 != 0) = true
    · simp only [hpar, if_true]
    · simp only [hpar, if_false]
      cases dst with
      | none =>
        simp only
        obtain ⟨e1, e2⟩ := fdctLoopsLog_erase cos sqrt pi s h.length m.rows m.cols
          (h ++ [NewDense m.rows m.cols]) []
        rw [e2]
        cases (forLoop m.rows (fun ik1 => forLoop m.cols
          (fun ik2 => fdctCell cos sqrt pi s h.length m.rows m.cols ik1 ik2))
          (h ++ [NewDense m.rows m.cols])).fault <;> simp [e1]
      | some d =>
        simp only
        obtain ⟨e1, e2⟩ := fdctLoopsLog_erase cos sqrt pi s d m.rows m.cols h []
        rw [e2]
        cases (forLoop m.rows (fun ik1 => forLoop m.cols
          (fun ik2 => fdctCell cos sqrt pi s d m.rows m.cols ik1 ik2)) h).fault <;> simp [e1]

/-- The run of `IDCT` with the log is the run of `IDCT`. -/
theorem IDCTLog_erase (h : Heap α) (s : Nat) (dst : Option Nat) :
    (IDCTLog cos sqrt pi h s dst).1 = IDCT cos sqrt pi h s dst := by
  unfold IDCTLog IDCT
  cases hsrc : h[s]? with
  | none => rfl
  | some m =>
    simp only [Dense.Dims]
    by_cases hpar : (m.rows % 2 != 0 || m.cols % 2 != 0) = true
    · simp only [hpar, if_true]
    · simp only [hpar, if_false]
      cases dst with
      | none =>
        simp only
        obtain ⟨e1, e2⟩ := idctLoopsLog_erase cos sqrt pi s h.length m.rows m.cols
          (h ++ [NewDense m.rows m.cols]) []
        rw [e2]
        cases (forLoop m.rows (fun ik1 => forLoop m.cols
          (fun ik2 => idctCell cos sqrt pi s h.length m.rows m.cols ik1 ik2))
          (h ++ [NewDense m.rows m.cols])).fault <;> simp [e1]
      | some d =>
        simp only
        obtain ⟨e1, e2⟩ := idctLoopsLog_erase cos sqrt pi s d m.rows m.cols h []
        rw [e2]
        cases (forLoop m.rows (fun ik1 => forLoop m.cols
          (fun ik2 => idctCell cos sqrt pi s d m.rows m.cols ik1 ik2)) h).fault <;> simp [e1]

theorem fdctCellLog_eq (h : Heap α) (l : List (Nat × Nat × α)) (s d : Nat) (m : Dense α)
    (hs : h[s]? = some m) (ik1 ik2 : Nat) :
    fdctCellLog cos sqrt pi s d m.rows m.cols ik1 ik2 h l
      = heapSetLog h l d ik1 ik2 (fdctOut cos sqrt pi m ik1 ik2) := by
  unfold fdctCellLog
  simp only [fdctSum_eq cos pi h s m hs]
  rfl

theorem idctCellLog_eq (h : Heap α) (l : List (Nat × Nat × α)) (s d : Nat) (m : Dense α)
    (hs : h[s]? = some m) (ik1 ik2 : Nat) :
    idctCellLog cos sqrt pi s d m.rows m.cols ik1 ik2 h l
      = heapSetLog h l d ik1 ik2 (idctOut cos sqrt pi m ik1 ik2) := by
  unfold idctCellLog
  simp only [idctSum_eq cos sqrt pi h s m hs]

/-- The calls of `Set` made by `FDCT`, with no destination or with a supplied
destination that is not the source and has room for the result. -/
theorem FDCTLog_log (h : Heap α) (s : Nat) (dst : Option Nat) (m : Dense α)
    (hs : h[s]? = some m) (h1 : m.rows % 2 = 0) (h2 : m.cols % 2 = 0)
    (hdst : ∀ d, dst = some d →
      s ≠ d ∧ ∃ md, h[d]? = some md ∧ m.rows ≤ md.rows ∧ m.cols ≤ md.cols) :
    (FDCTLog cos sqrt pi h s dst).2 = cellLog (fdctOut cos sqrt pi m) m.cols m.rows 0 := by
  have hlt := lt_length_of_getElem? h s m hs
  unfold FDCTLog
  simp only [hs, Dense.Dims, h1, h2]
  cases dst with
  | none =>
    have hs' : (h ++ [NewDense m.rows m.cols])[s]? = some m := by
      rw [List.getElem?_append_left hlt, hs]
    have hd' : (h ++ [NewDense m.rows m.cols])[h.length]? = some (NewDense m.rows m.cols) := by
      simp
    simp only
    rw [forLoopLog_fill _ (fdctOut cos sqrt pi m) _ [] s h.length m.rows m.cols m _ hs' hd'
      (Nat.ne_of_lt hlt) (le_refl _) (le_refl _)
      (fun i j g l hg _ _ => fdctCellLog_eq cos sqrt pi g l s h.length m hg i j)]
    simp
  | some d =>
    obtain ⟨hsd, md, hd, hr, hc⟩ := hdst d rfl
    simp only
    rw [forLoopLog_fill _ (fdctOut cos sqrt pi m) h [] s d m.rows m.cols m md hs hd hsd hr hc
      (fun i j g l hg _ _ => fdctCellLog_eq cos sqrt pi g l s d m hg i j)]
    simp

/-- The calls of `Set` made by `IDCT`, with no destination or with a supplied
destination that is not the source and has room for the result. -/
theorem IDCTLog_log (h : Heap α) (s : Nat) (dst : Option Nat) (m : Dense α)
    (hs : h[s]? = some m) (h1 : m.rows % 2 = 0) (h2 : m.cols % 2 = 0)
    (hdst : ∀ d, dst = some d →
      s ≠ d ∧ ∃ md, h[d]? = some md ∧ m.rows ≤ md.rows ∧ m.cols ≤ md.cols) :
    (IDCTLog cos sqrt pi h s dst).2 = cellLog (idctOut cos sqrt pi m) m.cols m.rows 0 := by
  have hlt := lt_length_of_getElem? h s m hs
  unfold IDCTLog
  simp only [hs, Dense.Dims, h1, h2]
  cases dst with
  | none =>
    have hs' : (h ++ [NewDense m.rows m.cols])[s]? = some m := by
      rw [List.getElem?_append_left hlt, hs]
    have hd' : (h ++ [NewDense m.rows m.cols])[h.length]? = some (NewDense m.rows m.cols) := by
      simp
    simp only
    rw [forLoopLog_fill _ (idctOut cos sqrt pi m) _ [] s h.length m.rows m.cols m _ hs' hd'
      (Nat.ne_of_lt hlt) (le_refl _) (le_refl _)
      (fun i j g l hg _ _ => idctCellLog_eq cos sqrt pi g l s h.length m hg i j)]
    simp
  | some d =>
    obtain ⟨hsd, md, hd, hr, hc⟩ := hdst d rfl
    simp only
    rw [forLoopLog_fill _ (idctOut cos sqrt pi m) h [] s d m.rows m.cols m md hs hd hsd hr hc
      (fun i j g l hg _ _ => idctCellLog_eq cos sqrt pi g l s d m hg i j)]
    simp

end LogRuns

/-! ## The recorded calls when the destination is the source or is too small -/

section LogTargets

theorem cellTargets_zero (c : Nat) : cellTargets c 0 0 = [] := by
  simp [cellTargets]

theorem cellTargets_put (c a b : Nat) :
    cellTargets c a b ++ [(a, b)] = cellTargets c a (b + 1) := by
  simp [cellTargets, List.range_succ]

theorem cellTargets_row (c a : Nat) : cellTargets c a c = cellTargets c (a + 1) 0 := by
  simp [cellTargets, List.range_succ]

theorem cellTargets_product (c r : Nat) :
    cellTargets c r 0 = List.product (List.range r) (List.range c) := by
  simp [cellTargets, List.product]

theorem heapSetLog_colAccess (h : Heap α) (l : List (Nat × Nat × α)) (p : Nat) (m : Dense α)
    (hp : h[p]? = some m) (i j : Nat) (hi : i < m.rows) (hj : m.cols ≤ j) (v : α) :
    heapSetLog h l p i j v = ⟨h, l ++ [(i, j, v)], some .colAccess⟩ := by
  simp [heapSetLog, heapSet_colAccess h p m hp i j hi hj]

/-- The two outer loops with the log, when every cell body calls `Set` on the
cell `(i, j)` of the matrix at `d`, which has room for `r × c` cells, and the
matrix at `s`, which may be the same one, is `r × c`: no call panics and the
cells targeted are those of `cellTargets`. -/
theorem forLoopLog_targets (cell : Nat → Nat → Heap α → List (Nat × Nat × α) → ExecLog α)
    (h : Heap α) (s d r c : Nat) (m md : Dense α)
    (hs : h[s]? = some m) (hmr : m.rows = r) (hmc : m.cols = c)
    (hd : h[d]? = some md) (hr : r ≤ md.rows) (hc : c ≤ md.cols)
    (hcell : ∀ i j g l m', g[s]? = some m' → m'.rows = r → m'.cols = c → i < r → j < c →
      ∃ v, cell i j g l = heapSetLog g l d i j v) :
    (forLoopLog r (fun i => forLoopLog c (fun j => cell i j)) h []).fault = none ∧
    (forLoopLog r (fun i => forLoopLog c (fun j => cell i j)) h []).log.map target
      = cellTargets c r 0 := by
  -- the matrices at `s` and `d` keep their dimensions
  let Room : Heap α → Prop := fun g =>
    (∃ m', g[s]? = some m' ∧ m'.rows = r ∧ m'.cols = c) ∧
    (∃ md', g[d]? = some md' ∧ r ≤ md'.rows ∧ c ≤ md'.cols)
  let P : Nat → Nat → Heap α → List (Nat × Nat × α) → Prop :=
    fun a b g l => Room g ∧ l.map target = cellTargets c a b
  have key := forLoopLog_inv (fun a g l => P a 0 g l) r
    (fun i => forLoopLog c (fun j => cell i j)) h []
    ⟨⟨⟨m, hs, hmr, hmc⟩, ⟨md, hd, hr, hc⟩⟩, by simp [cellTargets_zero]⟩ ?_
  · exact ⟨key.1, key.2.2⟩
  · intro a ha g l hg
    have inner := forLoopLog_inv (fun b g l => P a b g l) c (fun j => cell a j) g l hg ?_
    · refine ⟨inner.1, inner.2.1, ?_⟩
      rw [inner.2.2, cellTargets_row]
    · intro b hb g' l' hg'
      obtain ⟨⟨⟨m', hm', hm'r, hm'c⟩, ⟨md', hmd', hr', hc'⟩⟩, hl'⟩ := hg'
      obtain ⟨v, hv⟩ := hcell a b g' l' m' hm' hm'r hm'c ha hb
      have hdl := lt_length_of_getElem? g' d md' hmd'
      show (cell a b g' l').fault = none ∧
        P a (b + 1) (cell a b g' l').heap (cell a b g' l').log
      rw [hv, heapSetLog_eq g' l' d md' hmd' a b (lt_of_lt_of_le ha hr')
        (lt_of_lt_of_le hb hc')]
      refine ⟨rfl, ⟨?_, ?_⟩, ?_⟩
      · by_cases hsd : s = d
        · refine ⟨md'.put a b v, ?_, ?_, ?_⟩
          · show (g'.set d (md'.put a b v))[s]? = _
            rw [hsd, List.getElem?_set_self hdl]
          · have : m' = md' := by
              rw [hsd, hmd'] at hm'
              exact (Option.some.inj hm').symm
            show md'.rows = r
            rw [← this]; exact hm'r
          · have : m' = md' := by
              rw [hsd, hmd'] at hm'
              exact (Option.some.inj hm').symm
            show md'.cols = c
            rw [← this]; exact hm'c
        · refine ⟨m', ?_, hm'r, hm'c⟩
          show (g'.set d (md'.put a b v))[s]? = _
          rw [List.getElem?_set_ne (Ne.symm hsd)]
          exact hm'
      · refine ⟨md'.put a b v, ?_, hr', hc'⟩
        show (g'.set d (md'.put a b v))[d]? = _
        rw [List.getElem?_set_self hdl]
      · show (l' ++ [(a, b, v)]).map target = _
        rw [List.map_append, hl', ← cellTargets_put]
        rfl

end LogTargets

section LogRoom

variable [Field α] (cos sqrt : α → α) (pi : α)

theorem fdctCellLog_at (g : Heap α) (l : List (Nat × Nat × α)) (s d : Nat) (m : Dense α)
    (r c : Nat) (hs : g[s]? = some m) (hr : m.rows = r) (hc : m.cols = c) (i j : Nat) :
    fdctCellLog cos sqrt pi s d r c i j g l
      = heapSetLog g l d i j (fdctOut cos sqrt pi m i j) := by
  subst hr hc
  exact fdctCellLog_eq cos sqrt pi g l s d m hs i j

theorem idctCellLog_at (g : Heap α) (l : List (Nat × Nat × α)) (s d : Nat) (m : Dense α)
    (r c : Nat) (hs : g[s]? = some m) (hr : m.rows = r) (hc : m.cols = c) (i j : Nat) :
    idctCellLog cos sqrt pi s d r c i j g l
      = heapSetLog g l d i j (idctOut cos sqrt pi m i j) := by
  subst hr hc
  exact idctCellLog_eq cos sqrt pi g l s d m hs i j

/-- The cells targeted by the calls of `Set` that `FDCT` makes, with no
destination or with a supplied destination, the source itself or another
matrix, that has room for the result. -/
theorem FDCTLog_targets (h : Heap α) (s : Nat) (dst : Option Nat) (m : Dense α)
    (hs : h[s]? = some m) (h1 : m.rows % 2 = 0) (h2 : m.cols % 2 = 0)
    (hroom : ∀ d, dst = some d → ∃ md, h[d]? = some md ∧ m.rows ≤ md.rows ∧ m.cols ≤ md.cols) :
    (∃ d, (FDCTLog cos sqrt pi h s dst).1.ret = .ok d) ∧
    (FDCTLog cos sqrt pi h s dst).2.map target = cellTargets m.cols m.rows 0 := by
  have hlt := lt_length_of_getElem? h s m hs
  unfold FDCTLog
  simp only [hs, Dense.Dims, h1, h2]
  cases dst with
  | none =>
    have hs' : (h ++ [NewDense m.rows m.cols])[s]? = some m := by
      rw [List.getElem?_append_left hlt, hs]
    have hd' : (h ++ [NewDense m.rows m.cols])[h.length]? = some (NewDense m.rows m.cols) := by
      simp
    obtain ⟨k1, k2⟩ := forLoopLog_targets
      (fun i j => fdctCellLog cos sqrt pi s h.length m.rows m.cols i j)
      (h ++ [NewDense m.rows m.cols]) s h.length m.rows m.cols m (NewDense m.rows m.cols)
      hs' rfl rfl hd' (le_refl _) (le_refl _)
      (fun i j g l m' hm' hr hc _ _ =>
        ⟨_, fdctCellLog_at cos sqrt pi g l s h.length m' m.rows m.cols hm' hr hc i j⟩)
    simp only
    rw [k1]
    exact ⟨⟨h.length, rfl⟩, k2⟩
  | some d =>
    obtain ⟨md, hd, hr, hc⟩ := hroom d rfl
    obtain ⟨k1, k2⟩ := forLoopLog_targets
      (fun i j => fdctCellLog cos sqrt pi s d m.rows m.cols i j)
      h s d m.rows m.cols m md hs rfl rfl hd hr hc
      (fun i j g l m' hm' hr hc _ _ =>
        ⟨_, fdctCellLog_at cos sqrt pi g l s d m' m.rows m.cols hm' hr hc i j⟩)
    simp only
    rw [k1]
    exact ⟨⟨d, rfl⟩, k2⟩

/-- The cells targeted by the calls of `Set` that `IDCT` makes, with no
destination or with a supplied destination, the source itself or another
matrix, that has room for the result. -/
theorem IDCTLog_targets (h : Heap α) (s : Nat) (dst : Option Nat) (m : Dense α)
    (hs : h[s]? = some m) (h1 : m.rows % 2 = 0) (h2 : m.cols % 2 = 0)
    (hroom : ∀ d, dst = some d → ∃ md, h[d]? = some md ∧ m.rows ≤ md.rows ∧ m.cols ≤ md.cols) :
    (∃ d, (IDCTLog cos sqrt pi h s dst).1.ret = .ok d) ∧
    (IDCTLog cos sqrt pi h s dst).2.map target = cellTargets m.cols m.rows 0 := by
  have hlt := lt_length_of_getElem? h s m hs
  unfold IDCTLog
  simp only [hs, Dense.Dims, h1, h2]
  cases dst with
  | none =>
    have hs' : (h ++ [NewDense m.rows m.cols])[s]? = some m := by
      rw [List.getElem?_append_left hlt, hs]
    have hd' : (h ++ [NewDense m.rows m.cols])[h.length]? = some (NewDense m.rows m.cols) := by
      simp
    obtain ⟨k1, k2⟩ := forLoopLog_targets
      (fun i j => idctCellLog cos sqrt pi s h.length m.rows m.cols i j)
      (h ++ [NewDense m.rows m.cols]) s h.length m.rows m.cols m (NewDense m.rows m.cols)
      hs' rfl rfl hd' (le_refl _) (le_refl _)
      (fun i j g l m' hm' hr hc _ _ =>
        ⟨_, idctCellLog_at cos sqrt pi g l s h.length m' m.rows m.cols hm' hr hc i j⟩)
    simp only
    rw [k1]
    exact ⟨⟨h.length, rfl⟩, k2⟩
  | some d =>
    obtain ⟨md, hd, hr, hc⟩ := hroom d rfl
    obtain ⟨k1, k2⟩ := forLoopLog_targets
      (fun i j => idctCellLog cos sqrt pi s d m.rows m.cols i j)
      h s d m.rows m.cols m md hs rfl rfl hd hr hc
      (fun i j g l m' hm' hr hc _ _ =>
        ⟨_, idctCellLog_at cos sqrt pi g l s d m' m.rows m.cols hm' hr hc i j⟩)
    simp only
    rw [k1]
    exact ⟨⟨d, rfl⟩, k2⟩

/-- The logged run of `FDCT` of a `2 × 2` matrix into a `1 × 1` matrix: the
call `Set(0, 0, _)` is made, the call `Set(0, 1, _)` panics, and no other
call is made. -/
theorem FDCTLog_narrow_two (m md : Dense α) (hr : m.rows = 2) (hc : m.cols = 2)
    (hr' : md.rows = 1) (hc' : md.cols = 1) :
    (FDCTLog cos sqrt pi [m, md] 0 (some 1)).1.ret = .error .colAccess ∧
    (FDCTLog cos sqrt pi [m, md] 0 (some 1)).2.map target = [(0, 0), (0, 1)] := by
  have e1 : fdctCellLog cos sqrt pi 0 1 2 2 0 0 [m, md] []
      = ⟨[m, md.put 0 0 (fdctOut cos sqrt pi m 0 0)], [(0, 0, fdctOut cos sqrt pi m 0 0)],
          none⟩ := by
    rw [fdctCellLog_at cos sqrt pi [m, md] [] 0 1 m 2 2 rfl hr hc 0 0,
      heapSetLog_eq [m, md] [] 1 md rfl 0 0 (by rw [hr']; decide) (by rw [hc']; decide)]
    rfl
  have e2 : fdctCellLog cos sqrt pi 0 1 2 2 0 1
      [m, md.put 0 0 (fdctOut cos sqrt pi m 0 0)] [(0, 0, fdctOut cos sqrt pi m 0 0)]
      = ⟨[m, md.put 0 0 (fdctOut cos sqrt pi m 0 0)],
          [(0, 0, fdctOut cos sqrt pi m 0 0), (0, 1, fdctOut cos sqrt pi m 0 1)],
          some .colAccess⟩ := by
    rw [fdctCellLog_at cos sqrt pi _ _ 0 1 m 2 2 rfl hr hc 0 1,
      heapSetLog_colAccess _ _ 1 (md.put 0 0 (fdctOut cos sqrt pi m 0 0)) rfl 0 1
        (by show 0 < md.rows; rw [hr']; decide) (by show md.cols ≤ 1; rw [hc'])]
    rfl
  unfold FDCTLog
  simp only [List.getElem?_cons_zero, Dense.Dims, hr, hc]
  simp only [forLoopLog_succ, forLoopLog_zero, forStepLog, e1, e2]
  simp [target]

/-- The logged run of `FDCT` of a `2 × 2` matrix into itself: the value of
the call `Set(0, 1, _)` is computed from the matrix whose cell `(0, 0)` has
already been overwritten. -/
theorem FDCTLog_inplace_two (m : Dense α) (hr : m.rows = 2) (hc : m.cols = 2) :
    (0, 1, fdctOut cos sqrt pi (m.put 0 0 (fdctOut cos sqrt pi m 0 0)) 0 1)
      ∈ (FDCTLog cos sqrt pi [m] 0 (some 0)).2 := by
  let m1 := m.put 0 0 (fdctOut cos sqrt pi m 0 0)
  let m2 := m1.put 0 1 (fdctOut cos sqrt pi m1 0 1)
  let m3 := m2.put 1 0 (fdctOut cos sqrt pi m2 1 0)
  let m4 := m3.put 1 1 (fdctOut cos sqrt pi m3 1 1)
  have step : ∀ (x : Dense α) (l : List (Nat × Nat × α)) (i j : Nat), x.rows = 2 → x.cols = 2 →
      i < 2 → j < 2 → fdctCellLog cos sqrt pi 0 0 2 2 i j [x] l
        = ⟨[x.put i j (fdctOut cos sqrt pi x i j)], l ++ [(i, j, fdctOut cos sqrt pi x i j)],
            none⟩ := by
    intro x l i j hxr hxc hi hj
    rw [fdctCellLog_at cos sqrt pi [x] l 0 0 x 2 2 rfl hxr hxc i j,
      heapSetLog_eq [x] l 0 x rfl i j (by rw [hxr]; exact hi) (by rw [hxc]; exact hj)]
    rfl
  have e1 := step m [] 0 0 hr hc (by decide) (by decide)
  have e2 := step m1 ([] ++ [(0, 0, fdctOut cos sqrt pi m 0 0)]) 0 1 hr hc (by decide) (by decide)
  have e3 := step m2 (([] ++ [(0, 0, fdctOut cos sqrt pi m 0 0)])
    ++ [(0, 1, fdctOut cos sqrt pi m1 0 1)]) 1 0 hr hc (by decide) (by decide)
  have e4 := step m3 ((([] ++ [(0, 0, fdctOut cos sqrt pi m 0 0)])
    ++ [(0, 1, fdctOut cos sqrt pi m1 0 1)]) ++ [(1, 0, fdctOut cos sqrt pi m2 1 0)]) 1 1 hr hc
    (by decide) (by decide)
  unfold FDCTLog
  simp only [List.getElem?_cons_zero, Dense.Dims, hr, hc]
  simp only [forLoopLog_succ, forLoopLog_zero, forStepLog, e1, e2, e3, e4]
  simp [m1]

end LogRoom

/-! ## The properties of the specification -/

section Properties

open Finset

/-- C1: round trip.  For every real matrix `X` with an even number of rows and
of columns (positive or not), `FDCT(X, nil)` returns a matrix, `IDCT` of that matrix
with no destination returns a matrix of the dimensions of `X`, and that matrix
equals `X` cell for cell; so no cell is `different` at the tolerance `1e-10`
of the test. -/
theorem C1_round_trip (h : Heap ℝ) (s : Nat) (X : Dense ℝ) (hs : h[s]? = some X)
    (hR : X.rows % 2 = 0) (hC : X.cols % 2 = 0) :
    ∃ d Z, (FDCT Real.cos Real.sqrt Real.pi h s none).ret = .ok d ∧
      (IDCT Real.cos Real.sqrt Real.pi
        (FDCT Real.cos Real.sqrt Real.pi h s none).heap d none).matrix = some Z ∧
      Z.rows = X.rows ∧ Z.cols = X.cols ∧
      ∀ i j, i < X.rows → j < X.cols →
        Z.data i j = X.data i j ∧ different (X.data i j) (Z.data i j) 1.0e-10 = false := by
  have hF := FDCT_none Real.cos Real.sqrt Real.pi h s X hs hR hC
  set Y := (NewDense X.rows X.cols).fill (fdctOut Real.cos Real.sqrt Real.pi X) X.cols X.rows 0
    with hY
  have hI := IDCT_none_matrix Real.cos Real.sqrt Real.pi (h ++ [Y]) h.length Y
    (getElem?_append_length h Y) hR hC
  refine ⟨h.length, (NewDense Y.rows Y.cols).fill (idctOut Real.cos Real.sqrt Real.pi Y)
    Y.cols Y.rows 0, by rw [hF], by rw [hF]; exact hI, rfl, rfl, ?_⟩
  intro i j hi hj
  have hcell : ((NewDense Y.rows Y.cols).fill (idctOut Real.cos Real.sqrt Real.pi Y)
      Y.cols Y.rows 0).data i j = X.data i j := by
    rw [Dense.fill_data, if_pos ⟨hi, hj⟩, idctOut_eq_tr2]
    apply tr2_inverse (fun k n => basis Real.cos Real.sqrt Real.pi X.rows k n)
      (fun k n => basis Real.cos Real.sqrt Real.pi X.rows n k)
      (fun k n => basis Real.cos Real.sqrt Real.pi X.cols k n)
      (fun k n => basis Real.cos Real.sqrt Real.pi X.cols n k) X.rows X.cols
      (fun a b ha hb => basis_col_orthonormal X.rows a b ha hb)
      (fun a b ha hb => basis_col_orthonormal X.cols a b ha hb) X.data Y.data
      (fun a b ha hb => by
        rw [hY, Dense.fill_data, if_pos ⟨ha, hb⟩, fdctOut_eq_tr2]) i j hi hj
  refine ⟨hcell, ?_⟩
  rw [hcell]
  simp [different]
  norm_num


/-- Witness of C1: the theorem at the four matrices of `TestDCT`. -/
theorem C1_round_trip_witness :
    (∃ d Z, (FDCT Real.cos Real.sqrt Real.pi [testA] 0 none).ret = .ok d ∧
      (IDCT Real.cos Real.sqrt Real.pi
        (FDCT Real.cos Real.sqrt Real.pi [testA] 0 none).heap d none).matrix = some Z ∧
      Z.rows = (testA : Dense ℝ).rows ∧ Z.cols = (testA : Dense ℝ).cols ∧
      ∀ i j, i < (testA : Dense ℝ).rows → j < (testA : Dense ℝ).cols →
        Z.data i j = (testA : Dense ℝ).data i j ∧
          different ((testA : Dense ℝ).data i j) (Z.data i j) 1.0e-10 = false) ∧
    (∃ d Z, (FDCT Real.cos Real.sqrt Real.pi [testB] 0 none).ret = .ok d ∧
      (IDCT Real.cos Real.sqrt Real.pi
        (FDCT Real.cos Real.sqrt Real.pi [testB] 0 none).heap d none).matrix = some Z ∧
      Z.rows = (testB : Dense ℝ).rows ∧ Z.cols = (testB : Dense ℝ).cols ∧
      ∀ i j, i < (testB : Dense ℝ).rows → j < (testB : Dense ℝ).cols →
        Z.data i j = (testB : Dense ℝ).data i j ∧
          different ((testB : Dense ℝ).data i j) (Z.data i j) 1.0e-10 = false) ∧
    (∃ d Z, (FDCT Real.cos Real.sqrt Real.pi [testC] 0 none).ret = .ok d ∧
      (IDCT Real.cos Real.sqrt Real.pi
        (FDCT Real.cos Real.sqrt Real.pi [testC] 0 none).heap d none).matrix = some Z ∧
      Z.rows = (testC : Dense ℝ).rows ∧ Z.cols = (testC : Dense ℝ).cols ∧
      ∀ i j, i < (testC : Dense ℝ).rows → j < (testC : Dense ℝ).cols →
        Z.data i j = (testC : Dense ℝ).data i j ∧
          different ((testC : Dense ℝ).data i j) (Z.data i j) 1.0e-10 = false) ∧
    (∃ d Z, (FDCT Real.cos Real.sqrt Real.pi [testD] 0 none).ret = .ok d ∧
      (IDCT Real.cos Real.sqrt Real.pi
        (FDCT Real.cos Real.sqrt Real.pi [testD] 0 none).heap d none).matrix = some Z ∧
      Z.rows = (testD : Dense ℝ).rows ∧ Z.cols = (testD : Dense ℝ).cols ∧
      ∀ i j, i < (testD : Dense ℝ).rows → j < (testD : Dense ℝ).cols →
        Z.data i j = (testD : Dense ℝ).data i j ∧
          different ((testD : Dense ℝ).data i j) (Z.data i j) 1.0e-10 = false) :=
  ⟨C1_round_trip [testA] 0 testA rfl rfl rfl, C1_round_trip [testB] 0 testB rfl rfl rfl,
    C1_round_trip [testC] 0 testC rfl rfl rfl, C1_round_trip [testD] 0 testD rfl rfl rfl⟩

/-- C2: right inverse.  For every real matrix `Y` with an even number of rows
and of columns, `IDCT(Y, nil)` returns a matrix, `FDCT` of that matrix with no
destination returns a matrix of the dimensions of `Y`, and that matrix equals
`Y` cell for cell. -/
theorem C2_right_inverse (h : Heap ℝ) (s : Nat) (Y : Dense ℝ) (hs : h[s]? = some Y)
    (hR : Y.rows % 2 = 0) (hC : Y.cols % 2 = 0) :
    ∃ d Z, (IDCT Real.cos Real.sqrt Real.pi h s none).ret = .ok d ∧
      (FDCT Real.cos Real.sqrt Real.pi
        (IDCT Real.cos Real.sqrt Real.pi h s none).heap d none).matrix = some Z ∧
      Z.rows = Y.rows ∧ Z.cols = Y.cols ∧
      ∀ i j, i < Y.rows → j < Y.cols → Z.data i j = Y.data i j := by
  have hI := IDCT_none Real.cos Real.sqrt Real.pi h s Y hs hR hC
  set W := (NewDense Y.rows Y.cols).fill (idctOut Real.cos Real.sqrt Real.pi Y) Y.cols Y.rows 0
    with hW
  have hF := FDCT_none_matrix Real.cos Real.sqrt Real.pi (h ++ [W]) h.length W
    (getElem?_append_length h W) hR hC
  refine ⟨h.length, (NewDense W.rows W.cols).fill (fdctOut Real.cos Real.sqrt Real.pi W)
    W.cols W.rows 0, by rw [hI], by rw [hI]; exact hF, rfl, rfl, ?_⟩
  intro i j hi hj
  rw [Dense.fill_data, if_pos ⟨hi, hj⟩, fdctOut_eq_tr2]
  apply tr2_inverse (fun k n => basis Real.cos Real.sqrt Real.pi Y.rows n k)
    (fun k n => basis Real.cos Real.sqrt Real.pi Y.rows k n)
    (fun k n => basis Real.cos Real.sqrt Real.pi Y.cols n k)
    (fun k n => basis Real.cos Real.sqrt Real.pi Y.cols k n) Y.rows Y.cols
    (fun a b ha hb => basis_row_orthonormal Y.rows a b ha hb)
    (fun a b ha hb => basis_row_orthonormal Y.cols a b ha hb) Y.data W.data
    (fun a b ha hb => by
      rw [hW, Dense.fill_data, if_pos ⟨ha, hb⟩, idctOut_eq_tr2]) i j hi hj

/-- Witness of C2: the theorem at a matrix of the tests. -/
theorem C2_right_inverse_witness :
    ∃ d Z, (IDCT Real.cos Real.sqrt Real.pi [testD] 0 none).ret = .ok d ∧
      (FDCT Real.cos Real.sqrt Real.pi
        (IDCT Real.cos Real.sqrt Real.pi [testD] 0 none).heap d none).matrix = some Z ∧
      Z.rows = (testD : Dense ℝ).rows ∧ Z.cols = (testD : Dense ℝ).cols ∧
      ∀ i j, i < (testD : Dense ℝ).rows → j < (testD : Dense ℝ).cols →
        Z.data i j = (testD : Dense ℝ).data i j :=
  C2_right_inverse [testD] 0 testD rfl rfl rfl

/-- C3: dimension rejection is raises-iff.  For every source matrix and no
destination, `FDCT` panics if and only if the row count or the column count is
odd, the panic is then "dct: matrix dimensions must be even", and the same
holds for `IDCT`. -/
theorem C3_dimension_rejection [Field α] (cos sqrt : α → α) (pi : α)
    (h : Heap α) (s : Nat) (X : Dense α) (hs : h[s]? = some X) :
    ((∃ e, (FDCT cos sqrt pi h s none).ret = .error e) ↔ (X.rows % 2 = 1 ∨ X.cols % 2 = 1)) ∧
    (∀ e, (FDCT cos sqrt pi h s none).ret = .error e → e = Panic.dimsOdd) ∧
    ((∃ e, (IDCT cos sqrt pi h s none).ret = .error e) ↔ (X.rows % 2 = 1 ∨ X.cols % 2 = 1)) ∧
    (∀ e, (IDCT cos sqrt pi h s none).ret = .error e → e = Panic.dimsOdd) := by
  by_cases hodd : X.rows % 2 = 1 ∨ X.cols % 2 = 1
  · rw [FDCT_odd cos sqrt pi h s none X hs hodd, IDCT_odd cos sqrt pi h s none X hs hodd]
    simp [hodd]
  · have hR : X.rows % 2 = 0 := by omega
    have hC : X.cols % 2 = 0 := by omega
    rw [FDCT_none cos sqrt pi h s X hs hR hC, IDCT_none cos sqrt pi h s X hs hR hC]
    simp [hodd]

/-- Witness of C3: the theorem at the `3 × 4` matrix of the spec. -/
theorem C3_dimension_rejection_witness :
    (FDCT Real.cos Real.sqrt Real.pi [oddRows] 0 none).ret = .error .dimsOdd ∧
    (IDCT Real.cos Real.sqrt Real.pi [oddRows] 0 none).ret = .error .dimsOdd := by
  have h := C3_dimension_rejection Real.cos Real.sqrt Real.pi [oddRows] 0 oddRows rfl
  obtain ⟨e1, he1⟩ := h.1.mpr (Or.inl rfl)
  obtain ⟨e2, he2⟩ := h.2.2.1.mpr (Or.inl rfl)
  exact ⟨by rw [he1, h.2.1 e1 he1], by rw [he2, h.2.2.2 e2 he2]⟩

/-- C4: forward formula.  For every even-dimensioned source and every cell
`(k1, k2)` of it, `FDCT(src, nil)` returns a matrix whose cell `(k1, k2)` is
the forward formula of the spec. -/
theorem C4_forward_formula (h : Heap ℝ) (s : Nat) (X : Dense ℝ) (hs : h[s]? = some X)
    (hR : X.rows % 2 = 0) (hC : X.cols % 2 = 0) (k1 k2 : Nat)
    (hk1 : k1 < X.rows) (hk2 : k2 < X.cols) :
    ∃ Y, (FDCT Real.cos Real.sqrt Real.pi h s none).matrix = some Y ∧
      Y.data k1 k2 = forwardFormula Real.cos Real.sqrt Real.pi X.data X.rows X.cols k1 k2 := by
  refine ⟨_, FDCT_none_matrix Real.cos Real.sqrt Real.pi h s X hs hR hC, ?_⟩
  rw [Dense.fill_data, if_pos ⟨hk1, hk2⟩, fdctOut_eq_forwardFormula]

/-- Witness of C4: the theorem at a matrix of the tests. -/
theorem C4_forward_formula_witness :
    ∃ Y, (FDCT Real.cos Real.sqrt Real.pi [testB] 0 none).matrix = some Y ∧
      Y.data 0 1 = forwardFormula Real.cos Real.sqrt Real.pi (testB : Dense ℝ).data
        (testB : Dense ℝ).rows (testB : Dense ℝ).cols 0 1 :=
  C4_forward_formula [testB] 0 testB rfl rfl rfl 0 1 (by decide) (by decide)

/-- C5: inverse formula.  For every even-dimensioned source and every cell
`(k1, k2)` of it, `IDCT(src, nil)` returns a matrix whose cell `(k1, k2)` is
the inverse formula of the spec, with the coefficients at the summation
index. -/
theorem C5_inverse_formula (h : Heap ℝ) (s : Nat) (X : Dense ℝ) (hs : h[s]? = some X)
    (hR : X.rows % 2 = 0) (hC : X.cols % 2 = 0) (k1 k2 : Nat)
    (hk1 : k1 < X.rows) (hk2 : k2 < X.cols) :
    ∃ Y, (IDCT Real.cos Real.sqrt Real.pi h s none).matrix = some Y ∧
      Y.data k1 k2 = inverseFormula Real.cos Real.sqrt Real.pi X.data X.rows X.cols k1 k2 := by
  refine ⟨_, IDCT_none_matrix Real.cos Real.sqrt Real.pi h s X hs hR hC, ?_⟩
  rw [Dense.fill_data, if_pos ⟨hk1, hk2⟩, idctOut_eq_inverseFormula]

/-- Witness of C5: the theorem at a matrix of the tests. -/
theorem C5_inverse_formula_witness :
    ∃ Y, (IDCT Real.cos Real.sqrt Real.pi [testB] 0 none).matrix = some Y ∧
      Y.data 0 1 = inverseFormula Real.cos Real.sqrt Real.pi (testB : Dense ℝ).data
        (testB : Dense ℝ).rows (testB : Dense ℝ).cols 0 1 :=
  C5_inverse_formula [testB] 0 testB rfl rfl rfl 0 1 (by decide) (by decide)

/-- C6: energy preservation (Parseval).  For every even-dimensioned real
matrix `X`, `FDCT(X, nil)` returns a matrix whose squared entries sum to the
sum of the squared entries of `X`. -/
theorem C6_energy_preservation (h : Heap ℝ) (s : Nat) (X : Dense ℝ) (hs : h[s]? = some X)
    (hR : X.rows % 2 = 0) (hC : X.cols % 2 = 0) :
    ∃ Y, (FDCT Real.cos Real.sqrt Real.pi h s none).matrix = some Y ∧ energy Y = energy X := by
  refine ⟨_, FDCT_none_matrix Real.cos Real.sqrt Real.pi h s X hs hR hC, ?_⟩
  unfold energy
  simp only [Dense.fill_rows, Dense.fill_cols, NewDense, pow_two]
  rw [← tr2_energy (fun k n => basis Real.cos Real.sqrt Real.pi X.rows k n)
    (fun k n => basis Real.cos Real.sqrt Real.pi X.cols k n) X.rows X.cols
    (fun a b ha hb => basis_col_orthonormal X.rows a b ha hb)
    (fun a b ha hb => basis_col_orthonormal X.cols a b ha hb) X.data]
  apply sum_congr rfl
  intro i hi
  apply sum_congr rfl
  intro j hj
  have := Dense.fill_data (⟨X.rows, X.cols, fun _ _ => 0⟩ : Dense ℝ)
    (fdctOut Real.cos Real.sqrt Real.pi X) X.cols X.rows i j
  rw [if_pos ⟨mem_range.mp hi, mem_range.mp hj⟩, fdctOut_eq_tr2] at this
  rw [this]

/-- Witness of C6: the theorem at a matrix of the tests. -/
theorem C6_energy_preservation_witness :
    ∃ Y, (FDCT Real.cos Real.sqrt Real.pi [testC] 0 none).matrix = some Y ∧
      energy Y = energy (testC : Dense ℝ) :=
  C6_energy_preservation [testC] 0 testC rfl rfl rfl

/-- C7, as stated, fails: a supplied destination is not forced to the shape
of the source.  With the `2 × 2` source `[[0,1],[0,1]]`: a `4 × 4` destination
is returned with 4 rows and 4 columns; a `1 × 1` destination makes `FDCT` panic
at the cell `(0, 1)`; and the source itself as destination is returned with
`-1/2` in the cell `(0, 1)`, where the transform of the source has `-1`. -/
theorem C7_counterexample :
    (∃ Y, (FDCT Real.cos Real.sqrt Real.pi [testB, NewDense 4 4] 0 (some 1)).matrix = some Y ∧
      Y.rows = 4 ∧ Y.cols = 4 ∧ (testB : Dense ℝ).rows = 2 ∧ (testB : Dense ℝ).cols = 2) ∧
    (FDCT Real.cos Real.sqrt Real.pi [testB, NewDense 1 1] 0 (some 1)).ret
      = .error .colAccess ∧
    (∃ Y, (FDCT Real.cos Real.sqrt Real.pi [testB] 0 (some 0)).matrix = some Y ∧
      Y.data 0 1 = -1 / 2 ∧
      forwardFormula Real.cos Real.sqrt Real.pi (testB : Dense ℝ).data 2 2 0 1 = -1) := by
  refine ⟨?_, ?_, ?_⟩
  · rw [FDCT_some Real.cos Real.sqrt Real.pi [testB, NewDense 4 4] 0 1 testB (NewDense 4 4)
      rfl rfl (by decide) rfl rfl (by decide) (by decide)]
    exact ⟨_, rfl, rfl, rfl, rfl, rfl⟩
  · exact FDCT_narrow Real.cos Real.sqrt Real.pi [testB, NewDense 1 1] 0 1 testB (NewDense 1 1)
      rfl rfl (by decide) rfl rfl (by decide) (by decide) (by decide)
  · obtain ⟨Y, hY, hcell⟩ := FDCT_inplace_two Real.cos Real.sqrt Real.pi (testB : Dense ℝ) rfl rfl
    refine ⟨Y, hY, ?_, ?_⟩
    · rw [hcell, fdctOut_two_01 _ rfl rfl]
      simp only [Dense.put]
      rw [fdctOut_two_00 _ rfl rfl]
      simp [testB, NewDenseOf]
    · show forwardFormula Real.cos Real.sqrt Real.pi (testB : Dense ℝ).data
        (testB : Dense ℝ).rows (testB : Dense ℝ).cols 0 1 = -1
      rw [← fdctOut_eq_forwardFormula, fdctOut_two_01 _ rfl rfl]
      simp [testB, NewDenseOf]
      norm_num

/-- C7, amended: a supplied destination is used as it is.  For every
even-dimensioned `R × C` source and every supplied destination that is not the
source and has at least `R` rows and `C` columns, `FDCT` and `IDCT` return the
destination with its own dimensions; its cells `(i, j)` with `i < R` and
`j < C` hold the transform of the source and its other cells are as before. -/
theorem C7_supplied_buffer_used_as_is (h : Heap ℝ) (s d : Nat) (X D : Dense ℝ)
    (hs : h[s]? = some X) (hd : h[d]? = some D) (hsd : s ≠ d)
    (hR : X.rows % 2 = 0) (hC : X.cols % 2 = 0)
    (hr : X.rows ≤ D.rows) (hc : X.cols ≤ D.cols) :
    (∃ Y, (FDCT Real.cos Real.sqrt Real.pi h s (some d)).ret = .ok d ∧
      (FDCT Real.cos Real.sqrt Real.pi h s (some d)).matrix = some Y ∧
      Y.rows = D.rows ∧ Y.cols = D.cols ∧
      ∀ i j, Y.data i j = if i < X.rows ∧ j < X.cols
        then forwardFormula Real.cos Real.sqrt Real.pi X.data X.rows X.cols i j
        else D.data i j) ∧
    (∃ Y, (IDCT Real.cos Real.sqrt Real.pi h s (some d)).ret = .ok d ∧
      (IDCT Real.cos Real.sqrt Real.pi h s (some d)).matrix = some Y ∧
      Y.rows = D.rows ∧ Y.cols = D.cols ∧
      ∀ i j, Y.data i j = if i < X.rows ∧ j < X.cols
        then inverseFormula Real.cos Real.sqrt Real.pi X.data X.rows X.cols i j
        else D.data i j) := by
  have hdl := lt_length_of_getElem? h d D hd
  constructor
  · refine ⟨D.fill (fdctOut Real.cos Real.sqrt Real.pi X) X.cols X.rows 0, ?_, ?_, rfl, rfl, ?_⟩
    · rw [FDCT_some Real.cos Real.sqrt Real.pi h s d X D hs hd hsd hR hC hr hc]
    · rw [FDCT_some Real.cos Real.sqrt Real.pi h s d X D hs hd hsd hR hC hr hc]
      simp [Outcome.matrix, hdl]
    · intro i j
      rw [Dense.fill_data]
      split
      · rw [fdctOut_eq_forwardFormula]
      · rfl
  · refine ⟨D.fill (idctOut Real.cos Real.sqrt Real.pi X) X.cols X.rows 0, ?_, ?_, rfl, rfl, ?_⟩
    · rw [IDCT_some Real.cos Real.sqrt Real.pi h s d X D hs hd hsd hR hC hr hc]
    · rw [IDCT_some Real.cos Real.sqrt Real.pi h s d X D hs hd hsd hR hC hr hc]
      simp [Outcome.matrix, hdl]
    · intro i j
      rw [Dense.fill_data]
      split
      · rw [idctOut_eq_inverseFormula]
      · rfl

/-- Witness of C7: the theorem at the second test matrix and a `4 × 4` destination. -/
theorem C7_supplied_buffer_used_as_is_witness :
    (∃ Y, (FDCT Real.cos Real.sqrt Real.pi [testB, NewDense 4 4] 0 (some 1)).ret = .ok 1 ∧
      (FDCT Real.cos Real.sqrt Real.pi [testB, NewDense 4 4] 0 (some 1)).matrix = some Y ∧
      Y.rows = (NewDense 4 4 : Dense ℝ).rows ∧ Y.cols = (NewDense 4 4 : Dense ℝ).cols ∧
      ∀ i j, Y.data i j = if i < (testB : Dense ℝ).rows ∧ j < (testB : Dense ℝ).cols
        then forwardFormula Real.cos Real.sqrt Real.pi (testB : Dense ℝ).data
          (testB : Dense ℝ).rows (testB : Dense ℝ).cols i j
        else (NewDense 4 4 : Dense ℝ).data i j) ∧
    (∃ Y, (IDCT Real.cos Real.sqrt Real.pi [testB, NewDense 4 4] 0 (some 1)).ret = .ok 1 ∧
      (IDCT Real.cos Real.sqrt Real.pi [testB, NewDense 4 4] 0 (some 1)).matrix = some Y ∧
      Y.rows = (NewDense 4 4 : Dense ℝ).rows ∧ Y.cols = (NewDense 4 4 : Dense ℝ).cols ∧
      ∀ i j, Y.data i j = if i < (testB : Dense ℝ).rows ∧ j < (testB : Dense ℝ).cols
        then inverseFormula Real.cos Real.sqrt Real.pi (testB : Dense ℝ).data
          (testB : Dense ℝ).rows (testB : Dense ℝ).cols i j
        else (NewDense 4 4 : Dense ℝ).data i j) :=
  C7_supplied_buffer_used_as_is [testB, NewDense 4 4] 0 1 testB (NewDense 4 4) rfl rfl
    (by decide) rfl rfl (by decide) (by decide)

/-- C8: prior contents of the destination are overwritten and the destination
is what is returned.  For every even-dimensioned `R × C` source and every
supplied `R × C` destination that is not the source, `FDCT(src, dst)` returns
`dst`, and its cells afterwards are those of `FDCT(src, nil)`, run on the same
source in any heap: they do not depend on what `dst` held.  The same holds
for `IDCT`. -/
theorem C8_destination_overwritten (h : Heap ℝ) (s d : Nat) (X D : Dense ℝ)
    (hs : h[s]? = some X) (hd : h[d]? = some D) (hsd : s ≠ d)
    (hR : X.rows % 2 = 0) (hC : X.cols % 2 = 0)
    (hr : D.rows = X.rows) (hc : D.cols = X.cols)
    (h' : Heap ℝ) (s' : Nat) (hs' : h'[s']? = some X) :
    (∃ Y T, (FDCT Real.cos Real.sqrt Real.pi h s (some d)).ret = .ok d ∧
      (FDCT Real.cos Real.sqrt Real.pi h s (some d)).matrix = some Y ∧
      (FDCT Real.cos Real.sqrt Real.pi h' s' none).matrix = some T ∧
      Y.rows = T.rows ∧ Y.cols = T.cols ∧
      ∀ i j, i < Y.rows → j < Y.cols → Y.data i j = T.data i j) ∧
    (∃ Y T, (IDCT Real.cos Real.sqrt Real.pi h s (some d)).ret = .ok d ∧
      (IDCT Real.cos Real.sqrt Real.pi h s (some d)).matrix = some Y ∧
      (IDCT Real.cos Real.sqrt Real.pi h' s' none).matrix = some T ∧
      Y.rows = T.rows ∧ Y.cols = T.cols ∧
      ∀ i j, i < Y.rows → j < Y.cols → Y.data i j = T.data i j) := by
  have hdl := lt_length_of_getElem? h d D hd
  constructor
  · refine ⟨D.fill (fdctOut Real.cos Real.sqrt Real.pi X) X.cols X.rows 0, _, ?_, ?_,
      FDCT_none_matrix Real.cos Real.sqrt Real.pi h' s' X hs' hR hC, hr, hc, ?_⟩
    · rw [FDCT_some Real.cos Real.sqrt Real.pi h s d X D hs hd hsd hR hC (le_of_eq hr.symm)
        (le_of_eq hc.symm)]
    · rw [FDCT_some Real.cos Real.sqrt Real.pi h s d X D hs hd hsd hR hC (le_of_eq hr.symm)
        (le_of_eq hc.symm)]
      simp [Outcome.matrix, hdl]
    · intro i j hi hj
      have hi' : i < X.rows := by rw [← hr]; exact hi
      have hj' : j < X.cols := by rw [← hc]; exact hj
      rw [Dense.fill_data, Dense.fill_data, if_pos ⟨hi', hj'⟩, if_pos ⟨hi', hj'⟩]
  · refine ⟨D.fill (idctOut Real.cos Real.sqrt Real.pi X) X.cols X.rows 0, _, ?_, ?_,
      IDCT_none_matrix Real.cos Real.sqrt Real.pi h' s' X hs' hR hC, hr, hc, ?_⟩
    · rw [IDCT_some Real.cos Real.sqrt Real.pi h s d X D hs hd hsd hR hC (le_of_eq hr.symm)
        (le_of_eq hc.symm)]
    · rw [IDCT_some Real.cos Real.sqrt Real.pi h s d X D hs hd hsd hR hC (le_of_eq hr.symm)
        (le_of_eq hc.symm)]
      simp [Outcome.matrix, hdl]
    · intro i j hi hj
      have hi' : i < X.rows := by rw [← hr]; exact hi
      have hj' : j < X.cols := by rw [← hc]; exact hj
      rw [Dense.fill_data, Dense.fill_data, if_pos ⟨hi', hj'⟩, if_pos ⟨hi', hj'⟩]

/-- Witness of C8: the theorem at the second test matrix, with the third as destination. -/
theorem C8_destination_overwritten_witness :
    (∃ Y T, (FDCT Real.cos Real.sqrt Real.pi [testB, testC] 0 (some 1)).ret = .ok 1 ∧
      (FDCT Real.cos Real.sqrt Real.pi [testB, testC] 0 (some 1)).matrix = some Y ∧
      (FDCT Real.cos Real.sqrt Real.pi [testB] 0 none).matrix = some T ∧
      Y.rows = T.rows ∧ Y.cols = T.cols ∧
      ∀ i j, i < Y.rows → j < Y.cols → Y.data i j = T.data i j) ∧
    (∃ Y T, (IDCT Real.cos Real.sqrt Real.pi [testB, testC] 0 (some 1)).ret = .ok 1 ∧
      (IDCT Real.cos Real.sqrt Real.pi [testB, testC] 0 (some 1)).matrix = some Y ∧
      (IDCT Real.cos Real.sqrt Real.pi [testB] 0 none).matrix = some T ∧
      Y.rows = T.rows ∧ Y.cols = T.cols ∧
      ∀ i j, i < Y.rows → j < Y.cols → Y.data i j = T.data i j) :=
  C8_destination_overwritten [testB, testC] 0 1 testB testC rfl rfl (by decide) rfl rfl rfl rfl
    [testB] 0 rfl

/-- C9: atomicity on rejection.  For every source with an odd row count or an
odd column count and every destination, supplied or not, `FDCT` and `IDCT`
panic with "dct: matrix dimensions must be even" and the heap, the contents
of the destination included, is as it was before the call. -/
theorem C9_atomic_rejection [Field α] (cos sqrt : α → α) (pi : α)
    (h : Heap α) (s : Nat) (X : Dense α) (hs : h[s]? = some X)
    (hodd : X.rows % 2 = 1 ∨ X.cols % 2 = 1) (dst : Option Nat) :
    (FDCT cos sqrt pi h s dst).ret = .error .dimsOdd ∧
    (FDCT cos sqrt pi h s dst).heap = h ∧
    (IDCT cos sqrt pi h s dst).ret = .error .dimsOdd ∧
    (IDCT cos sqrt pi h s dst).heap = h := by
  rw [FDCT_odd cos sqrt pi h s dst X hs hodd, IDCT_odd cos sqrt pi h s dst X hs hodd]
  exact ⟨rfl, rfl, rfl, rfl⟩

/-- Witness of C9: the theorem at the `3 × 4` matrix, with a supplied destination. -/
theorem C9_atomic_rejection_witness :
    (FDCT Real.cos Real.sqrt Real.pi [oddRows, testA] 0 (some 1)).ret = .error .dimsOdd ∧
    (FDCT Real.cos Real.sqrt Real.pi [oddRows, testA] 0 (some 1)).heap = [oddRows, testA] ∧
    (IDCT Real.cos Real.sqrt Real.pi [oddRows, testA] 0 (some 1)).ret = .error .dimsOdd ∧
    (IDCT Real.cos Real.sqrt Real.pi [oddRows, testA] 0 (some 1)).heap = [oddRows, testA] :=
  C9_atomic_rejection Real.cos Real.sqrt Real.pi [oddRows, testA] 0 oddRows rfl (Or.inl rfl)
    (some 1)

/-- C10: the source is left unchanged.  For every source and every
destination that is nil or a matrix other than the source, after `FDCT` or
`IDCT`, whether the call returned or panicked, the source holds what it held
before, and so does every matrix of the heap other than the destination. -/
theorem C10_source_unchanged [Field α] (cos sqrt : α → α) (pi : α)
    (h : Heap α) (s : Nat) (X : Dense α) (hs : h[s]? = some X)
    (dst : Option Nat) (hne : dst ≠ some s) :
    (FDCT cos sqrt pi h s dst).heap[s]? = some X ∧
    (∀ p, p < h.length → dst ≠ some p → (FDCT cos sqrt pi h s dst).heap[p]? = h[p]?) ∧
    (IDCT cos sqrt pi h s dst).heap[s]? = some X ∧
    (∀ p, p < h.length → dst ≠ some p → (IDCT cos sqrt pi h s dst).heap[p]? = h[p]?) := by
  have hsl := lt_length_of_getElem? h s X hs
  refine ⟨?_, fun p hp hd => FDCT_frame cos sqrt pi h s dst p hp hd, ?_,
    fun p hp hd => IDCT_frame cos sqrt pi h s dst p hp hd⟩
  · rw [FDCT_frame cos sqrt pi h s dst s hsl hne, hs]
  · rw [IDCT_frame cos sqrt pi h s dst s hsl hne, hs]

/-- Witness of C10: the theorem at the first test matrix, with the second as destination. -/
theorem C10_source_unchanged_witness :
    (FDCT Real.cos Real.sqrt Real.pi [testA, testB] 0 (some 1)).heap[0]? = some testA ∧
    (∀ p, p < [(testA : Dense ℝ), testB].length → some 1 ≠ some p →
      (FDCT Real.cos Real.sqrt Real.pi [testA, testB] 0 (some 1)).heap[p]?
        = [(testA : Dense ℝ), testB][p]?) ∧
    (IDCT Real.cos Real.sqrt Real.pi [testA, testB] 0 (some 1)).heap[0]? = some testA ∧
    (∀ p, p < [(testA : Dense ℝ), testB].length → some 1 ≠ some p →
      (IDCT Real.cos Real.sqrt Real.pi [testA, testB] 0 (some 1)).heap[p]?
        = [(testA : Dense ℝ), testB][p]?) :=
  C10_source_unchanged Real.cos Real.sqrt Real.pi [testA, testB] 0 testA rfl (some 1)
    (by decide)

/-- C11: dimensions are preserved.  For every even-dimensioned source and no
destination, `FDCT` returns a matrix with the row and column counts of the
source, and so does `IDCT`. -/
theorem C11_dimensions_preserved [Field α] (cos sqrt : α → α) (pi : α)
    (h : Heap α) (s : Nat) (X : Dense α) (hs : h[s]? = some X)
    (hR : X.rows % 2 = 0) (hC : X.cols % 2 = 0) :
    (∃ Y, (FDCT cos sqrt pi h s none).matrix = some Y ∧ Y.rows = X.rows ∧ Y.cols = X.cols) ∧
    (∃ Y, (IDCT cos sqrt pi h s none).matrix = some Y ∧ Y.rows = X.rows ∧ Y.cols = X.cols) :=
  ⟨⟨_, FDCT_none_matrix cos sqrt pi h s X hs hR hC, rfl, rfl⟩,
    ⟨_, IDCT_none_matrix cos sqrt pi h s X hs hR hC, rfl, rfl⟩⟩

/-- Witness of C11: the theorem at the fourth test matrix, `4 × 2`. -/
theorem C11_dimensions_preserved_witness :
    (∃ Y, (FDCT Real.cos Real.sqrt Real.pi [testD] 0 none).matrix = some Y ∧
      Y.rows = (testD : Dense ℝ).rows ∧ Y.cols = (testD : Dense ℝ).cols) ∧
    (∃ Y, (IDCT Real.cos Real.sqrt Real.pi [testD] 0 none).matrix = some Y ∧
      Y.rows = (testD : Dense ℝ).rows ∧ Y.cols = (testD : Dense ℝ).cols) :=
  C11_dimensions_preserved Real.cos Real.sqrt Real.pi [testD] 0 testD rfl rfl rfl

/-- C12: linearity.  For all even-dimensioned matrices `X` and `Y` of the same
shape and all scalars `a` and `b`, the cells of `FDCT(a*X + b*Y, nil)` are
`a` times those of `FDCT(X, nil)` plus `b` times those of `FDCT(Y, nil)`, and
likewise for `IDCT`; and both return the zero matrix on the zero matrix. -/
theorem C12_linearity (hx hy hz : Heap ℝ) (sx sy sz : Nat) (X Y : Dense ℝ) (a b : ℝ)
    (hX : hx[sx]? = some X) (hY : hy[sy]? = some Y)
    (hZ : hz[sz]? = some (Dense.axpby a b X Y))
    (hR : X.rows % 2 = 0) (hC : X.cols % 2 = 0)
    (hr : Y.rows = X.rows) (hc : Y.cols = X.cols) :
    (∃ FX FY FZ, (FDCT Real.cos Real.sqrt Real.pi hx sx none).matrix = some FX ∧
      (FDCT Real.cos Real.sqrt Real.pi hy sy none).matrix = some FY ∧
      (FDCT Real.cos Real.sqrt Real.pi hz sz none).matrix = some FZ ∧
      ∀ i j, i < X.rows → j < X.cols → FZ.data i j = a * FX.data i j + b * FY.data i j) ∧
    (∃ IX IY IZ, (IDCT Real.cos Real.sqrt Real.pi hx sx none).matrix = some IX ∧
      (IDCT Real.cos Real.sqrt Real.pi hy sy none).matrix = some IY ∧
      (IDCT Real.cos Real.sqrt Real.pi hz sz none).matrix = some IZ ∧
      ∀ i j, i < X.rows → j < X.cols → IZ.data i j = a * IX.data i j + b * IY.data i j) ∧
    (∀ (h0 : Heap ℝ) (s0 : Nat), h0[s0]? = some (NewDense X.rows X.cols) →
      (∃ F0, (FDCT Real.cos Real.sqrt Real.pi h0 s0 none).matrix = some F0 ∧
        ∀ i j, F0.data i j = 0) ∧
      (∃ I0, (IDCT Real.cos Real.sqrt Real.pi h0 s0 none).matrix = some I0 ∧
        ∀ i j, I0.data i j = 0)) := by
  have hRY : Y.rows % 2 = 0 := by rw [hr]; exact hR
  have hCY : Y.cols % 2 = 0 := by rw [hc]; exact hC
  refine ⟨⟨_, _, _, FDCT_none_matrix Real.cos Real.sqrt Real.pi hx sx X hX hR hC,
      FDCT_none_matrix Real.cos Real.sqrt Real.pi hy sy Y hY hRY hCY,
      FDCT_none_matrix Real.cos Real.sqrt Real.pi hz sz _ hZ hR hC, ?_⟩,
    ⟨_, _, _, IDCT_none_matrix Real.cos Real.sqrt Real.pi hx sx X hX hR hC,
      IDCT_none_matrix Real.cos Real.sqrt Real.pi hy sy Y hY hRY hCY,
      IDCT_none_matrix Real.cos Real.sqrt Real.pi hz sz _ hZ hR hC, ?_⟩, ?_⟩
  · intro i j hi hj
    have hi' : i < Y.rows := by rw [hr]; exact hi
    have hj' : j < Y.cols := by rw [hc]; exact hj
    rw [Dense.fill_data, Dense.fill_data, Dense.fill_data, if_pos ⟨hi, hj⟩, if_pos ⟨hi, hj⟩,
      if_pos ⟨hi', hj'⟩, fdctOut_eq_tr2, fdctOut_eq_tr2, fdctOut_eq_tr2, hr, hc]
    exact tr2_linear _ _ X.rows X.cols X.data Y.data a b i j
  · intro i j hi hj
    have hi' : i < Y.rows := by rw [hr]; exact hi
    have hj' : j < Y.cols := by rw [hc]; exact hj
    rw [Dense.fill_data, Dense.fill_data, Dense.fill_data, if_pos ⟨hi, hj⟩, if_pos ⟨hi, hj⟩,
      if_pos ⟨hi', hj'⟩, idctOut_eq_tr2, idctOut_eq_tr2, idctOut_eq_tr2, hr, hc]
    exact tr2_linear _ _ X.rows X.cols X.data Y.data a b i j
  · intro h0 s0 h0s
    refine ⟨⟨_, FDCT_none_matrix Real.cos Real.sqrt Real.pi h0 s0 _ h0s hR hC, ?_⟩,
      ⟨_, IDCT_none_matrix Real.cos Real.sqrt Real.pi h0 s0 _ h0s hR hC, ?_⟩⟩
    · intro i j
      rw [Dense.fill_data]
      split
      · simp [fdctOut, fdctAcc, NewDense]
      · rfl
    · intro i j
      rw [Dense.fill_data]
      split
      · simp [idctOut, NewDense]
      · rfl

/-- Witness of C12: the theorem at `2*X + 3*Y` for the second and third test
matrices. -/
theorem C12_linearity_witness :
    (∃ FX FY FZ, (FDCT Real.cos Real.sqrt Real.pi [testB] 0 none).matrix = some FX ∧
      (FDCT Real.cos Real.sqrt Real.pi [testC] 0 none).matrix = some FY ∧
      (FDCT Real.cos Real.sqrt Real.pi [Dense.axpby 2 3 testB testC] 0 none).matrix = some FZ ∧
      ∀ i j, i < (testB : Dense ℝ).rows → j < (testB : Dense ℝ).cols →
        FZ.data i j = 2 * FX.data i j + 3 * FY.data i j) ∧
    (∃ IX IY IZ, (IDCT Real.cos Real.sqrt Real.pi [testB] 0 none).matrix = some IX ∧
      (IDCT Real.cos Real.sqrt Real.pi [testC] 0 none).matrix = some IY ∧
      (IDCT Real.cos Real.sqrt Real.pi [Dense.axpby 2 3 testB testC] 0 none).matrix = some IZ ∧
      ∀ i j, i < (testB : Dense ℝ).rows → j < (testB : Dense ℝ).cols →
        IZ.data i j = 2 * IX.data i j + 3 * IY.data i j) ∧
    (∀ (h0 : Heap ℝ) (s0 : Nat),
      h0[s0]? = some (NewDense (testB : Dense ℝ).rows (testB : Dense ℝ).cols) →
      (∃ F0, (FDCT Real.cos Real.sqrt Real.pi h0 s0 none).matrix = some F0 ∧
        ∀ i j, F0.data i j = 0) ∧
      (∃ I0, (IDCT Real.cos Real.sqrt Real.pi h0 s0 none).matrix = some I0 ∧
        ∀ i j, I0.data i j = 0)) :=
  C12_linearity [testB] [testC] [Dense.axpby 2 3 testB testC] 0 0 0 testB testC 2 3 rfl rfl rfl
    rfl rfl rfl rfl

/-- C13: determinism and statelessness.  For every even-dimensioned source
`X`, two calls `FDCT(X, nil)`, in whatever heaps and at whatever addresses `X`
is stored, return the same matrix, and likewise for `IDCT`: the result is a
function of the source alone.  In particular a call of `FDCT` or `IDCT` on
another matrix in between, with any destination that is not `X`, changes
nothing of the result. -/
theorem C13_determinism [Field α] (cos sqrt : α → α) (pi : α)
    (h1 h2 : Heap α) (s1 s2 : Nat) (X : Dense α)
    (hs1 : h1[s1]? = some X) (hs2 : h2[s2]? = some X)
    (hR : X.rows % 2 = 0) (hC : X.cols % 2 = 0) :
    (∃ Y, (FDCT cos sqrt pi h1 s1 none).matrix = some Y ∧
      (FDCT cos sqrt pi h2 s2 none).matrix = some Y) ∧
    (∃ Y, (IDCT cos sqrt pi h1 s1 none).matrix = some Y ∧
      (IDCT cos sqrt pi h2 s2 none).matrix = some Y) ∧
    (∀ (s' : Nat) (dst' : Option Nat), dst' ≠ some s1 →
      (FDCT cos sqrt pi (FDCT cos sqrt pi h1 s' dst').heap s1 none).matrix
        = (FDCT cos sqrt pi h1 s1 none).matrix ∧
      (FDCT cos sqrt pi (IDCT cos sqrt pi h1 s' dst').heap s1 none).matrix
        = (FDCT cos sqrt pi h1 s1 none).matrix ∧
      (IDCT cos sqrt pi (FDCT cos sqrt pi h1 s' dst').heap s1 none).matrix
        = (IDCT cos sqrt pi h1 s1 none).matrix ∧
      (IDCT cos sqrt pi (IDCT cos sqrt pi h1 s' dst').heap s1 none).matrix
        = (IDCT cos sqrt pi h1 s1 none).matrix) := by
  have hl := lt_length_of_getElem? h1 s1 X hs1
  refine ⟨⟨_, FDCT_none_matrix cos sqrt pi h1 s1 X hs1 hR hC,
      FDCT_none_matrix cos sqrt pi h2 s2 X hs2 hR hC⟩,
    ⟨_, IDCT_none_matrix cos sqrt pi h1 s1 X hs1 hR hC,
      IDCT_none_matrix cos sqrt pi h2 s2 X hs2 hR hC⟩, ?_⟩
  intro s' dst' hne
  have hF : (FDCT cos sqrt pi h1 s' dst').heap[s1]? = some X := by
    rw [FDCT_frame cos sqrt pi h1 s' dst' s1 hl hne, hs1]
  have hI : (IDCT cos sqrt pi h1 s' dst').heap[s1]? = some X := by
    rw [IDCT_frame cos sqrt pi h1 s' dst' s1 hl hne, hs1]
  rw [FDCT_none_matrix cos sqrt pi _ s1 X hF hR hC, FDCT_none_matrix cos sqrt pi _ s1 X hI hR hC,
    IDCT_none_matrix cos sqrt pi _ s1 X hF hR hC, IDCT_none_matrix cos sqrt pi _ s1 X hI hR hC,
    FDCT_none_matrix cos sqrt pi h1 s1 X hs1 hR hC, IDCT_none_matrix cos sqrt pi h1 s1 X hs1 hR hC]
  exact ⟨rfl, rfl, rfl, rfl⟩

/-- Witness of C13: the theorem at the first test matrix, stored alone and
stored after the second test matrix. -/
theorem C13_determinism_witness :
    (∃ Y, (FDCT Real.cos Real.sqrt Real.pi [testA] 0 none).matrix = some Y ∧
      (FDCT Real.cos Real.sqrt Real.pi [testB, testA] 1 none).matrix = some Y) ∧
    (∃ Y, (IDCT Real.cos Real.sqrt Real.pi [testA] 0 none).matrix = some Y ∧
      (IDCT Real.cos Real.sqrt Real.pi [testB, testA] 1 none).matrix = some Y) ∧
    (∀ (s' : Nat) (dst' : Option Nat), dst' ≠ some 0 →
      (FDCT Real.cos Real.sqrt Real.pi
          (FDCT Real.cos Real.sqrt Real.pi [testA] s' dst').heap 0 none).matrix
        = (FDCT Real.cos Real.sqrt Real.pi [testA] 0 none).matrix ∧
      (FDCT Real.cos Real.sqrt Real.pi
          (IDCT Real.cos Real.sqrt Real.pi [testA] s' dst').heap 0 none).matrix
        = (FDCT Real.cos Real.sqrt Real.pi [testA] 0 none).matrix ∧
      (IDCT Real.cos Real.sqrt Real.pi
          (FDCT Real.cos Real.sqrt Real.pi [testA] s' dst').heap 0 none).matrix
        = (IDCT Real.cos Real.sqrt Real.pi [testA] 0 none).matrix ∧
      (IDCT Real.cos Real.sqrt Real.pi
          (IDCT Real.cos Real.sqrt Real.pi [testA] s' dst').heap 0 none).matrix
        = (IDCT Real.cos Real.sqrt Real.pi [testA] 0 none).matrix) :=
  C13_determinism Real.cos Real.sqrt Real.pi [testA] [testB, testA] 0 1 testA rfl rfl rfl rfl

/-- C14: separability.  For every even-dimensioned `R × C` matrix `X`, every
cell of `FDCT(X, nil)` is the cell obtained by applying the orthonormal
one-dimensional DCT-II of length `C` to every row of `X` and then the DCT-II
of length `R` to every column of the result, and also the cell obtained with
the columns first and the rows second; the same holds for `IDCT` with the
one-dimensional DCT-III. -/
theorem C14_separability (h : Heap ℝ) (s : Nat) (X : Dense ℝ) (hs : h[s]? = some X)
    (hR : X.rows % 2 = 0) (hC : X.cols % 2 = 0) :
    (∃ F, (FDCT Real.cos Real.sqrt Real.pi h s none).matrix = some F ∧
      ∀ k1 k2, k1 < X.rows → k2 < X.cols →
        F.data k1 k2 = onCols (dct2 Real.cos Real.sqrt Real.pi X.rows)
          (onRows (dct2 Real.cos Real.sqrt Real.pi X.cols) X.data) k1 k2 ∧
        F.data k1 k2 = onRows (dct2 Real.cos Real.sqrt Real.pi X.cols)
          (onCols (dct2 Real.cos Real.sqrt Real.pi X.rows) X.data) k1 k2) ∧
    (∃ I, (IDCT Real.cos Real.sqrt Real.pi h s none).matrix = some I ∧
      ∀ k1 k2, k1 < X.rows → k2 < X.cols →
        I.data k1 k2 = onCols (dct3 Real.cos Real.sqrt Real.pi X.rows)
          (onRows (dct3 Real.cos Real.sqrt Real.pi X.cols) X.data) k1 k2 ∧
        I.data k1 k2 = onRows (dct3 Real.cos Real.sqrt Real.pi X.cols)
          (onCols (dct3 Real.cos Real.sqrt Real.pi X.rows) X.data) k1 k2) := by
  refine ⟨⟨_, FDCT_none_matrix Real.cos Real.sqrt Real.pi h s X hs hR hC, ?_⟩,
    ⟨_, IDCT_none_matrix Real.cos Real.sqrt Real.pi h s X hs hR hC, ?_⟩⟩
  · intro k1 k2 hk1 hk2
    rw [Dense.fill_data, if_pos ⟨hk1, hk2⟩]
    exact fdctOut_two_pass Real.cos Real.sqrt Real.pi X k1 k2
  · intro k1 k2 hk1 hk2
    rw [Dense.fill_data, if_pos ⟨hk1, hk2⟩]
    exact idctOut_two_pass Real.cos Real.sqrt Real.pi X k1 k2

/-- Witness of C14: the theorem at the fourth test matrix, `4 × 2`. -/
theorem C14_separability_witness :
    (∃ F, (FDCT Real.cos Real.sqrt Real.pi [testD] 0 none).matrix = some F ∧
      ∀ k1 k2, k1 < (testD : Dense ℝ).rows → k2 < (testD : Dense ℝ).cols →
        F.data k1 k2 = onCols (dct2 Real.cos Real.sqrt Real.pi (testD : Dense ℝ).rows)
          (onRows (dct2 Real.cos Real.sqrt Real.pi (testD : Dense ℝ).cols)
            (testD : Dense ℝ).data) k1 k2 ∧
        F.data k1 k2 = onRows (dct2 Real.cos Real.sqrt Real.pi (testD : Dense ℝ).cols)
          (onCols (dct2 Real.cos Real.sqrt Real.pi (testD : Dense ℝ).rows)
            (testD : Dense ℝ).data) k1 k2) ∧
    (∃ I, (IDCT Real.cos Real.sqrt Real.pi [testD] 0 none).matrix = some I ∧
      ∀ k1 k2, k1 < (testD : Dense ℝ).rows → k2 < (testD : Dense ℝ).cols →
        I.data k1 k2 = onCols (dct3 Real.cos Real.sqrt Real.pi (testD : Dense ℝ).rows)
          (onRows (dct3 Real.cos Real.sqrt Real.pi (testD : Dense ℝ).cols)
            (testD : Dense ℝ).data) k1 k2 ∧
        I.data k1 k2 = onRows (dct3 Real.cos Real.sqrt Real.pi (testD : Dense ℝ).cols)
          (onCols (dct3 Real.cos Real.sqrt Real.pi (testD : Dense ℝ).rows)
            (testD : Dense ℝ).data) k1 k2) :=
  C14_separability [testD] 0 testD rfl rfl rfl

/-- C15: orthonormality of the basis.  For every length `N` and all `k`,
`k'` below `N` (so `N ≥ 1`), the sum over `n < N` of
`c(k,N)*cos(pi/N*(n+0.5)*k) * c(k',N)*cos(pi/N*(n+0.5)*k')` is `1` when
`k = k'` and `0` otherwise. -/
theorem C15_basis_orthonormal (N k k' : Nat) (hk : k < N) (hk' : k' < N) :
    ∑ n in Finset.range N,
      coef Real.sqrt k N * Real.cos (Real.pi / (N : ℝ) * ((n : ℝ) + 0.5) * (k : ℝ))
        * (coef Real.sqrt k' N * Real.cos (Real.pi / (N : ℝ) * ((n : ℝ) + 0.5) * (k' : ℝ)))
      = if k = k' then 1 else 0 :=
  basis_row_orthonormal N k k' hk hk'

/-- Witness of C15: two different basis vectors of length 3, an odd length,
are orthogonal. -/
theorem C15_basis_orthonormal_witness :
    ∑ n in Finset.range 3,
      coef Real.sqrt 1 3 * Real.cos (Real.pi / ((3 : ℕ) : ℝ) * ((n : ℝ) + 0.5) * ((1 : ℕ) : ℝ))
        * (coef Real.sqrt 2 3
          * Real.cos (Real.pi / ((3 : ℕ) : ℝ) * ((n : ℝ) + 0.5) * ((2 : ℕ) : ℝ)))
      = if 1 = 2 then 1 else 0 :=
  C15_basis_orthonormal 3 1 2 (by decide) (by decide)

/-- C16: the forward and inverse transforms are different functions.  The
`4 × 2` test matrix `[[0,1],[2,3],[4,5],[6,7]]` is even-dimensioned, and the
cell `(0, 0)` of `FDCT` of it is `7 * sqrt 2` while the cell `(0, 0)` of `IDCT`
of it is smaller. -/
theorem C16_transforms_differ :
    (testD : Dense ℝ).rows % 2 = 0 ∧ (testD : Dense ℝ).cols % 2 = 0 ∧
    ∃ F I, (FDCT Real.cos Real.sqrt Real.pi [testD] 0 none).matrix = some F ∧
      (IDCT Real.cos Real.sqrt Real.pi [testD] 0 none).matrix = some I ∧
      F.data 0 0 = 7 * Real.sqrt 2 ∧ I.data 0 0 < 7 * Real.sqrt 2 ∧
      F.data 0 0 ≠ I.data 0 0 := by
  refine ⟨rfl, rfl, _, _, FDCT_none_matrix Real.cos Real.sqrt Real.pi [testD] 0 testD rfl rfl rfl,
    IDCT_none_matrix Real.cos Real.sqrt Real.pi [testD] 0 testD rfl rfl rfl, ?_, ?_, ?_⟩
  · rw [Dense.fill_data, if_pos ⟨by decide, by decide⟩]
    exact fdctOut_testD_00
  · rw [Dense.fill_data, if_pos ⟨by decide, by decide⟩]
    exact idctOut_testD_00
  · rw [Dense.fill_data, Dense.fill_data, if_pos ⟨by decide, by decide⟩,
      if_pos ⟨by decide, by decide⟩, fdctOut_testD_00]
    exact (ne_of_lt idctOut_testD_00).symm

/-- C17, as stated, fails for a supplied destination.  With the `2 × 2`
source `[[0,1],[0,1]]`, which is even-dimensioned: into a `1 × 1` destination
`FDCT` calls `Set` on `(0, 0)` and on `(0, 1)`, panics there, and never
targets `(1, 0)` or `(1, 1)`; and into the source itself the value of the call
on `(0, 1)` is `-1/2`, where the formula of the source at that cell is `-1`:
it depends on the cell `(0, 0)` written before. -/
theorem C17_counterexample :
    ((testB : Dense ℝ).rows % 2 = 0 ∧ (testB : Dense ℝ).cols % 2 = 0) ∧
    ((FDCTLog Real.cos Real.sqrt Real.pi [testB, NewDense 1 1] 0 (some 1)).1
        = FDCT Real.cos Real.sqrt Real.pi [testB, NewDense 1 1] 0 (some 1) ∧
      (FDCTLog Real.cos Real.sqrt Real.pi [testB, NewDense 1 1] 0 (some 1)).1.ret
        = .error .colAccess ∧
      (FDCTLog Real.cos Real.sqrt Real.pi [testB, NewDense 1 1] 0 (some 1)).2.map target
        = [(0, 0), (0, 1)]) ∧
    ((0, 1, (-1 / 2 : ℝ)) ∈ (FDCTLog Real.cos Real.sqrt Real.pi [testB] 0 (some 0)).2 ∧
      forwardFormula Real.cos Real.sqrt Real.pi (testB : Dense ℝ).data 2 2 0 1 = -1) := by
  refine ⟨⟨rfl, rfl⟩, ⟨FDCTLog_erase _ _ _ _ _ _, ?_, ?_⟩, ⟨?_, ?_⟩⟩
  · exact (FDCTLog_narrow_two Real.cos Real.sqrt Real.pi (testB : Dense ℝ) (NewDense 1 1)
      rfl rfl rfl rfl).1
  · exact (FDCTLog_narrow_two Real.cos Real.sqrt Real.pi (testB : Dense ℝ) (NewDense 1 1)
      rfl rfl rfl rfl).2
  · have hmem := FDCTLog_inplace_two Real.cos Real.sqrt Real.pi (testB : Dense ℝ) rfl rfl
    have hval : fdctOut Real.cos Real.sqrt Real.pi
        ((testB : Dense ℝ).put 0 0 (fdctOut Real.cos Real.sqrt Real.pi (testB : Dense ℝ) 0 0))
        0 1 = -1 / 2 := by
      rw [fdctOut_two_01 _ rfl rfl]
      simp only [Dense.put]
      rw [fdctOut_two_00 _ rfl rfl]
      simp [testB, NewDenseOf]
    rw [hval] at hmem
    exact hmem
  · show forwardFormula Real.cos Real.sqrt Real.pi (testB : Dense ℝ).data
      (testB : Dense ℝ).rows (testB : Dense ℝ).cols 0 1 = -1
    rw [← fdctOut_eq_forwardFormula, fdctOut_two_01 _ rfl rfl]
    simp [testB, NewDenseOf]
    norm_num

/-- C17, amended: every output cell is written exactly once when the
destination has room.  For every even-dimensioned `R × C` source, with no
destination or with a supplied destination, the source itself or another
matrix, that has at least `R` rows and `C` columns, `FDCT` returns and the
cells targeted by the calls of `dst.Set` it makes are, in order, the cells
`(k1, k2)` with `k1 < R` and `k2 < C` row by row: no cell twice, `R*C` calls,
a cell is targeted exactly when it is in that range.  When the destination is
nil or is not the source, the value written to a cell is the forward formula
of the source at that cell, which mentions nothing of `dst`.  The same holds
for `IDCT` with the inverse formula. -/
theorem C17_cells_written_once_with_room [Field α] (cos sqrt : α → α) (pi : α)
    (h : Heap α) (s : Nat) (dst : Option Nat) (X : Dense α)
    (hs : h[s]? = some X) (hR : X.rows % 2 = 0) (hC : X.cols % 2 = 0)
    (hroom : ∀ d, dst = some d → ∃ D, h[d]? = some D ∧ X.rows ≤ D.rows ∧ X.cols ≤ D.cols) :
    ((FDCTLog cos sqrt pi h s dst).1 = FDCT cos sqrt pi h s dst ∧
      (∃ d, (FDCT cos sqrt pi h s dst).ret = .ok d) ∧
      (FDCTLog cos sqrt pi h s dst).2.map target
        = List.product (List.range X.rows) (List.range X.cols) ∧
      ((FDCTLog cos sqrt pi h s dst).2.map target).Nodup ∧
      ((FDCTLog cos sqrt pi h s dst).2.map target).length = X.rows * X.cols ∧
      (∀ k1 k2, (k1, k2) ∈ (FDCTLog cos sqrt pi h s dst).2.map target
        ↔ k1 < X.rows ∧ k2 < X.cols) ∧
      (dst ≠ some s → ∀ e, e ∈ (FDCTLog cos sqrt pi h s dst).2 →
        e.2.2 = forwardFormula cos sqrt pi X.data X.rows X.cols e.1 e.2.1)) ∧
    ((IDCTLog cos sqrt pi h s dst).1 = IDCT cos sqrt pi h s dst ∧
      (∃ d, (IDCT cos sqrt pi h s dst).ret = .ok d) ∧
      (IDCTLog cos sqrt pi h s dst).2.map target
        = List.product (List.range X.rows) (List.range X.cols) ∧
      ((IDCTLog cos sqrt pi h s dst).2.map target).Nodup ∧
      ((IDCTLog cos sqrt pi h s dst).2.map target).length = X.rows * X.cols ∧
      (∀ k1 k2, (k1, k2) ∈ (IDCTLog cos sqrt pi h s dst).2.map target
        ↔ k1 < X.rows ∧ k2 < X.cols) ∧
      (dst ≠ some s → ∀ e, e ∈ (IDCTLog cos sqrt pi h s dst).2 →
        e.2.2 = inverseFormula cos sqrt pi X.data X.rows X.cols e.1 e.2.1)) := by
  obtain ⟨hFok, hFt⟩ := FDCTLog_targets cos sqrt pi h s dst X hs hR hC hroom
  obtain ⟨hIok, hIt⟩ := IDCTLog_targets cos sqrt pi h s dst X hs hR hC hroom
  rw [cellTargets_product] at hFt hIt
  rw [FDCTLog_erase] at hFok
  rw [IDCTLog_erase] at hIok
  have hnd : (List.product (List.range X.rows) (List.range X.cols)).Nodup :=
    List.Nodup.product (List.nodup_range _) (List.nodup_range _)
  have hlen : (List.product (List.range X.rows) (List.range X.cols)).length
      = X.rows * X.cols := by
    have hl := List.length_product (List.range X.rows) (List.range X.cols)
    rw [List.length_range, List.length_range] at hl
    exact hl
  have hmem : ∀ k1 k2, (k1, k2) ∈ List.product (List.range X.rows) (List.range X.cols)
      ↔ k1 < X.rows ∧ k2 < X.cols := by
    intro k1 k2
    have hm := @List.mem_product _ _ (List.range X.rows) (List.range X.cols) k1 k2
    rw [List.mem_range, List.mem_range] at hm
    exact hm
  have hdst : dst ≠ some s → ∀ d, dst = some d →
      s ≠ d ∧ ∃ D, h[d]? = some D ∧ X.rows ≤ D.rows ∧ X.cols ≤ D.cols := by
    intro hne d hd
    exact ⟨fun e => hne (by rw [hd, e]), hroom d hd⟩
  constructor
  · refine ⟨FDCTLog_erase cos sqrt pi h s dst, hFok, hFt, ?_, ?_, ?_, ?_⟩
    · rw [hFt]; exact hnd
    · rw [hFt]; exact hlen
    · rw [hFt]; exact hmem
    · intro hne e he
      rw [FDCTLog_log cos sqrt pi h s dst X hs hR hC (hdst hne)] at he
      rw [cellLog_values _ _ _ e he, fdctOut_eq_forwardFormula]
  · refine ⟨IDCTLog_erase cos sqrt pi h s dst, hIok, hIt, ?_, ?_, ?_, ?_⟩
    · rw [hIt]; exact hnd
    · rw [hIt]; exact hlen
    · rw [hIt]; exact hmem
    · intro hne e he
      rw [IDCTLog_log cos sqrt pi h s dst X hs hR hC (hdst hne)] at he
      rw [cellLog_values _ _ _ e he, idctOut_eq_inverseFormula]

/-- Witness of C17: the theorem at the fourth test matrix, `4 × 2`, with a
supplied `4 × 4` destination. -/
theorem C17_cells_written_once_with_room_witness :
    ((FDCTLog Real.cos Real.sqrt Real.pi [testD, NewDense 4 4] 0 (some 1)).1
        = FDCT Real.cos Real.sqrt Real.pi [testD, NewDense 4 4] 0 (some 1) ∧
      (∃ d, (FDCT Real.cos Real.sqrt Real.pi [testD, NewDense 4 4] 0 (some 1)).ret = .ok d) ∧
      (FDCTLog Real.cos Real.sqrt Real.pi [testD, NewDense 4 4] 0 (some 1)).2.map target
        = List.product (List.range (testD : Dense ℝ).rows) (List.range (testD : Dense ℝ).cols) ∧
      ((FDCTLog Real.cos Real.sqrt Real.pi [testD, NewDense 4 4] 0 (some 1)).2.map target).Nodup ∧
      ((FDCTLog Real.cos Real.sqrt Real.pi [testD, NewDense 4 4] 0 (some 1)).2.map target).length
        = (testD : Dense ℝ).rows * (testD : Dense ℝ).cols ∧
      (∀ k1 k2,
        (k1, k2) ∈ (FDCTLog Real.cos Real.sqrt Real.pi [testD, NewDense 4 4] 0 (some 1)).2.map target
          ↔ k1 < (testD : Dense ℝ).rows ∧ k2 < (testD : Dense ℝ).cols) ∧
      ((some 1 : Option Nat) ≠ some 0 →
        ∀ e, e ∈ (FDCTLog Real.cos Real.sqrt Real.pi [testD, NewDense 4 4] 0 (some 1)).2 →
          e.2.2 = forwardFormula Real.cos Real.sqrt Real.pi (testD : Dense ℝ).data
            (testD : Dense ℝ).rows (testD : Dense ℝ).cols e.1 e.2.1)) ∧
    ((IDCTLog Real.cos Real.sqrt Real.pi [testD, NewDense 4 4] 0 (some 1)).1
        = IDCT Real.cos Real.sqrt Real.pi [testD, NewDense 4 4] 0 (some 1) ∧
      (∃ d, (IDCT Real.cos Real.sqrt Real.pi [testD, NewDense 4 4] 0 (some 1)).ret = .ok d) ∧
      (IDCTLog Real.cos Real.sqrt Real.pi [testD, NewDense 4 4] 0 (some 1)).2.map target
        = List.product (List.range (testD : Dense ℝ).rows) (List.range (testD : Dense ℝ).cols) ∧
      ((IDCTLog Real.cos Real.sqrt Real.pi [testD, NewDense 4 4] 0 (some 1)).2.map target).Nodup ∧
      ((IDCTLog Real.cos Real.sqrt Real.pi [testD, NewDense 4 4] 0 (some 1)).2.map target).length
        = (testD : Dense ℝ).rows * (testD : Dense ℝ).cols ∧
      (∀ k1 k2,
        (k1, k2) ∈ (IDCTLog Real.cos Real.sqrt Real.pi [testD, NewDense 4 4] 0 (some 1)).2.map target
          ↔ k1 < (testD : Dense ℝ).rows ∧ k2 < (testD : Dense ℝ).cols) ∧
      ((some 1 : Option Nat) ≠ some 0 →
        ∀ e, e ∈ (IDCTLog Real.cos Real.sqrt Real.pi [testD, NewDense 4 4] 0 (some 1)).2 →
          e.2.2 = inverseFormula Real.cos Real.sqrt Real.pi (testD : Dense ℝ).data
            (testD : Dense ℝ).rows (testD : Dense ℝ).cols e.1 e.2.1)) :=
  C17_cells_written_once_with_room Real.cos Real.sqrt Real.pi [testD, NewDense 4 4] 0 (some 1)
    testD rfl rfl rfl
    (fun d hd => by
      cases hd
      exact ⟨NewDense 4 4, rfl, by decide, by decide⟩)

/-- C18: on `2 × 2` input the two transforms coincide and are involutions.
For every real `2 × 2` matrix `X`, `FDCT(X, nil)` and `IDCT(X, nil)` are equal
cell for cell and `FDCT(FDCT(X, nil), nil)` is `X` cell for cell; and for the
test input `[[0,1],[0,1]]` both return `[[1,-1],[0,0]]`. -/
theorem C18_two_by_two (h : Heap ℝ) (s : Nat) (X : Dense ℝ) (hs : h[s]? = some X)
    (hr : X.rows = 2) (hc : X.cols = 2) :
    (∃ d F I Z, (FDCT Real.cos Real.sqrt Real.pi h s none).ret = .ok d ∧
      (FDCT Real.cos Real.sqrt Real.pi h s none).matrix = some F ∧
      (IDCT Real.cos Real.sqrt Real.pi h s none).matrix = some I ∧
      (∀ i j, i < 2 → j < 2 → F.data i j = I.data i j) ∧
      (FDCT Real.cos Real.sqrt Real.pi
        (FDCT Real.cos Real.sqrt Real.pi h s none).heap d none).matrix = some Z ∧
      Z.rows = 2 ∧ Z.cols = 2 ∧
      ∀ i j, i < 2 → j < 2 → Z.data i j = X.data i j) ∧
    (∃ F I, (FDCT Real.cos Real.sqrt Real.pi [testB] 0 none).matrix = some F ∧
      (IDCT Real.cos Real.sqrt Real.pi [testB] 0 none).matrix = some I ∧
      F.data 0 0 = 1 ∧ F.data 0 1 = -1 ∧ F.data 1 0 = 0 ∧ F.data 1 1 = 0 ∧
      I.data 0 0 = 1 ∧ I.data 0 1 = -1 ∧ I.data 1 0 = 0 ∧ I.data 1 1 = 0) := by
  have hR : X.rows % 2 = 0 := by rw [hr]
  have hC : X.cols % 2 = 0 := by rw [hc]
  constructor
  · have hF := FDCT_none Real.cos Real.sqrt Real.pi h s X hs hR hC
    set F := (NewDense X.rows X.cols).fill (fdctOut Real.cos Real.sqrt Real.pi X) X.cols X.rows 0
      with hFdef
    have hFr : F.rows = 2 := hr
    have hFc : F.cols = 2 := hc
    have hcellF : ∀ i j, i < 2 → j < 2 → F.data i j = fdctOut Real.cos Real.sqrt Real.pi X i j := by
      intro i j hi hj
      rw [hFdef, Dense.fill_data, if_pos ⟨by rw [hr]; exact hi, by rw [hc]; exact hj⟩]
    have hZ := FDCT_none_matrix Real.cos Real.sqrt Real.pi (h ++ [F]) h.length F
      (getElem?_append_length h F) (by rw [hFr]) (by rw [hFc])
    obtain ⟨i00, i01, i10, i11⟩ := idctOut_two X hr hc
    refine ⟨h.length, F,
      (NewDense X.rows X.cols).fill (idctOut Real.cos Real.sqrt Real.pi X) X.cols X.rows 0,
      (NewDense F.rows F.cols).fill (fdctOut Real.cos Real.sqrt Real.pi F) F.cols F.rows 0,
      by rw [hF], by rw [hF]; simp [Outcome.matrix],
      IDCT_none_matrix Real.cos Real.sqrt Real.pi h s X hs hR hC, ?_, by rw [hF]; exact hZ,
      hFr, hFc, ?_⟩
    · intro i j hi hj
      rw [hcellF i j hi hj, Dense.fill_data, if_pos ⟨by rw [hr]; exact hi, by rw [hc]; exact hj⟩]
      interval_cases i <;> interval_cases j
      · rw [fdctOut_two_00 X hr hc, i00]
      · rw [fdctOut_two_01 X hr hc, i01]
      · rw [fdctOut_two_10 X hr hc, i10]
      · rw [fdctOut_two_11 X hr hc, i11]
    · intro i j hi hj
      rw [Dense.fill_data, if_pos ⟨lt_of_lt_of_eq hi hFr.symm, lt_of_lt_of_eq hj hFc.symm⟩]
      interval_cases i <;> interval_cases j
      · rw [fdctOut_two_00 F hFr hFc, hcellF 0 0 (by decide) (by decide),
          hcellF 0 1 (by decide) (by decide), hcellF 1 0 (by decide) (by decide),
          hcellF 1 1 (by decide) (by decide), fdctOut_two_00 X hr hc, fdctOut_two_01 X hr hc,
          fdctOut_two_10 X hr hc, fdctOut_two_11 X hr hc]
        ring
      · rw [fdctOut_two_01 F hFr hFc, hcellF 0 0 (by decide) (by decide),
          hcellF 0 1 (by decide) (by decide), hcellF 1 0 (by decide) (by decide),
          hcellF 1 1 (by decide) (by decide), fdctOut_two_00 X hr hc, fdctOut_two_01 X hr hc,
          fdctOut_two_10 X hr hc, fdctOut_two_11 X hr hc]
        ring
      · rw [fdctOut_two_10 F hFr hFc, hcellF 0 0 (by decide) (by decide),
          hcellF 0 1 (by decide) (by decide), hcellF 1 0 (by decide) (by decide),
          hcellF 1 1 (by decide) (by decide), fdctOut_two_00 X hr hc, fdctOut_two_01 X hr hc,
          fdctOut_two_10 X hr hc, fdctOut_two_11 X hr hc]
        ring
      · rw [fdctOut_two_11 F hFr hFc, hcellF 0 0 (by decide) (by decide),
          hcellF 0 1 (by decide) (by decide), hcellF 1 0 (by decide) (by decide),
          hcellF 1 1 (by decide) (by decide), fdctOut_two_00 X hr hc, fdctOut_two_01 X hr hc,
          fdctOut_two_10 X hr hc, fdctOut_two_11 X hr hc]
        ring
  · obtain ⟨i00, i01, i10, i11⟩ := idctOut_two (testB : Dense ℝ) rfl rfl
    refine ⟨_, _, FDCT_none_matrix Real.cos Real.sqrt Real.pi [testB] 0 testB rfl rfl rfl,
      IDCT_none_matrix Real.cos Real.sqrt Real.pi [testB] 0 testB rfl rfl rfl,
      ?_, ?_, ?_, ?_, ?_, ?_, ?_, ?_⟩
    · rw [Dense.fill_data, if_pos ⟨by decide, by decide⟩, fdctOut_two_00 _ rfl rfl]
      simp [testB, NewDenseOf]
    · rw [Dense.fill_data, if_pos ⟨by decide, by decide⟩, fdctOut_two_01 _ rfl rfl]
      simp [testB, NewDenseOf]
      norm_num
    · rw [Dense.fill_data, if_pos ⟨by decide, by decide⟩, fdctOut_two_10 _ rfl rfl]
      simp [testB, NewDenseOf]
    · rw [Dense.fill_data, if_pos ⟨by decide, by decide⟩, fdctOut_two_11 _ rfl rfl]
      simp [testB, NewDenseOf]
    · rw [Dense.fill_data, if_pos ⟨by decide, by decide⟩, i00]
      simp [testB, NewDenseOf]
    · rw [Dense.fill_data, if_pos ⟨by decide, by decide⟩, i01]
      simp [testB, NewDenseOf]
      norm_num
    · rw [Dense.fill_data, if_pos ⟨by decide, by decide⟩, i10]
      simp [testB, NewDenseOf]
    · rw [Dense.fill_data, if_pos ⟨by decide, by decide⟩, i11]
      simp [testB, NewDenseOf]

/-- Witness of C18: the theorem at the third test matrix, `[[6,1],[6,1]]`. -/
theorem C18_two_by_two_witness :
    (∃ d F I Z, (FDCT Real.cos Real.sqrt Real.pi [testC] 0 none).ret = .ok d ∧
      (FDCT Real.cos Real.sqrt Real.pi [testC] 0 none).matrix = some F ∧
      (IDCT Real.cos Real.sqrt Real.pi [testC] 0 none).matrix = some I ∧
      (∀ i j, i < 2 → j < 2 → F.data i j = I.data i j) ∧
      (FDCT Real.cos Real.sqrt Real.pi
        (FDCT Real.cos Real.sqrt Real.pi [testC] 0 none).heap d none).matrix = some Z ∧
      Z.rows = 2 ∧ Z.cols = 2 ∧
      ∀ i j, i < 2 → j < 2 → Z.data i j = (testC : Dense ℝ).data i j) ∧
    (∃ F I, (FDCT Real.cos Real.sqrt Real.pi [testB] 0 none).matrix = some F ∧
      (IDCT Real.cos Real.sqrt Real.pi [testB] 0 none).matrix = some I ∧
      F.data 0 0 = 1 ∧ F.data 0 1 = -1 ∧ F.data 1 0 = 0 ∧ F.data 1 1 = 0 ∧
      I.data 0 0 = 1 ∧ I.data 0 1 = -1 ∧ I.data 1 0 = 0 ∧ I.data 1 1 = 0) :=
  C18_two_by_two [testC] 0 testC rfl rfl rfl

/-- C19: `IDCT` is the adjoint of `FDCT`.  For all even-dimensioned matrices
`X` and `Y` of the same shape, the sum over all cells of
`FDCT(X, nil)[i,j] * Y[i,j]` equals the sum over all cells of
`X[i,j] * IDCT(Y, nil)[i,j]`. -/
theorem C19_adjoint (hx hy : Heap ℝ) (sx sy : Nat) (X Y : Dense ℝ)
    (hX : hx[sx]? = some X) (hY : hy[sy]? = some Y)
    (hR : X.rows % 2 = 0) (hC : X.cols % 2 = 0)
    (hr : Y.rows = X.rows) (hc : Y.cols = X.cols) :
    ∃ FX IY, (FDCT Real.cos Real.sqrt Real.pi hx sx none).matrix = some FX ∧
      (IDCT Real.cos Real.sqrt Real.pi hy sy none).matrix = some IY ∧
      cellSum X.rows X.cols FX.data Y.data = cellSum X.rows X.cols X.data IY.data := by
  have hRY : Y.rows % 2 = 0 := by rw [hr]; exact hR
  have hCY : Y.cols % 2 = 0 := by rw [hc]; exact hC
  refine ⟨_, _, FDCT_none_matrix Real.cos Real.sqrt Real.pi hx sx X hX hR hC,
    IDCT_none_matrix Real.cos Real.sqrt Real.pi hy sy Y hY hRY hCY, ?_⟩
  rw [cellSum_congr X.rows X.cols _
      (tr2 (fun k n => basis Real.cos Real.sqrt Real.pi X.rows k n)
        (fun k n => basis Real.cos Real.sqrt Real.pi X.cols k n) X.rows X.cols X.data)
      Y.data Y.data
      (fun i j hi hj => by rw [Dense.fill_data, if_pos ⟨hi, hj⟩, fdctOut_eq_tr2])
      (fun _ _ _ _ => rfl),
    tr2_adjoint]
  apply cellSum_congr
  · intro _ _ _ _
    rfl
  · intro i j hi hj
    have hi' : i < Y.rows := by rw [hr]; exact hi
    have hj' : j < Y.cols := by rw [hc]; exact hj
    rw [Dense.fill_data, if_pos ⟨hi', hj'⟩, idctOut_eq_tr2, hr, hc]

/-- Witness of C19: the theorem at the second and third test matrices. -/
theorem C19_adjoint_witness :
    ∃ FX IY, (FDCT Real.cos Real.sqrt Real.pi [testB] 0 none).matrix = some FX ∧
      (IDCT Real.cos Real.sqrt Real.pi [testC] 0 none).matrix = some IY ∧
      cellSum (testB : Dense ℝ).rows (testB : Dense ℝ).cols FX.data (testC : Dense ℝ).data
        = cellSum (testB : Dense ℝ).rows (testB : Dense ℝ).cols (testB : Dense ℝ).data IY.data :=
  C19_adjoint [testB] [testC] 0 0 testB testC rfl rfl rfl rfl rfl rfl

/-- C20: a constant matrix has only a DC coefficient.  For every even positive
`R` and `C`: if every cell of the `R × C` matrix `X` equals `v` then the cell
`(0, 0)` of `FDCT(X, nil)` is `v * sqrt(R*C)` and every other cell is `0`; and
if the `R × C` matrix `D` is `d` at `(0, 0)` and `0` elsewhere then every cell
of `IDCT(D, nil)` is `d / sqrt(R*C)`. -/
theorem C20_constant_matrix (hx hd : Heap ℝ) (sx sd : Nat) (X D : Dense ℝ) (v d : ℝ)
    (hX : hx[sx]? = some X) (hD : hd[sd]? = some D)
    (hR : X.rows % 2 = 0) (hC : X.cols % 2 = 0) (hRp : 0 < X.rows) (hCp : 0 < X.cols)
    (hr : D.rows = X.rows) (hc : D.cols = X.cols)
    (hv : ∀ i j, i < X.rows → j < X.cols → X.data i j = v)
    (hd0 : ∀ i j, i < X.rows → j < X.cols → D.data i j = if i = 0 ∧ j = 0 then d else 0) :
    (∃ F, (FDCT Real.cos Real.sqrt Real.pi hx sx none).matrix = some F ∧
      F.data 0 0 = v * Real.sqrt ((X.rows : ℝ) * (X.cols : ℝ)) ∧
      ∀ k1 k2, k1 < X.rows → k2 < X.cols → (k1 ≠ 0 ∨ k2 ≠ 0) → F.data k1 k2 = 0) ∧
    (∃ I, (IDCT Real.cos Real.sqrt Real.pi hd sd none).matrix = some I ∧
      ∀ i j, i < X.rows → j < X.cols →
        I.data i j = d / Real.sqrt ((X.rows : ℝ) * (X.cols : ℝ))) := by
  have hRD : D.rows % 2 = 0 := by rw [hr]; exact hR
  have hCD : D.cols % 2 = 0 := by rw [hc]; exact hC
  refine ⟨⟨_, FDCT_none_matrix Real.cos Real.sqrt Real.pi hx sx X hX hR hC, ?_, ?_⟩,
    ⟨_, IDCT_none_matrix Real.cos Real.sqrt Real.pi hd sd D hD hRD hCD, ?_⟩⟩
  · rw [Dense.fill_data, if_pos ⟨hRp, hCp⟩, fdctOut_const X v hv 0 0 hRp hCp]
    simp
  · intro k1 k2 hk1 hk2 hne
    rw [Dense.fill_data, if_pos ⟨hk1, hk2⟩, fdctOut_const X v hv k1 k2 hk1 hk2, if_neg]
    intro h
    rcases hne with h1 | h2
    · exact h1 h.1
    · exact h2 h.2
  · intro i j hi hj
    have hi' : i < D.rows := by rw [hr]; exact hi
    have hj' : j < D.cols := by rw [hc]; exact hj
    rw [Dense.fill_data, if_pos ⟨hi', hj'⟩,
      idctOut_delta D d (fun a b ha hb => hd0 a b (by rw [← hr]; exact ha) (by rw [← hc]; exact hb))
        i j (by rw [hr]; exact hRp) (by rw [hc]; exact hCp), hr, hc]

/-- Witness of C20: the theorem at the `2 × 2` matrix of fives and the `2 × 2`
matrix that is `3` at `(0, 0)` and `0` elsewhere. -/
theorem C20_constant_matrix_witness :
    (∃ F, (FDCT Real.cos Real.sqrt Real.pi [NewDenseOf 2 2 [5, 5, 5, 5]] 0 none).matrix = some F ∧
      F.data 0 0 = 5 * Real.sqrt (((NewDenseOf 2 2 [5, 5, 5, 5] : Dense ℝ).rows : ℝ)
        * ((NewDenseOf 2 2 [5, 5, 5, 5] : Dense ℝ).cols : ℝ)) ∧
      ∀ k1 k2, k1 < (NewDenseOf 2 2 [5, 5, 5, 5] : Dense ℝ).rows →
        k2 < (NewDenseOf 2 2 [5, 5, 5, 5] : Dense ℝ).cols → (k1 ≠ 0 ∨ k2 ≠ 0) →
        F.data k1 k2 = 0) ∧
    (∃ I, (IDCT Real.cos Real.sqrt Real.pi [NewDenseOf 2 2 [3, 0, 0, 0]] 0 none).matrix = some I ∧
      ∀ i j, i < (NewDenseOf 2 2 [5, 5, 5, 5] : Dense ℝ).rows →
        j < (NewDenseOf 2 2 [5, 5, 5, 5] : Dense ℝ).cols →
        I.data i j = 3 / Real.sqrt (((NewDenseOf 2 2 [5, 5, 5, 5] : Dense ℝ).rows : ℝ)
          * ((NewDenseOf 2 2 [5, 5, 5, 5] : Dense ℝ).cols : ℝ))) :=
  C20_constant_matrix [NewDenseOf 2 2 [5, 5, 5, 5]] [NewDenseOf 2 2 [3, 0, 0, 0]] 0 0
    (NewDenseOf 2 2 [5, 5, 5, 5]) (NewDenseOf 2 2 [3, 0, 0, 0]) 5 3 rfl rfl rfl rfl
    (by decide) (by decide) rfl rfl
    (by
      intro i j hi hj
      have hi2 : i < 2 := hi
      have hj2 : j < 2 := hj
      interval_cases i <;> interval_cases j <;> simp [NewDenseOf])
    (by
      intro i j hi hj
      have hi2 : i < 2 := hi
      have hj2 : j < 2 := hj
      interval_cases i <;> interval_cases j <;> simp [NewDenseOf])

end Properties

end Dct
